import Mathlib

/-!
# sensorbee: the group-by execution plan and the topologies of `core`

Namespace `Execution` is about `bql/execution/groupby_execution_plan.go`: it
holds a shallow embedding of `CanBuildGroupbyExecutionPlan`, of
`performQueryOnBuffer` and of the closures it is made of (`findOrCreateGroup`,
`evalItem`, `evalGroup`, `rollback`), followed by the properties of the
specification that concern them.

* Go maps (`data.Map`, `map[string][]data.Value`) are association lists that are
  read with `getKey`, written with `setKey` and shrunk with `deleteKey`.
* Go errors are strings, a fallible call returns `Except Err _`.
* The two result slices of the plan live in an explicit store of backing arrays,
  so that "the same underlying array" is a statement about array identifiers.
* The combined rows of the buffers are a list, in the order in which they are
  enumerated; another iteration order over the buffers is a permutation of it.

Namespace `Core` holds the dynamic topology and the static topology builder that
`core/default_dynamic_topology_test.go` and `core/defaulttopology_test.go`
exercise. The sources at hand have the tests and not the controllers, so the
definitions of `Core` follow the specification, each saying which sentence it
follows.

* A node of a dynamic topology is its position in the list of the wrappers ever
  made, which stands for the identity of the Go pointer; the registry maps names
  to positions, and a removed node keeps its position and its state.
* A topology is a value, a call returns the topology it leaves; the states that
  calls reach from a new topology are `runCalls calls NewDefaultDynamicTopology`.
* A declarer of the static builder carries the builder as its calls have left
  it; the builders that calls reach are `buildCalls calls
  NewDefaultStaticTopologyBuilder`.
-/

set_option autoImplicit false

namespace Execution

/-! ## Values and maps -/

/-- Modelled from the spec: the tagged values of package `data`, which is not
under src (`Null | Bool | Int | Float | String | Blob | Timestamp | Array | Map`).
The payloads of `float`, `blob` and `timestamp` are never inspected here and are
kept as plain codes. -/
inductive Value where
  | null
  | bool (b : Bool)
  | int (n : Int)
  | float (f : Int)
  | string (s : String)
  | blob (b : List Nat)
  | timestamp (t : Int)
  | array (a : List Value)
  | map (m : List (String × Value))

mutual
/-- Structural comparison of two values. -/
def Value.beq : Value → Value → Bool
  | .null, .null => true
  | .bool a, .bool b => a == b
  | .int a, .int b => a == b
  | .float a, .float b => a == b
  | .string a, .string b => a == b
  | .blob a, .blob b => a == b
  | .timestamp a, .timestamp b => a == b
  | .array a, .array b => Value.beqArray a b
  | .map a, .map b => Value.beqMap a b
  | _, _ => false
/-- Structural comparison, element by element, of two arrays. -/
def Value.beqArray : List Value → List Value → Bool
  | [], [] => true
  | x :: xs, y :: ys => Value.beq x y && Value.beqArray xs ys
  | _, _ => false
/-- Structural comparison, entry by entry, of two maps. -/
def Value.beqMap : List (String × Value) → List (String × Value) → Bool
  | [], [] => true
  | (k, x) :: xs, (l, y) :: ys => k == l && Value.beq x y && Value.beqMap xs ys
  | _, _ => false
end

/-- Go errors. -/
abbrev Err := String

/-- The Go type `data.Map` (`map[string]data.Value`). -/
abbrev Map := List (String × Value)

/-- Reading a Go map: `m[k]`, with `none` for a missing key. -/
def getKey {α : Type} (k : String) : List (String × α) → Option α
  | [] => none
  | (k', v) :: t => if k' = k then some v else getKey k t

/-- Writing a Go map: `m[k] = v`. -/
def setKey {α : Type} (k : String) (v : α) : List (String × α) → List (String × α)
  | [] => [(k, v)]
  | (k', v') :: t => if k' = k then (k, v) :: t else (k', v') :: setKey k v t

/-- Removing from a Go map: `delete(m, k)`. -/
def deleteKey {α : Type} (k : String) : List (String × α) → List (String × α)
  | [] => []
  | (k', v') :: t => if k' = k then deleteKey k t else (k', v') :: deleteKey k t

/-! ## The plan -/

/-- The interface `Evaluator`: `Eval(data.Map) (data.Value, error)`. -/
structure Evaluator where
  Eval : Map → Except Err Value

/-- One entry of `aggrEvals`: the aggregate function and the evaluator of its
input expression. -/
structure AggInputEvaluator where
  aggrFun : List Value → Except Err Value
  aggrEval : Evaluator

/-- One item of `ep.projections`; `alias_` is its field `alias`. The Go map
`aggrEvals` is listed in the order in which `range` visits it. -/
structure Projection where
  alias_ : String
  evaluator : Evaluator
  hasAggregate : Bool
  aggrEvals : List (String × AggInputEvaluator)

/-- The fields of the plan that `performQueryOnBuffer` reads, together with the
three functions it calls that are not under src and are taken as parameters:
`cmpOp` is `Equal(binOp{}).(*compBinOp).cmpOp`, `ToBool` is `data.ToBool`. -/
structure GroupbyExecutionPlan where
  projections : List Projection
  groupList : List Evaluator
  filter : Option Evaluator
  cmpOp : Value → Value → Except Err Bool
  ToBool : Value → Except Err Bool
  assignOutputValue : Map → String → Value → Except Err Map

/-- The struct `tmpGroupData`. -/
structure TmpGroupData where
  group : List Value
  aggData : List (String × List Value)
  nonAggData : Map

/-! ## Slices of result rows -/

/-- A Go slice of rows: the identifier of its backing array (`none` for a slice
without storage) and its length. The slices of the plan all start at the first
cell of their array, so the capacity is the length of the array. -/
structure Slice where
  arr : Option Nat
  len : Nat
  deriving DecidableEq

/-- The store of backing arrays; the identifier of an array is its position. -/
abbrev Heap := List (List Map)

/-- The capacity `cap(s)`. -/
def Slice.cap (h : Heap) (s : Slice) : Nat :=
  match s.arr with
  | none => 0
  | some a => (h.getD a []).length

/-- The rows that the slice holds. -/
def Slice.rows (h : Heap) (s : Slice) : List Map :=
  match s.arr with
  | none => []
  | some a => (h.getD a []).take s.len

/-- Whether two slices have the same underlying array. -/
def Slice.shares (s t : Slice) : Prop :=
  ∃ a, s.arr = some a ∧ t.arr = some a

instance (s t : Slice) : Decidable (s.shares t) :=
  decidable_of_iff (s.arr ≠ none ∧ s.arr = t.arr) (by
    unfold Slice.shares
    cases s.arr <;> cases t.arr <;> simp [eq_comm])

/-- The capacity of the array that `append` allocates when the old one is full
(the Go runtime doubles small slices). -/
def growCap (cap : Nat) : Nat :=
  if cap = 0 then 1 else 2 * cap

/-- The built-in `append(s, x)` for one row: written in place when the capacity
allows it, otherwise into a newly allocated array that receives a copy of the
rows of `s`. -/
def appendRow (h : Heap) (s : Slice) (x : Map) : Heap × Slice :=
  match s.arr with
  | some a =>
    if s.len < (h.getD a []).length then
      (h.set a ((h.getD a []).set s.len x), { arr := some a, len := s.len + 1 })
    else
      (h ++ [(h.getD a []).take s.len ++ x :: List.replicate (growCap s.len - (s.len + 1)) []],
        { arr := some h.length, len := s.len + 1 })
  | none =>
    (h ++ [x :: List.replicate (growCap s.len - (s.len + 1)) []],
      { arr := some h.length, len := s.len + 1 })

/-- The mutable part of the plan: `ep.prevResults`, `ep.curResults` and the
arrays behind them. -/
structure PlanState where
  heap : Heap
  prevResults : Slice
  curResults : Slice

/-! ## `findOrCreateGroup` -/

/-- The search loop of `findOrCreateGroup` (lines 107-117): the index of the
first group whose key `cmpOp` finds equal, counted from `i`. -/
def findGroupIdx (ep : GroupbyExecutionPlan) (groupValues : List Value) :
    List TmpGroupData → Nat → Except Err (Option Nat)
  | [], _ => .ok none
  | groupData :: rest, i =>
    match ep.cmpOp (.array groupData.group) (.array groupValues) with
    | .error err => .error err
    | .ok equals => if equals then .ok (some i) else findGroupIdx ep groupValues rest (i + 1)

/-- The initial `aggData` of a new group (lines 131-135): one empty buffer for
every key of every projection. -/
def initAggData (projections : List Projection) : List (String × List Value) :=
  projections.foldl
    (fun acc proj => proj.aggrEvals.foldl (fun acc kv => setKey kv.1 [] acc) acc) []

/-- The closure `findOrCreateGroup`: the group list after the call and the
index of the group that the returned pointer designates. -/
def findOrCreateGroup (ep : GroupbyExecutionPlan) (groups : List TmpGroupData)
    (groupValues : List Value) (d : Map) : Except Err (List TmpGroupData × Nat) :=
  match findGroupIdx ep groupValues groups 0 with
  | .error err => .error err
  | .ok (some groupIdx) => .ok (groups, groupIdx)
  | .ok none =>
    let newGroup : TmpGroupData :=
      { group := groupValues, aggData := initAggData ep.projections, nonAggData := d }
    .ok (groups ++ [newGroup], groups.length)

/-! ## `evalItem` -/

/-- The filter step of `evalItem` (lines 156-171): `false` when the row is to be
skipped. -/
def passesFilter (ep : GroupbyExecutionPlan) (d : Map) : Except Err Bool :=
  match ep.filter with
  | none => .ok true
  | some f =>
    match f.Eval d with
    | .error err => .error err
    | .ok filterResult => ep.ToBool filterResult

/-- The grouping expressions evaluated on a row (lines 175-183). -/
def evalGroupList (d : Map) : List Evaluator → Except Err (List Value)
  | [] => .ok []
  | eval :: rest =>
    match eval.Eval d with
    | .error err => .error err
    | .ok value =>
      match evalGroupList d rest with
      | .error err => .error err
      | .ok values => .ok (value :: values)

/-- The inner loop of lines 196-203: one input appended per aggregate. -/
def appendAggInputs (d : Map) :
    List (String × AggInputEvaluator) → List (String × List Value) →
      Except Err (List (String × List Value))
  | [], aggData => .ok aggData
  | (key, agg) :: rest, aggData =>
    match agg.aggrEval.Eval d with
    | .error err => .error err
    | .ok value =>
      appendAggInputs d rest (setKey key (((getKey key aggData).getD []) ++ [value]) aggData)

/-- The outer loop of lines 192-205 over the projections. -/
def collectAggInputs (d : Map) :
    List Projection → List (String × List Value) → Except Err (List (String × List Value))
  | [], aggData => .ok aggData
  | proj :: rest, aggData =>
    if proj.hasAggregate then
      match appendAggInputs d proj.aggrEvals aggData with
      | .error err => .error err
      | .ok aggData' => collectAggInputs d rest aggData'
    else collectAggInputs d rest aggData

/-- The closure `evalItem`, as a function of the group list it updates. -/
def evalItem (ep : GroupbyExecutionPlan) (d : Map) (groups : List TmpGroupData) :
    Except Err (List TmpGroupData) :=
  match passesFilter ep d with
  | .error err => .error err
  | .ok false => .ok groups
  | .ok true =>
    match evalGroupList d ep.groupList with
    | .error err => .error err
    | .ok itemGroupValues =>
      match findOrCreateGroup ep groups itemGroupValues d with
      | .error err => .error err
      | .ok (groups', groupIdx) =>
        match groups'.get? groupIdx with
        | none => .ok groups'
        | some itemGroup =>
          match collectAggInputs d ep.projections itemGroup.aggData with
          | .error err => .error err
          | .ok aggData' => .ok (groups'.set groupIdx { itemGroup with aggData := aggData' })

/-- Modelled from the spec: `processCartesianProduct` is not under src. The
combined rows of the Cartesian product of the buffers are given as the list
`rows`, in the order of the enumeration; the item function runs on each of them
and the first error stops the enumeration. -/
def processCartesianProduct {σ : Type} (rows : List Map)
    (processItem : Map → σ → Except Err σ) : σ → Except Err σ :=
  fun s =>
    match rows with
    | [] => .ok s
    | d :: rest =>
      match processItem d s with
      | .error err => .error err
      | .ok s' => processCartesianProduct rest processItem s'

/-! ## `evalGroup` -/

/-- The loop of lines 216-224: every aggregate of the projection is bound, in
the representative row, to the number of its inputs, and its buffer is deleted. -/
def bindAggregates : List (String × AggInputEvaluator) → TmpGroupData → TmpGroupData
  | [], group => group
  | (key, _agg) :: rest, group =>
    let aggregateInputs := (getKey key group.aggData).getD []
    let result := Value.int aggregateInputs.length
    bindAggregates rest
      { group with
        nonAggData := setKey key result group.nonAggData
        aggData := deleteKey key group.aggData }

/-- The part of the body of the loop of `evalGroup` (lines 213-225) that comes
before the evaluation of the projection. -/
def bindProjection (proj : Projection) (group : TmpGroupData) : TmpGroupData :=
  if proj.hasAggregate then bindAggregates proj.aggrEvals group else group

/-- The loop of `evalGroup` over the projections (lines 211-234): the group as
it is left and the output row. -/
def evalProjections (ep : GroupbyExecutionPlan) :
    List Projection → TmpGroupData → Map → Except Err (TmpGroupData × Map)
  | [], group, result => .ok (group, result)
  | proj :: rest, group, result =>
    let group' := bindProjection proj group
    match proj.evaluator.Eval group'.nonAggData with
    | .error err => .error err
    | .ok value =>
      match ep.assignOutputValue result proj.alias_ value with
      | .error err => .error err
      | .ok result' => evalProjections ep rest group' result'

/-- The closure `evalGroup`, as a function of the store and of `output`. -/
def evalGroup (ep : GroupbyExecutionPlan) (group : TmpGroupData) (h : Heap) (output : Slice) :
    Except Err (Heap × Slice) :=
  match evalProjections ep ep.projections group [] with
  | .error err => .error err
  | .ok (_, result) => .ok (appendRow h output result)

/-- The loop of lines 255-260. When a group fails, the error comes with the
store and the `output` of that moment, which is what `rollback` reads. -/
def evalGroups (ep : GroupbyExecutionPlan) :
    List TmpGroupData → Heap → Slice → Option Err × Heap × Slice
  | [], h, output => (none, h, output)
  | group :: rest, h, output =>
    match evalGroup ep group h output with
    | .error err => (some err, h, output)
    | .ok (h', output') => evalGroups ep rest h' output'

/-! ## `performQueryOnBuffer` -/

/-- The method `performQueryOnBuffer`: the returned error (`none` for `nil`) and
the state of the plan after the call. -/
def performQueryOnBuffer (ep : GroupbyExecutionPlan) (rows : List Map) (st : PlanState) :
    Option Err × PlanState :=
  -- reuse the allocated memory
  let output : Slice := { arr := st.prevResults.arr, len := 0 }
  -- remember the previous results
  let st1 : PlanState := { st with prevResults := st.curResults }
  match processCartesianProduct rows (evalItem ep) [] with
  | .error err =>
    -- rollback()
    (some err, { st1 with prevResults := output })
  | .ok groups =>
    match evalGroups ep groups st1.heap output with
    | (some err, h', output') =>
      -- rollback()
      (some err, { st1 with heap := h', prevResults := output' })
    | (none, h', output') =>
      (none, { heap := h', prevResults := st1.prevResults, curResults := output' })

/-! ## `CanBuildGroupbyExecutionPlan` -/

/-- The fields of `LogicalPlan` that `CanBuildGroupbyExecutionPlan` reads. The
struct is not under src: `Having` is an expression or nil, and `rest` stands for
all of its other fields. -/
structure LogicalPlan (Expression Rest : Type) where
  GroupingStmt : Bool
  Having : Option Expression
  rest : Rest

/-- The function `CanBuildGroupbyExecutionPlan` (lines 29-31); `reg` is the
function registry, of a type that is not under src. -/
def CanBuildGroupbyExecutionPlan {Expression Rest Registry : Type}
    (lp : LogicalPlan Expression Rest) (_reg : Registry) : Bool :=
  lp.GroupingStmt && lp.Having.isNone

/-! ## The vocabulary of the properties -/

/-- The identifiers under which `evalItem` and `evalGroup` handle aggregates:
the keys of `aggrEvals` of the projections with `hasAggregate`, in the order of
the two nested loops, with repetitions. -/
def aggIds (projections : List Projection) : List String :=
  match projections with
  | [] => []
  | proj :: rest =>
    (if proj.hasAggregate then proj.aggrEvals.map (fun kv => kv.1) else []) ++ aggIds rest

/-- The inputs that a group holds for an identifier: `group.aggData[key]`. -/
def inputsOf (key : String) (aggData : List (String × List Value)) : List Value :=
  (getKey key aggData).getD []

/-- What a successful `evalItem` has done to the group list. -/
inductive ItemEffect (ep : GroupbyExecutionPlan) (d : Map) (gs gs' : List TmpGroupData) : Prop
  | skipped (hf : passesFilter ep d = .ok false) (h : gs' = gs)
  | joined (k : List Value) (pre post : List TmpGroupData) (g : TmpGroupData)
      (aggData' : List (String × List Value))
      (hf : passesFilter ep d = .ok true) (hk : evalGroupList d ep.groupList = .ok k)
      (hgs : gs = pre ++ g :: post)
      (hg : ep.cmpOp (.array g.group) (.array k) = .ok true)
      (hpre : ∀ g' ∈ pre, ep.cmpOp (.array g'.group) (.array k) = .ok false)
      (hagg : collectAggInputs d ep.projections g.aggData = .ok aggData')
      (h : gs' = pre ++ { g with aggData := aggData' } :: post)
  | created (k : List Value) (aggData' : List (String × List Value))
      (hf : passesFilter ep d = .ok true) (hk : evalGroupList d ep.groupList = .ok k)
      (hno : ∀ g ∈ gs, ep.cmpOp (.array g.group) (.array k) = .ok false)
      (hagg : collectAggInputs d ep.projections (initAggData ep.projections) = .ok aggData')
      (h : gs' = gs ++ [{ group := k, aggData := aggData', nonAggData := d }])

/-- Two grouping keys are equal for the plan: `cmpOp` returns `true` on them. -/
def keyEquals (ep : GroupbyExecutionPlan) (a b : List Value) : Prop :=
  ep.cmpOp (.array a) (.array b) = .ok true

instance (ep : GroupbyExecutionPlan) (a b : List Value) : Decidable (keyEquals ep a b) :=
  match h : ep.cmpOp (.array a) (.array b) with
  | .ok true => isTrue h
  | .ok false => isFalse (fun e => by unfold keyEquals at e; rw [h] at e; cases e)
  | .error _ => isFalse (fun e => by unfold keyEquals at e; rw [h] at e; cases e)

/-- Whether a row passes the filter and has a grouping key equal to `key`. -/
def joins (ep : GroupbyExecutionPlan) (key : List Value) (d : Map) : Bool :=
  match passesFilter ep d, evalGroupList d ep.groupList with
  | .ok true, .ok k => decide (keyEquals ep key k)
  | _, _ => false

/-- The number of filter-passing rows whose grouping key equals `key`. -/
def countJoining (ep : GroupbyExecutionPlan) (key : List Value) (rows : List Map) : Nat :=
  rows.countP (joins ep key)

/-- The grouping keys of the rows that pass the filter. -/
def passingKeys (ep : GroupbyExecutionPlan) (rows : List Map) : List (List Value) :=
  rows.filterMap (fun d =>
    match passesFilter ep d, evalGroupList d ep.groupList with
    | .ok true, .ok k => some k
    | _, _ => none)

/-- The invariant of the enumeration: what the group list holds once the rows
`done` have been handled. -/
structure GroupsInv (ep : GroupbyExecutionPlan) (done : List Map) (gs : List TmpGroupData) :
    Prop where
  counts : ∀ g ∈ gs, ∀ id, (inputsOf id g.aggData).length
      = countJoining ep g.group done * (aggIds ep.projections).count id
  distinct : (gs.map (fun g => g.group)).Pairwise (fun a b => ¬ keyEquals ep a b)
  covered : ∀ k ∈ passingKeys ep done, ∃ key ∈ gs.map (fun g => g.group), keyEquals ep key k
  fromRows : ∀ key ∈ gs.map (fun g => g.group), key ∈ passingKeys ep done

/-- The group after the aggregates of the projections `ps` have been bound, in
order: the representative row that the evaluator of the last of them reads. -/
def bindAll (ps : List Projection) (group : TmpGroupData) : TmpGroupData :=
  ps.foldl (fun g p => bindProjection p g) group

/-- The output rows of the groups: row `i` is what `evalGroup` computes for
group `i`. -/
def OutputRows (ep : GroupbyExecutionPlan) (groups : List TmpGroupData) (outs : List Map) :
    Prop :=
  List.Forall₂ (fun g out => ∃ g', evalProjections ep ep.projections g [] = .ok (g', out))
    groups outs

/-- A slice is well formed in a store when its array exists there and is at
least as long as the slice; a slice without storage is empty. -/
def Slice.wellFormed (h : Heap) (s : Slice) : Prop :=
  match s.arr with
  | none => s.len = 0
  | some a => a < h.length ∧ s.len ≤ (h.getD a []).length

instance (h : Heap) (s : Slice) : Decidable (s.wellFormed h) := by
  unfold Slice.wellFormed
  cases s.arr <;> infer_instance

/-- Both result slices of the plan are well formed in its store. -/
def PlanState.wellFormed (st : PlanState) : Prop :=
  st.prevResults.wellFormed st.heap ∧ st.curResults.wellFormed st.heap

instance (st : PlanState) : Decidable st.wellFormed := by
  unfold PlanState.wellFormed
  infer_instance

/-- What one `append` does to the store and to the slice. -/
structure AppendEffect (h : Heap) (s : Slice) (outs : List Map) (h' : Heap) (s' : Slice) :
    Prop where
  rows : s'.rows h' = s.rows h ++ outs
  fits : s'.len ≤ s'.cap h'
  grows : h.length ≤ h'.length
  target : s'.arr = s.arr ∨ ∃ a, s'.arr = some a ∧ h.length ≤ a
  inStore : (∀ a, s.arr = some a → a < h.length) → ∀ a, s'.arr = some a → a < h'.length
  frame : ∀ a, a < h.length → s.arr ≠ some a → h'.getD a [] = h.getD a []

/-- Where the loop over the groups stopped. -/
def GroupsOutcome (ep : GroupbyExecutionPlan) (groups : List TmpGroupData)
    (e : Option Err) (outs : List Map) : Prop :=
  match e with
  | none => OutputRows ep groups outs
  | some err => ∃ done g rest, groups = done ++ g :: rest ∧ OutputRows ep done outs ∧
      evalProjections ep ep.projections g [] = .error err

/-- The slice `output` at the start of `performQueryOnBuffer`. -/
def outputOf (st : PlanState) : Slice := { arr := st.prevResults.arr, len := 0 }

/-- The setoid of grouping keys under the key equality of the plan. -/
def keySetoid (ep : GroupbyExecutionPlan) (heqv : Equivalence (keyEquals ep)) :
    Setoid (List Value) :=
  ⟨keyEquals ep, heqv⟩

instance (ep : GroupbyExecutionPlan) (heqv : Equivalence (keyEquals ep)) :
    DecidableEq (Quotient (keySetoid ep heqv)) :=
  fun x y => Quotient.recOnSubsingleton₂ x y (fun a b =>
    decidable_of_iff (keyEquals ep a b) ⟨fun h => Quotient.sound h, fun h => Quotient.exact h⟩)

/-- The number of equivalence classes of key equality that the keys meet. -/
def numClasses (ep : GroupbyExecutionPlan) (heqv : Equivalence (keyEquals ep))
    (keys : List (List Value)) : Nat :=
  ((keys.map (fun k => (Quotient.mk (keySetoid ep heqv) k))).toFinset).card

/-- The same plan without its filter. -/
def withoutFilter (ep : GroupbyExecutionPlan) : GroupbyExecutionPlan :=
  { ep with filter := none }

/-- Whether the filter value of a row coerces to true. -/
def filterHolds (ep : GroupbyExecutionPlan) (d : Map) : Bool :=
  match passesFilter ep d with
  | .ok true => true
  | _ => false

/-- The output row `out` of the group holds, under the alias of the projection
`p` at position `i`, the value of the evaluator of `p` on the representative row
in which the aggregates of the projections up to `p` are bound. -/
def HoldsProjectionValue (ep : GroupbyExecutionPlan) (group : TmpGroupData) (out : Map)
    (i : Nat) (p : Projection) : Prop :=
  ∃ v, p.evaluator.Eval (bindAll (ep.projections.take (i + 1)) group).nonAggData = .ok v ∧
    getKey p.alias_ out = some v

/-- The output assignment is the one of the specification: the value is stored
under the alias and the other keys of the row are left alone. -/
def AssignsUnderAlias (ep : GroupbyExecutionPlan) : Prop :=
  ∀ (m : Map) (a : String) (v : Value) (m' : Map), ep.assignOutputValue m a v = .ok m' →
    getKey a m' = some v ∧ ∀ b, b ≠ a → getKey b m' = getKey b m

/-- The aggregates whose input `evalItem` evaluates, in the order of the two
nested loops of lines 192-205. -/
def aggInputsOf (projections : List Projection) : List (String × AggInputEvaluator) :=
  match projections with
  | [] => []
  | proj :: rest => (if proj.hasAggregate then proj.aggrEvals else []) ++ aggInputsOf rest

/-- The first failure among the fallible calls that `evalItem` makes on the row
`d` with the group list `gs`: every call before it has succeeded, and it has
returned `err`. -/
inductive ItemFailure (ep : GroupbyExecutionPlan) (d : Map) (gs : List TmpGroupData)
    (err : Err) : Prop
  | filterEval (f : Evaluator) (hf : ep.filter = some f) (h : f.Eval d = .error err)
  | coercion (f : Evaluator) (v : Value) (hf : ep.filter = some f) (hv : f.Eval d = .ok v)
      (h : ep.ToBool v = .error err)
  | groupExpr (pre post : List Evaluator) (eval : Evaluator) (values : List Value)
      (hp : passesFilter ep d = .ok true) (hl : ep.groupList = pre ++ eval :: post)
      (hpre : evalGroupList d pre = .ok values) (h : eval.Eval d = .error err)
  | comparison (k : List Value) (pre post : List TmpGroupData) (g : TmpGroupData)
      (hp : passesFilter ep d = .ok true) (hk : evalGroupList d ep.groupList = .ok k)
      (hgs : gs = pre ++ g :: post)
      (hpre : ∀ g' ∈ pre, ep.cmpOp (.array g'.group) (.array k) = .ok false)
      (h : ep.cmpOp (.array g.group) (.array k) = .error err)
  | aggInput (k : List Value) (found : List TmpGroupData × Nat)
      (pre post : List (String × AggInputEvaluator)) (key : String) (agg : AggInputEvaluator)
      (hp : passesFilter ep d = .ok true) (hk : evalGroupList d ep.groupList = .ok k)
      (hfind : findOrCreateGroup ep gs k d = .ok found)
      (hl : aggInputsOf ep.projections = pre ++ (key, agg) :: post)
      (hpre : ∀ kv ∈ pre, ∃ v, kv.2.aggrEval.Eval d = .ok v)
      (h : agg.aggrEval.Eval d = .error err)

/-- The first failure among the fallible calls that `evalGroup` makes on a
group: the projections before `p` have been evaluated and assigned, and the
evaluation of `p` or the assignment of its value has returned `err`. -/
inductive GroupFailure (ep : GroupbyExecutionPlan) (group : TmpGroupData) (err : Err) : Prop
  | projection (pre post : List Projection) (p : Projection) (g1 : TmpGroupData) (res1 : Map)
      (hl : ep.projections = pre ++ p :: post)
      (hpre : evalProjections ep pre group [] = .ok (g1, res1))
      (h : p.evaluator.Eval (bindProjection p g1).nonAggData = .error err)
  | assignment (pre post : List Projection) (p : Projection) (g1 : TmpGroupData) (res1 : Map)
      (v : Value)
      (hl : ep.projections = pre ++ p :: post)
      (hpre : evalProjections ep pre group [] = .ok (g1, res1))
      (hv : p.evaluator.Eval (bindProjection p g1).nonAggData = .ok v)
      (h : ep.assignOutputValue res1 p.alias_ v = .error err)

/-- The error of a result, if it is one. -/
def errorOf {β : Type} : Except Err β → Option Err
  | .error err => some err
  | .ok _ => none

/-- The error of the first failing call when `ev` is run on the items of a list
in order and stops at the first failure. -/
def firstErrorOf {α β : Type} (ev : α → Except Err β) : List α → Option Err
  | [] => none
  | x :: rest =>
    match ev x with
    | .error err => some err
    | .ok _ => firstErrorOf ev rest

/-- One step of `firstOccurrences`: a row that passes the filter and whose
grouping key equals none of the keys kept so far is kept with its key. -/
def keepFirst (ep : GroupbyExecutionPlan) (acc : List (List Value × Map)) (d : Map) :
    List (List Value × Map) :=
  match passesFilter ep d, evalGroupList d ep.groupList with
  | .ok true, .ok k =>
    if acc.any (fun e => decide (keyEquals ep e.1 k)) then acc else acc ++ [(k, d)]
  | _, _ => acc

/-- The distinct grouping keys met among the filter-passing rows, in the order
of their first occurrence, each with the row that brought it. This follows the
words of the property, not the code. -/
def firstOccurrences (ep : GroupbyExecutionPlan) (rows : List Map) : List (List Value × Map) :=
  rows.foldl (keepFirst ep) []

/-- The number of inputs that a group holds for an aggregate identifier:
`len(group.aggData[key])`, which is what `evalGroup` binds the identifier to. -/
def inputCount (id : String) (g : TmpGroupData) : Nat :=
  (inputsOf id g.aggData).length

/-- The row `d` after the values of `binds` have been written into it, in
order: what `evalGroup` does to the representative row when it binds aggregate
identifiers to their values. -/
def bindValues (binds : List (String × Value)) (d : Map) : Map :=
  binds.foldl (fun m kv => setKey kv.1 kv.2 m) d

/-- The output row that `evalGroup` computes for a group, if it computes one. -/
def outputRowOf (ep : GroupbyExecutionPlan) (g : TmpGroupData) : Option Map :=
  match evalProjections ep ep.projections g [] with
  | .ok (_, out) => some out
  | .error _ => none

/-- Every projection of the plan evaluates to the same result on any two rows of
`rows` with equal grouping keys, once the same values are bound in both. -/
def SameOnEqualKeys (ep : GroupbyExecutionPlan) (rows : List Map) : Prop :=
  ∀ p ∈ ep.projections, ∀ d1 ∈ rows, ∀ d2 ∈ rows, ∀ k1 k2,
    evalGroupList d1 ep.groupList = .ok k1 → evalGroupList d2 ep.groupList = .ok k2 →
    keyEquals ep k1 k2 →
    ∀ binds, p.evaluator.Eval (bindValues binds d1) = p.evaluator.Eval (bindValues binds d2)

/-- Two groups hold as many inputs for every identifier, and their
representative rows are two rows of `rows` with equal grouping keys in which the
same values have been bound. -/
def BoundAlike (ep : GroupbyExecutionPlan) (rows : List Map) (ga gb : TmpGroupData) : Prop :=
  (∀ id, inputCount id ga = inputCount id gb) ∧
  ∃ binds d1 d2 k1 k2, d1 ∈ rows ∧ d2 ∈ rows ∧
    evalGroupList d1 ep.groupList = .ok k1 ∧ evalGroupList d2 ep.groupList = .ok k2 ∧
    keyEquals ep k1 k2 ∧
    ga.nonAggData = bindValues binds d1 ∧ gb.nonAggData = bindValues binds d2

/-! ## Concrete plans, rows and states -/

/-- Reading a column of a row, failing when it is missing. -/
def column (name : String) : Evaluator :=
  { Eval := fun d =>
      match getKey name d with
      | some v => .ok v
      | none => .error ("no such column: " ++ name) }

/-- A coercion to Bool in the way of `data.ToBool`: Null is false. -/
def toBoolSample : Value → Except Err Bool
  | .null => .ok false
  | .bool b => .ok b
  | .int n => .ok (n != 0)
  | .string s => .ok (s != "")
  | _ => .ok true

/-- The plan of `SELECT count(a) AS c ... GROUP BY b`: the aggregate has the
identifier `agg1`, the projection reads it back from the representative row. -/
def countPlan : GroupbyExecutionPlan :=
  { projections :=
      [{ alias_ := "c", evaluator := column "agg1", hasAggregate := true,
         aggrEvals := [("agg1", { aggrFun := fun inputs => .ok (.int inputs.length),
                                  aggrEval := column "a" })] }]
    groupList := [column "b"]
    filter := none
    cmpOp := fun l r => .ok (Value.beq l r)
    ToBool := toBoolSample
    assignOutputValue := fun result name value => .ok (setKey name value result) }

/-- The three buffered rows of the scenario. -/
def countRows : List Map :=
  [[("a", .int 1), ("b", .string "x")], [("a", .int 2), ("b", .string "x")],
   [("a", .int 3), ("b", .string "y")]]

/-- A state in which both result slices are empty and without storage. -/
def emptyState : PlanState :=
  { heap := [], prevResults := { arr := none, len := 0 }, curResults := { arr := none, len := 0 } }

/-- The largest of the integer inputs, as an aggregate function `max`. -/
def maxOfInts (inputs : List Value) : Except Err Value :=
  match inputs with
  | [] => .ok .null
  | .int n :: rest =>
    match maxOfInts rest with
    | .ok (.int m) => .ok (.int (max n m))
    | .ok _ => .ok (.int n)
    | .error err => .error err
  | _ :: _ => .error "max: not an integer"

/-- The plan of `SELECT max(a) AS m ... GROUP BY b`. -/
def maxPlan : GroupbyExecutionPlan :=
  { countPlan with
    projections :=
      [{ alias_ := "m", evaluator := column "agg1", hasAggregate := true,
         aggrEvals := [("agg1", { aggrFun := maxOfInts, aggrEval := column "a" })] }] }

/-- One buffered row `{a:7, b:"x"}`. -/
def maxRows : List Map := [[("a", .int 7), ("b", .string "x")]]

/-- The one group that the enumeration of `maxRows` leaves. -/
def maxGroup : TmpGroupData :=
  { group := [.string "x"], aggData := [("agg1", [.int 7])],
    nonAggData := [("a", .int 7), ("b", .string "x")] }

/-- The plan of `SELECT a AS x, b AS x`, without grouping expressions. -/
def dupAliasPlan : GroupbyExecutionPlan :=
  { countPlan with
    projections :=
      [{ alias_ := "x", evaluator := column "a", hasAggregate := false, aggrEvals := [] },
       { alias_ := "x", evaluator := column "b", hasAggregate := false, aggrEvals := [] }]
    groupList := [] }

/-- One buffered row `{a:1, b:2}`. -/
def dupAliasRows : List Map := [[("a", .int 1), ("b", .int 2)]]

/-- The one group that the enumeration of `dupAliasRows` leaves. -/
def dupAliasGroup : TmpGroupData :=
  { group := [], aggData := [], nonAggData := [("a", .int 1), ("b", .int 2)] }

/-- A state after earlier runs: `prevResults` holds `{c:7}` in array 0 and
`curResults` holds `{c:8}, {c:9}` in array 1. -/
def sampleState : PlanState :=
  { heap := [[[("c", .int 7)]], [[("c", .int 8)], [("c", .int 9)]]]
    prevResults := { arr := some 0, len := 1 }
    curResults := { arr := some 1, len := 2 } }

/-- A state in which `prevResults` is `curResults[0:1]`: both slices have array 0,
which holds `{c:8}, {c:9}`. -/
def aliasedState : PlanState :=
  { heap := [[[("c", .int 8)], [("c", .int 9)]]]
    prevResults := { arr := some 0, len := 1 }
    curResults := { arr := some 0, len := 2 } }

/-- The plan of `SELECT z AS c ... GROUP BY b`. -/
def partPlan : GroupbyExecutionPlan :=
  { countPlan with
    projections :=
      [{ alias_ := "c", evaluator := column "z", hasAggregate := false, aggrEvals := [] }] }

/-- Two buffered rows, the second without the column `z`. -/
def partRows : List Map :=
  [[("b", .string "x"), ("z", .int 0)], [("b", .string "y")]]

/-- The groups that the enumeration of `partRows` leaves. -/
def partGroups : List TmpGroupData :=
  [{ group := [.string "x"], aggData := [], nonAggData := [("b", .string "x"), ("z", .int 0)] },
   { group := [.string "y"], aggData := [], nonAggData := [("b", .string "y")] }]

/-- The plan of the scenario with the filter `keep`. -/
def filteredPlan : GroupbyExecutionPlan :=
  { countPlan with filter := some (column "keep") }

/-- Rows whose filter value is true, Null, false and true. -/
def filteredRows : List Map :=
  [[("a", .int 1), ("b", .string "x"), ("keep", .bool true)],
   [("a", .int 2), ("b", .string "x"), ("keep", .null)],
   [("a", .int 3), ("b", .string "y"), ("keep", .bool false)],
   [("a", .int 4), ("b", .string "y"), ("keep", .bool true)]]

/-- The projection `count(a) AS alias`, its aggregate under the identifier
`agg1`. -/
def countAs (alias_ : String) : Projection :=
  { alias_ := alias_, evaluator := column "agg1", hasAggregate := true,
    aggrEvals := [("agg1", { aggrFun := fun inputs => .ok (.int inputs.length),
                             aggrEval := column "a" })] }

/-- The plan of `SELECT count(a) AS c1, count(a) AS c2 ... GROUP BY b` in which
both projections carry the aggregate under the identifier `agg1`. -/
def twicePlan : GroupbyExecutionPlan :=
  { countPlan with projections := [countAs "c1", countAs "c2"] }

/-- The plan of `SELECT count(a) AS c ... WHERE keep GROUP BY b` run on
`filteredRows` leaves these groups: one input for `x` and one for `y`. -/
def filteredGroups : List TmpGroupData :=
  [{ group := [.string "x"], aggData := [("agg1", [.int 1])],
     nonAggData := [("a", .int 1), ("b", .string "x"), ("keep", .bool true)] },
   { group := [.string "y"], aggData := [("agg1", [.int 4])],
     nonAggData := [("a", .int 4), ("b", .string "y"), ("keep", .bool true)] }]

/-- The rows of the scenario in another order of enumeration. -/
def countRowsPermuted : List Map :=
  [[("a", .int 3), ("b", .string "y")], [("a", .int 1), ("b", .string "x")],
   [("a", .int 2), ("b", .string "x")]]

end Execution

/-! # The topologies of `core` -/

namespace Core

open Execution (getKey setKey deleteKey)

/-! ## The nodes of a topology -/

/-- Modelled from the spec: the lifecycle states of a node and of a topology
(section 3: Initialized, Starting, Running, Paused, Stopping, Stopped), under the
names that the tests use; their declaration is not under src. -/
inductive TopologyState where
  | TSInitialized
  | TSStarting
  | TSRunning
  | TSPaused
  | TSStopping
  | TSStopped
  deriving DecidableEq

/-- Modelled from the spec: the three kinds of nodes (section 3), whose
declarations are not under src. -/
inductive NodeKind where
  | source
  | box
  | sink
  deriving DecidableEq

/-- Modelled from the spec: the error kinds of section 7 that the topology
controllers return, with `WrongDirection` of section 4.6; the errors of the
package are not under src. -/
inductive TopologyError where
  | DuplicateName
  | NoSuchNode
  | WrongKind
  | DuplicateEdge
  | TopologyStopped
  | AlreadyStopped
  | WrongState
  | WrongDirection
  deriving DecidableEq

/-- Modelled from the spec: the wrapper of a node (section 3), which is not
under src: its name, its kind, its lifecycle state, the names of its upstreams,
and the numbers of invocations of `Terminate` (box) and of `Close` (sink) that
the tests read as `terminateCnt` and `closeCnt`. -/
structure NodeWrapper where
  name : String
  kind : NodeKind
  state : TopologyState
  inputs : List String
  terminateCnt : Nat
  closeCnt : Nat
  deriving DecidableEq

/-- Modelled from the spec: stopping a node, which is not under src. A stopped
node stays as it is (section 5: stopping an already stopped node is a no-op);
otherwise the node becomes Stopped, after `Terminate` has been invoked on a box
and `Close` on a sink (sections 4.3 and 4.4). -/
def stopWrapper (w : NodeWrapper) : NodeWrapper :=
  if w.state = .TSStopped then w
  else
    { w with
      state := .TSStopped
      terminateCnt := if w.kind = .box then w.terminateCnt + 1 else w.terminateCnt
      closeCnt := if w.kind = .sink then w.closeCnt + 1 else w.closeCnt }

/-- The list with `f` applied to its item at position `n`. -/
def modifyAt {α : Type} (f : α → α) : Nat → List α → List α
  | _, [] => []
  | 0, x :: l => f x :: l
  | n + 1, x :: l => x :: modifyAt f n l

/-! ## The dynamic topology -/

/-- Modelled from the spec: the state of the dynamic topology controller
(section 4.6), which is not under src: the lifecycle state of the topology, the
wrappers it has created, and the registry from names to wrappers. A wrapper is
designated by its position in `wrappers`, which stands for the pointer that the
tests compare with `ShouldPointTo`; a removed node keeps its wrapper. -/
structure DefaultDynamicTopology where
  state : TopologyState
  wrappers : List NodeWrapper
  nodes : List (String × Nat)
  deriving DecidableEq

namespace DefaultDynamicTopology

/-- The kind of the wrapper behind a handle. -/
def kindOf (t : DefaultDynamicTopology) (h : Nat) : Option NodeKind :=
  (t.wrappers.get? h).map (fun w => w.kind)

/-- The lifecycle state of the wrapper behind a handle: `n.State().Get()`. -/
def stateOf (t : DefaultDynamicTopology) (h : Nat) : Option TopologyState :=
  (t.wrappers.get? h).map (fun w => w.state)

/-- Modelled from the spec: the part that `AddSource`, `AddBox` and `AddSink`
(section 4.6), which are not under src, have in common: the call fails with
`TopologyStopped` when the topology is Stopping or Stopped and with
`DuplicateName` when the name is taken by a node of any kind; otherwise a wrapper
is created, started (it is Running when the call returns), registered under the
name and returned. -/
def addNode (kind : NodeKind) (name : String) (t : DefaultDynamicTopology) :
    Except TopologyError (Nat × DefaultDynamicTopology) :=
  if t.state = .TSStopping ∨ t.state = .TSStopped then .error .TopologyStopped
  else
    match getKey name t.nodes with
    | some _ => .error .DuplicateName
    | none =>
      .ok (t.wrappers.length,
        { t with
          wrappers := t.wrappers ++
            [{ name := name, kind := kind, state := .TSRunning, inputs := [],
               terminateCnt := 0, closeCnt := 0 }]
          nodes := setKey name t.wrappers.length t.nodes })

/-- Modelled from the spec: `AddSource(name, src, cfg)` of section 4.6. -/
def AddSource (name : String) (t : DefaultDynamicTopology) :
    Except TopologyError (Nat × DefaultDynamicTopology) :=
  addNode .source name t

/-- Modelled from the spec: `AddBox(name, box, cfg)` of section 4.6. -/
def AddBox (name : String) (t : DefaultDynamicTopology) :
    Except TopologyError (Nat × DefaultDynamicTopology) :=
  addNode .box name t

/-- Modelled from the spec: `AddSink(name, sink, cfg)` of section 4.6. -/
def AddSink (name : String) (t : DefaultDynamicTopology) :
    Except TopologyError (Nat × DefaultDynamicTopology) :=
  addNode .sink name t

/-- Modelled from the spec: the lookup `Node(name)` of section 4.6, which fails
with `NoSuchNode` for an unknown name. -/
def Node (name : String) (t : DefaultDynamicTopology) : Except TopologyError Nat :=
  match getKey name t.nodes with
  | some h => .ok h
  | none => .error .NoSuchNode

/-- Modelled from the spec: the typed lookups of section 4.6, which fail with
`NoSuchNode` for an unknown name and with `WrongKind` when the name exists with
a different kind. -/
def typedNode (kind : NodeKind) (name : String) (t : DefaultDynamicTopology) :
    Except TopologyError Nat :=
  match getKey name t.nodes with
  | none => .error .NoSuchNode
  | some h => if t.kindOf h = some kind then .ok h else .error .WrongKind

/-- Modelled from the spec: `Source(name)` of section 4.6. -/
def Source (name : String) (t : DefaultDynamicTopology) : Except TopologyError Nat :=
  typedNode .source name t

/-- Modelled from the spec: `Box(name)` of section 4.6. -/
def Box (name : String) (t : DefaultDynamicTopology) : Except TopologyError Nat :=
  typedNode .box name t

/-- Modelled from the spec: `Sink(name)` of section 4.6. -/
def Sink (name : String) (t : DefaultDynamicTopology) : Except TopologyError Nat :=
  typedNode .sink name t

/-- Modelled from the spec: `Nodes()` of section 4.6, the registry as a map. -/
def Nodes (t : DefaultDynamicTopology) : List (String × Nat) :=
  t.nodes

/-- Modelled from the spec: the part that `Sources()`, `Boxes()` and `Sinks()`
of section 4.6 have in common: the registry filtered by the tag of the node
(section 9). -/
def nodesOfKind (kind : NodeKind) (t : DefaultDynamicTopology) : List (String × Nat) :=
  t.nodes.filter (fun e => decide (t.kindOf e.2 = some kind))

/-- Modelled from the spec: `Sources()` of section 4.6. -/
def Sources (t : DefaultDynamicTopology) : List (String × Nat) :=
  nodesOfKind .source t

/-- Modelled from the spec: `Boxes()` of section 4.6. -/
def Boxes (t : DefaultDynamicTopology) : List (String × Nat) :=
  nodesOfKind .box t

/-- Modelled from the spec: `Sinks()` of section 4.6. -/
def Sinks (t : DefaultDynamicTopology) : List (String × Nat) :=
  nodesOfKind .sink t

/-- Modelled from the spec: `Remove(name)` of section 4.6, which is not under
src: the node is stopped, then it is removed from the registry, and the edges
that touch it are torn down (section 3). An unknown name gives `NoSuchNode`. -/
def Remove (name : String) (t : DefaultDynamicTopology) :
    Except TopologyError DefaultDynamicTopology :=
  match getKey name t.nodes with
  | none => .error .NoSuchNode
  | some h =>
    .ok { t with
          wrappers :=
            (modifyAt (fun w => { stopWrapper w with inputs := [] }) h t.wrappers).map
              (fun w => { w with inputs := w.inputs.filter (fun u => u ≠ name) })
          nodes := deleteKey name t.nodes }

/-- Modelled from the spec: the state in which `Stop()` of section 4.7, which is
not under src, leaves the topology when it returns: a stopped topology stays as
it is; otherwise every registered node has been stopped and the topology is
Stopped. The call always returns nil (section 7). -/
def Stop (t : DefaultDynamicTopology) : DefaultDynamicTopology :=
  if t.state = .TSStopped then t
  else
    { t with
      state := .TSStopped
      wrappers := t.nodes.foldl (fun ws e => modifyAt stopWrapper e.2 ws) t.wrappers }

/-- Modelled from the spec: `Stop()` called on the handle of a node (section 5):
the node is stopped and stays registered. -/
def stopNode (h : Nat) (t : DefaultDynamicTopology) : DefaultDynamicTopology :=
  { t with wrappers := modifyAt stopWrapper h t.wrappers }

/-- Modelled from the spec: `handle.Input(upstreamName, edgeCfg)` of section 4.6,
which is not under src: `NoSuchNode` when the upstream does not exist,
`WrongDirection` when the upstream is a sink or the handle is a source,
`DuplicateEdge` when the handle has that upstream already. -/
def Input (h : Nat) (refname : String) (t : DefaultDynamicTopology) :
    Except TopologyError DefaultDynamicTopology :=
  match getKey refname t.nodes with
  | none => .error .NoSuchNode
  | some up =>
    match t.wrappers.get? h with
    | none => .error .NoSuchNode
    | some w =>
      if t.kindOf up = some .sink ∨ w.kind = .source then .error .WrongDirection
      else if refname ∈ w.inputs then .error .DuplicateEdge
      else
        .ok { t with
          wrappers :=
            modifyAt (fun w => { w with inputs := w.inputs ++ [refname] }) h t.wrappers }

end DefaultDynamicTopology

/-- Modelled from the spec: `NewDefaultDynamicTopology`, which is not under src:
a running topology without nodes. -/
def NewDefaultDynamicTopology : DefaultDynamicTopology :=
  { state := .TSRunning, wrappers := [], nodes := [] }

/-- A call on a dynamic topology or on the handle of one of its nodes. -/
inductive DynamicCall where
  | addSource (name : String)
  | addBox (name : String)
  | addSink (name : String)
  | remove (name : String)
  | stop
  | stopNode (h : Nat)
  | input (h : Nat) (refname : String)
  deriving DecidableEq

/-- The topology after a call; a call that fails leaves it as it is. -/
def DynamicCall.apply (c : DynamicCall) (t : DefaultDynamicTopology) : DefaultDynamicTopology :=
  match c with
  | .addSource name => match t.AddSource name with | .ok r => r.2 | .error _ => t
  | .addBox name => match t.AddBox name with | .ok r => r.2 | .error _ => t
  | .addSink name => match t.AddSink name with | .ok r => r.2 | .error _ => t
  | .remove name => match t.Remove name with | .ok t' => t' | .error _ => t
  | .stop => t.Stop
  | .stopNode h => t.stopNode h
  | .input h refname => match t.Input h refname with | .ok t' => t' | .error _ => t

/-- The topology after a sequence of calls. -/
def runCalls (calls : List DynamicCall) (t : DefaultDynamicTopology) : DefaultDynamicTopology :=
  calls.foldl (fun t c => c.apply t) t

/-- Whether a call adds a node under the name. -/
def DynamicCall.adds (name : String) : DynamicCall → Bool
  | .addSource n => n = name
  | .addBox n => n = name
  | .addSink n => n = name
  | _ => false

/-- Whether a call removes the node of the name. -/
def DynamicCall.removes (name : String) : DynamicCall → Bool
  | .remove n => n = name
  | _ => false

/-- The wrappers of `ws` are still in `ws'`, at the same positions and with the
same kinds and names. -/
def KeepsWrappers (ws ws' : List NodeWrapper) : Prop :=
  ∀ h w, ws.get? h = some w → ∃ w', ws'.get? h = some w' ∧ w'.kind = w.kind ∧ w'.name = w.name

/-- What a call does to the registry and to the wrappers, case by case. -/
inductive CallEffect (c : DynamicCall) (t t' : DefaultDynamicTopology) : Prop
  | same (h : t' = t)
  | added (kind : NodeKind) (name : String) (hc : c.adds name = true)
      (h1 : t.state ≠ .TSStopping) (h2 : t.state ≠ .TSStopped)
      (hk : getKey name t.nodes = none)
      (h : t' = { t with
                  wrappers := t.wrappers ++
                    [{ name := name, kind := kind, state := .TSRunning, inputs := [],
                       terminateCnt := 0, closeCnt := 0 }]
                  nodes := setKey name t.wrappers.length t.nodes })
  | removed (name : String) (hd : Nat) (hc : c.removes name = true)
      (hk : getKey name t.nodes = some hd)
      (hs : t'.state = t.state) (hn : t'.nodes = deleteKey name t.nodes)
      (hw : KeepsWrappers t.wrappers t'.wrappers)
      (hlen : t'.wrappers.length = t.wrappers.length)
  | touched (hs : t'.state = t.state ∨ t'.state = .TSStopped) (hn : t'.nodes = t.nodes)
      (hw : KeepsWrappers t.wrappers t'.wrappers)
      (hlen : t'.wrappers.length = t.wrappers.length)

/-- The invariant of the registry: no name is registered twice, and every
registered handle designates a wrapper that carries the name. -/
structure RegistryInv (t : DefaultDynamicTopology) : Prop where
  keys : (t.nodes.map (fun e => e.1)).Nodup
  bound : ∀ name h, getKey name t.nodes = some h →
    ∃ w, t.wrappers.get? h = some w ∧ w.name = name

/-- The linear topology of the tests: `source`, `box1`, `box2` and `sink` added
to a new topology. -/
def linearTopology : DefaultDynamicTopology :=
  runCalls [.addSource "source", .addBox "box1", .addBox "box2", .addSink "sink"]
    NewDefaultDynamicTopology

/-! ## Lifecycles along the calls -/

/-- Two wrappers at the same stage of the same life: the same name and kind,
the same state and the same numbers of `Terminate` and `Close` invocations. -/
def SameLife (a b : NodeWrapper) : Prop :=
  b.name = a.name ∧ b.kind = a.kind ∧ b.state = a.state ∧
    b.terminateCnt = a.terminateCnt ∧ b.closeCnt = a.closeCnt

/-- The wrappers `ws'` are the wrappers `ws` later in their lives: those at the
positions `stopped` have been stopped, the others are at the stage they were. -/
def Ages (stopped : Nat → Prop) (ws ws' : List NodeWrapper) : Prop :=
  ws'.length = ws.length ∧
  ∀ h w, ws.get? h = some w → ∃ w', ws'.get? h = some w' ∧
    ((¬ stopped h ∧ SameLife w w') ∨ (stopped h ∧ SameLife (stopWrapper w) w'))

/-- What a call does to the lives of the nodes, case by case. -/
inductive LifeEffect (c : DynamicCall) (t t' : DefaultDynamicTopology) : Prop
  | same (h : t' = t)
  | added (kind : NodeKind) (name : String)
      (h2 : t.state ≠ .TSStopped) (hk : getKey name t.nodes = none)
      (h : t' = { t with
                  wrappers := t.wrappers ++
                    [{ name := name, kind := kind, state := .TSRunning, inputs := [],
                       terminateCnt := 0, closeCnt := 0 }]
                  nodes := setKey name t.wrappers.length t.nodes })
  | removed (name : String) (hd : Nat) (hk : getKey name t.nodes = some hd)
      (hs : t'.state = t.state) (hn : t'.nodes = deleteKey name t.nodes)
      (hw : Ages (fun h => h = hd) t.wrappers t'.wrappers)
  | stoppedAll (hs : t'.state = .TSStopped) (hn : t'.nodes = t.nodes)
      (hw : Ages (fun h => h ∈ t.nodes.map (fun e => e.2)) t.wrappers t'.wrappers)
  | touched (stopped : Nat → Prop) (hs : t'.state = t.state) (hn : t'.nodes = t.nodes)
      (hw : Ages stopped t.wrappers t'.wrappers)

/-- `Terminate` has been invoked once on a stopped box and never on another
node, `Close` once on a stopped sink and never on another node. -/
def CountsOnce (w : NodeWrapper) : Prop :=
  w.terminateCnt = (if w.kind = .box ∧ w.state = .TSStopped then 1 else 0) ∧
  w.closeCnt = (if w.kind = .sink ∧ w.state = .TSStopped then 1 else 0)

/-- The invariant of the lifecycles: the invocation counts of every wrapper go
with its state, a wrapper that is not stopped is registered under its name, and
a stopped topology has stopped wrappers only. -/
structure LifeInv (t : DefaultDynamicTopology) : Prop where
  counts : ∀ h w, t.wrappers.get? h = some w → CountsOnce w
  registered : ∀ h w, t.wrappers.get? h = some w → w.state ≠ .TSStopped →
    getKey w.name t.nodes = some h
  halted : t.state = .TSStopped → ∀ h w, t.wrappers.get? h = some w → w.state = .TSStopped

/-! ## The static topology builder

`defaulttopology_test.go` exercises `NewDefaultStaticTopologyBuilder`, its
`AddSource`/`AddBox`/`AddSink` and the `Input` of the declarers they return; the
builder itself is not part of the sources at hand. -/

/-- Modelled from the spec: the static builder, "a build-time-only variant" of
the topology controller: the names declared so far with the kind of each, and
the edges declared so far as pairs (upstream, downstream). -/
structure DefaultStaticTopologyBuilder where
  nodes : List (String × NodeKind)
  Edges : List (String × String)
  deriving DecidableEq

/-- Modelled from the spec: "`AddSource/AddBox/AddSink` and `Input(...)` return a
declarer that accumulates errors lazily": the declarer of the node `name`, the
builder as the calls so far have left it, and the first error met, if any. -/
structure Declarer where
  tb : DefaultStaticTopologyBuilder
  name : String
  kind : NodeKind
  err : Option TopologyError
  deriving DecidableEq

/-- Modelled from the spec: "each call returns a value whose `Err()` surfaces the
error". -/
def Declarer.Err (d : Declarer) : Option TopologyError :=
  d.err

/-- Modelled from the spec: `NewDefaultStaticTopologyBuilder()`, a builder
without nodes and without edges. -/
def NewDefaultStaticTopologyBuilder : DefaultStaticTopologyBuilder :=
  { nodes := [], Edges := [] }

namespace DefaultStaticTopologyBuilder

/-- Modelled from the spec: the kind under which a name is declared. -/
def kindOf (name : String) (tb : DefaultStaticTopologyBuilder) : Option NodeKind :=
  getKey name tb.nodes

/-- Modelled from the spec: the common part of the three `Add` calls:
`DuplicateName` is the error of a "name in use by any node kind", and a builder
that refuses a name is left as it was. -/
def declare (kind : NodeKind) (name : String) (tb : DefaultStaticTopologyBuilder) : Declarer :=
  match getKey name tb.nodes with
  | some _ => { tb := tb, name := name, kind := kind, err := some .DuplicateName }
  | none =>
    { tb := { tb with nodes := setKey name kind tb.nodes }, name := name, kind := kind,
      err := none }

/-- Modelled from the spec: `AddSource(name, src)` of the static builder. -/
def AddSource (name : String) (tb : DefaultStaticTopologyBuilder) : Declarer :=
  declare .source name tb

/-- Modelled from the spec: `AddBox(name, box)` of the static builder. -/
def AddBox (name : String) (tb : DefaultStaticTopologyBuilder) : Declarer :=
  declare .box name tb

/-- Modelled from the spec: `AddSink(name, sink)` of the static builder. -/
def AddSink (name : String) (tb : DefaultStaticTopologyBuilder) : Declarer :=
  declare .sink name tb

/-- The `Add` call of a kind. -/
def addOfKind : NodeKind → String → DefaultStaticTopologyBuilder → Declarer
  | .source => AddSource
  | .box => AddBox
  | .sink => AddSink

end DefaultStaticTopologyBuilder

/-- Modelled from the spec: `Input(refname)` of a declarer. A declarer that has
an error keeps it and does nothing. Otherwise the call "fails with `NoSuchNode`
if the upstream does not exist, with `DuplicateEdge` if the same upstream is
added twice to the same downstream, or `WrongDirection`" when the upstream is a
sink or the declarer is that of a source; and else it records the edge. -/
def Declarer.Input (d : Declarer) (refname : String) : Declarer :=
  match d.err with
  | some _ => d
  | none =>
    match getKey refname d.tb.nodes with
    | none => { d with err := some .NoSuchNode }
    | some k =>
      if k = .sink ∨ d.kind = .source then { d with err := some .WrongDirection }
      else if (refname, d.name) ∈ d.tb.Edges then { d with err := some .DuplicateEdge }
      else { d with tb := { d.tb with Edges := d.tb.Edges ++ [(refname, d.name)] } }

/-- A call on a static builder: one of the three `Add` calls, or `Input` on the
declarer of a declared node. -/
inductive StaticCall where
  | addSource (name : String)
  | addBox (name : String)
  | addSink (name : String)
  | input (name : String) (refname : String)
  deriving DecidableEq

/-- The builder after a call. A declarer without error exists only for a name
that the builder has accepted, with the kind it was accepted under; `Input` on a
declarer with an error leaves the builder alone. -/
def StaticCall.apply (c : StaticCall) (tb : DefaultStaticTopologyBuilder) :
    DefaultStaticTopologyBuilder :=
  match c with
  | .addSource name => (tb.AddSource name).tb
  | .addBox name => (tb.AddBox name).tb
  | .addSink name => (tb.AddSink name).tb
  | .input name refname =>
    match getKey name tb.nodes with
    | some kind =>
      (Declarer.Input { tb := tb, name := name, kind := kind, err := none } refname).tb
    | none => tb

/-- The builder after a sequence of calls. -/
def buildCalls (calls : List StaticCall) (tb : DefaultStaticTopologyBuilder) :
    DefaultStaticTopologyBuilder :=
  calls.foldl (fun t c => c.apply t) tb

/-- Whether a call is an `Add` of the name. -/
def StaticCall.adds (name : String) : StaticCall → Bool
  | .addSource n => n == name
  | .addBox n => n == name
  | .addSink n => n == name
  | .input _ _ => false

/-- The builder of the tests on `Input`: the source `aSource` and the box
`aBox`. -/
def sourceAndBox : DefaultStaticTopologyBuilder :=
  buildCalls [.addSource "aSource", .addBox "aBox"] NewDefaultStaticTopologyBuilder

/-- What a call does to a static builder: nothing, or it declares a name that
was free, or it records an edge into a declared node. -/
inductive StaticEffect (c : StaticCall) (tb tb' : DefaultStaticTopologyBuilder) : Prop
  | same (h : tb' = tb)
  | added (kind : NodeKind) (name : String) (hc : c.adds name = true)
      (hfree : getKey name tb.nodes = none)
      (hn : tb'.nodes = setKey name kind tb.nodes) (he : tb'.Edges = tb.Edges)
  | linked (name refname : String) (kind : NodeKind) (hk : getKey name tb.nodes = some kind)
      (hn : tb'.nodes = tb.nodes) (he : tb'.Edges = tb.Edges ++ [(refname, name)])

/-- Every edge of the builder leads into a declared node. -/
def EdgesInv (tb : DefaultStaticTopologyBuilder) : Prop :=
  ∀ e ∈ tb.Edges, ∃ k, getKey e.2 tb.nodes = some k

end Core

/-! # Theorems -/

namespace Execution

/-! ## Structural equality of values -/

mutual
theorem Value.eq_of_beq : ∀ a b : Value, Value.beq a b = true → a = b
  | .null, b, h => by cases b <;> simp_all [Value.beq]
  | .bool a, b, h => by cases b <;> simp_all [Value.beq]
  | .int a, b, h => by cases b <;> simp_all [Value.beq]
  | .float a, b, h => by cases b <;> simp_all [Value.beq]
  | .string a, b, h => by cases b <;> simp_all [Value.beq]
  | .blob a, b, h => by cases b <;> simp_all [Value.beq]
  | .timestamp a, b, h => by cases b <;> simp_all [Value.beq]
  | .array a, .array b, h => by
      rw [Value.beq] at h
      rw [Value.eq_of_beqArray a b h]
  | .array a, .null, h | .array a, .bool _, h | .array a, .int _, h | .array a, .float _, h
  | .array a, .string _, h | .array a, .blob _, h | .array a, .timestamp _, h
  | .array a, .map _, h => by
      simp [Value.beq] at h
  | .map a, .map b, h => by
      rw [Value.beq] at h
      rw [Value.eq_of_beqMap a b h]
  | .map a, .null, h | .map a, .bool _, h | .map a, .int _, h | .map a, .float _, h
  | .map a, .string _, h | .map a, .blob _, h | .map a, .timestamp _, h
  | .map a, .array _, h => by
      simp [Value.beq] at h
theorem Value.eq_of_beqArray : ∀ a b : List Value, Value.beqArray a b = true → a = b
  | [], [], _ => rfl
  | [], _ :: _, h => by simp [Value.beqArray] at h
  | _ :: _, [], h => by simp [Value.beqArray] at h
  | x :: xs, y :: ys, h => by
      simp only [Value.beqArray, Bool.and_eq_true] at h
      rw [Value.eq_of_beq x y h.1, Value.eq_of_beqArray xs ys h.2]
theorem Value.eq_of_beqMap :
    ∀ a b : List (String × Value), Value.beqMap a b = true → a = b
  | [], [], _ => rfl
  | [], _ :: _, h => by simp [Value.beqMap] at h
  | _ :: _, [], h => by simp [Value.beqMap] at h
  | (k, x) :: xs, (l, y) :: ys, h => by
      simp only [Value.beqMap, Bool.and_eq_true, beq_iff_eq] at h
      rw [h.1.1, Value.eq_of_beq x y h.1.2, Value.eq_of_beqMap xs ys h.2]
end

mutual
theorem Value.beq_self : ∀ a : Value, Value.beq a a = true
  | .null => by simp [Value.beq]
  | .bool a => by simp [Value.beq]
  | .int a => by simp [Value.beq]
  | .float a => by simp [Value.beq]
  | .string a => by simp [Value.beq]
  | .blob a => by simp [Value.beq]
  | .timestamp a => by simp [Value.beq]
  | .array a => by rw [Value.beq]; exact Value.beqArray_self a
  | .map a => by rw [Value.beq]; exact Value.beqMap_self a
theorem Value.beqArray_self : ∀ a : List Value, Value.beqArray a a = true
  | [] => by simp [Value.beqArray]
  | x :: xs => by simp [Value.beqArray, Value.beq_self x, Value.beqArray_self xs]
theorem Value.beqMap_self : ∀ a : List (String × Value), Value.beqMap a a = true
  | [] => by simp [Value.beqMap]
  | (k, x) :: xs => by simp [Value.beqMap, Value.beq_self x, Value.beqMap_self xs]
end

/-! ## Go maps as association lists -/

theorem getKey_setKey_same {α : Type} (k : String) (v : α) (m : List (String × α)) :
    getKey k (setKey k v m) = some v := by
  induction m with
  | nil => simp [setKey, getKey]
  | cons kv t ih =>
    obtain ⟨k', v'⟩ := kv
    by_cases h : k' = k
    · simp [setKey, getKey, h]
    · simp [setKey, getKey, h, ih]

theorem getKey_setKey_ne {α : Type} (k k2 : String) (v : α) (m : List (String × α))
    (hne : k2 ≠ k) : getKey k2 (setKey k v m) = getKey k2 m := by
  induction m with
  | nil => simp [setKey, getKey, Ne.symm hne]
  | cons kv t ih =>
    obtain ⟨k', v'⟩ := kv
    by_cases h : k' = k
    · subst h
      simp [setKey, getKey, Ne.symm hne]
    · by_cases h2 : k' = k2
      · subst h2
        simp [setKey, getKey, h]
      · simp [setKey, getKey, h, h2, ih]

theorem getKey_deleteKey_same {α : Type} (k : String) (m : List (String × α)) :
    getKey k (deleteKey k m) = none := by
  induction m with
  | nil => simp [deleteKey, getKey]
  | cons kv t ih =>
    obtain ⟨k', v'⟩ := kv
    by_cases h : k' = k
    · simp [deleteKey, h, ih]
    · simp [deleteKey, getKey, h, ih]

theorem getKey_deleteKey_ne {α : Type} (k k2 : String) (m : List (String × α))
    (hne : k2 ≠ k) : getKey k2 (deleteKey k m) = getKey k2 m := by
  induction m with
  | nil => simp [deleteKey, getKey]
  | cons kv t ih =>
    obtain ⟨k', v'⟩ := kv
    by_cases h : k' = k
    · subst h
      simp [deleteKey, getKey, Ne.symm hne, ih]
    · by_cases h2 : k' = k2
      · subst h2
        simp [deleteKey, getKey, h]
      · simp [deleteKey, getKey, h, h2, ih]

/-! ## The identifiers of the aggregates -/

theorem appendAggInputs_length (d : Map) (id : String) :
    ∀ (l : List (String × AggInputEvaluator)) (aggData aggData' : List (String × List Value)),
      appendAggInputs d l aggData = .ok aggData' →
      (inputsOf id aggData').length
        = (inputsOf id aggData).length + (l.map (fun kv => kv.1)).count id := by
  intro l
  induction l with
  | nil =>
    intro aggData aggData' h
    simp only [appendAggInputs, Except.ok.injEq] at h
    subst h
    simp
  | cons kv rest ih =>
    intro aggData aggData' h
    obtain ⟨key, agg⟩ := kv
    simp only [appendAggInputs] at h
    split at h
    · cases h
    · rename_i value hv
      rw [ih _ _ h]
      by_cases hk : key = id
      · subst hk
        simp [inputsOf, getKey_setKey_same]
        omega
      · have hk' : id ≠ key := fun e => hk e.symm
        simp [inputsOf, getKey_setKey_ne _ _ _ _ hk', List.count_cons, hk]

theorem collectAggInputs_length (d : Map) (id : String) :
    ∀ (ps : List Projection) (aggData aggData' : List (String × List Value)),
      collectAggInputs d ps aggData = .ok aggData' →
      (inputsOf id aggData').length = (inputsOf id aggData).length + (aggIds ps).count id := by
  intro ps
  induction ps with
  | nil =>
    intro aggData aggData' h
    simp only [collectAggInputs, Except.ok.injEq] at h
    subst h
    simp [aggIds]
  | cons proj rest ih =>
    intro aggData aggData' h
    simp only [collectAggInputs] at h
    by_cases hagg : proj.hasAggregate = true
    · simp only [hagg, if_true] at h
      split at h
      · cases h
      · rename_i mid hmid
        rw [ih _ _ h, appendAggInputs_length d id _ _ _ hmid]
        simp [aggIds, hagg, List.count_append]
        omega
    · simp only [hagg] at h
      rw [ih _ _ h]
      simp [aggIds, hagg]

/-! ## What `findOrCreateGroup` and `evalItem` return -/

theorem findGroupIdx_none (ep : GroupbyExecutionPlan) (k : List Value) :
    ∀ (gs : List TmpGroupData) (i : Nat), findGroupIdx ep k gs i = .ok none →
      ∀ g ∈ gs, ep.cmpOp (.array g.group) (.array k) = .ok false := by
  intro gs
  induction gs with
  | nil => intro i _ g hg; cases hg
  | cons g0 rest ih =>
    intro i h g hg
    simp only [findGroupIdx] at h
    split at h
    · cases h
    · rename_i equals heq
      cases equals with
      | true => simp at h
      | false =>
        simp only [Bool.false_eq_true, if_false] at h
        rcases List.mem_cons.1 hg with rfl | hg'
        · exact heq
        · exact ih _ h g hg'

theorem findGroupIdx_none_of (ep : GroupbyExecutionPlan) (k : List Value) :
    ∀ (gs : List TmpGroupData) (i : Nat),
      (∀ g ∈ gs, ep.cmpOp (.array g.group) (.array k) = .ok false) →
      findGroupIdx ep k gs i = .ok none := by
  intro gs
  induction gs with
  | nil => intro i _; rfl
  | cons g0 rest ih =>
    intro i h
    simp only [findGroupIdx]
    rw [h g0 (List.mem_cons_self _ _)]
    simp only [Bool.false_eq_true, if_false]
    exact ih _ (fun g hg => h g (List.mem_cons_of_mem _ hg))

theorem findGroupIdx_some (ep : GroupbyExecutionPlan) (k : List Value) :
    ∀ (gs : List TmpGroupData) (i j : Nat), findGroupIdx ep k gs i = .ok (some j) →
      ∃ pre g post, gs = pre ++ g :: post ∧ j = i + pre.length ∧
        ep.cmpOp (.array g.group) (.array k) = .ok true ∧
        ∀ g' ∈ pre, ep.cmpOp (.array g'.group) (.array k) = .ok false := by
  intro gs
  induction gs with
  | nil => intro i j h; simp [findGroupIdx] at h
  | cons g0 rest ih =>
    intro i j h
    simp only [findGroupIdx] at h
    split at h
    · cases h
    · rename_i equals heq
      cases equals with
      | true =>
        simp only [if_true, Except.ok.injEq, Option.some.injEq] at h
        exact ⟨[], g0, rest, rfl, by simp [h], heq, by simp⟩
      | false =>
        simp only [Bool.false_eq_true, if_false] at h
        obtain ⟨pre, g, post, hgs, hj, hg, hpre⟩ := ih _ _ h
        refine ⟨g0 :: pre, g, post, by simp [hgs], by simp [hj]; omega, hg, ?_⟩
        intro g' hg'
        rcases List.mem_cons.1 hg' with rfl | hg''
        · exact heq
        · exact hpre g' hg''

theorem findOrCreateGroup_ok (ep : GroupbyExecutionPlan) (gs gs1 : List TmpGroupData)
    (k : List Value) (d : Map) (idx : Nat)
    (h : findOrCreateGroup ep gs k d = .ok (gs1, idx)) :
    (∃ pre g post, gs = pre ++ g :: post ∧ gs1 = gs ∧ idx = pre.length ∧
        ep.cmpOp (.array g.group) (.array k) = .ok true ∧
        ∀ g' ∈ pre, ep.cmpOp (.array g'.group) (.array k) = .ok false) ∨
    ((∀ g ∈ gs, ep.cmpOp (.array g.group) (.array k) = .ok false) ∧
      gs1 = gs ++ [{ group := k, aggData := initAggData ep.projections, nonAggData := d }] ∧
      idx = gs.length) := by
  unfold findOrCreateGroup at h
  cases hfind : findGroupIdx ep k gs 0 with
  | error err => rw [hfind] at h; cases h
  | ok r =>
    rw [hfind] at h
    cases r with
    | some j =>
      simp only [Except.ok.injEq, Prod.mk.injEq] at h
      obtain ⟨rfl, rfl⟩ := h
      obtain ⟨pre, g, post, hgs, hjj, hg, hpre⟩ := findGroupIdx_some ep k gs 0 j hfind
      exact Or.inl ⟨pre, g, post, hgs, rfl, by omega, hg, hpre⟩
    | none =>
      simp only [Except.ok.injEq, Prod.mk.injEq] at h
      obtain ⟨rfl, rfl⟩ := h
      exact Or.inr ⟨findGroupIdx_none ep k gs 0 hfind, rfl, rfl⟩

theorem evalItem_ok (ep : GroupbyExecutionPlan) (d : Map) (gs gs' : List TmpGroupData)
    (h : evalItem ep d gs = .ok gs') : ItemEffect ep d gs gs' := by
  unfold evalItem at h
  cases hf : passesFilter ep d with
  | error err => rw [hf] at h; cases h
  | ok b =>
    rw [hf] at h
    cases b with
    | false =>
      simp only [Except.ok.injEq] at h
      exact .skipped hf h.symm
    | true =>
      simp only at h
      cases hk : evalGroupList d ep.groupList with
      | error err => rw [hk] at h; cases h
      | ok k =>
        rw [hk] at h
        simp only at h
        cases hfo : findOrCreateGroup ep gs k d with
        | error err => rw [hfo] at h; cases h
        | ok r =>
          obtain ⟨gs1, idx⟩ := r
          rw [hfo] at h
          simp only at h
          rcases findOrCreateGroup_ok ep gs gs1 k d idx hfo with
            ⟨pre, g, post, hgs, rfl, rfl, hg, hpre⟩ | ⟨hno, rfl, rfl⟩
          · subst hgs
            simp only [List.get?_eq_getElem?, List.getElem?_append_right (le_refl _),
              Nat.sub_self, List.getElem?_cons_zero] at h
            cases hagg : collectAggInputs d ep.projections g.aggData with
            | error err => rw [hagg] at h; cases h
            | ok aggData' =>
              rw [hagg] at h
              simp only [Except.ok.injEq] at h
              refine .joined k pre post g aggData' hf hk rfl hg hpre hagg ?_
              rw [← h]
              simp
          · simp only [List.get?_eq_getElem?, List.getElem?_append_right (le_refl _),
              Nat.sub_self, List.getElem?_cons_zero] at h
            cases hagg : collectAggInputs d ep.projections (initAggData ep.projections) with
            | error err => rw [hagg] at h; cases h
            | ok aggData' =>
              rw [hagg] at h
              simp only [Except.ok.injEq] at h
              refine .created k aggData' hf hk hno hagg ?_
              rw [← h]
              simp

/-! ## Key equality and the rows of a group -/

theorem mem_passingKeys (ep : GroupbyExecutionPlan) (rows : List Map) (k : List Value) :
    k ∈ passingKeys ep rows ↔
      ∃ d ∈ rows, passesFilter ep d = .ok true ∧ evalGroupList d ep.groupList = .ok k := by
  unfold passingKeys
  rw [List.mem_filterMap]
  constructor
  · rintro ⟨d, hd, h⟩
    refine ⟨d, hd, ?_⟩
    split at h
    · rename_i hf hk
      simp only [Option.some.injEq] at h
      subst h
      exact ⟨hf, hk⟩
    · cases h
  · rintro ⟨d, hd, hf, hk⟩
    exact ⟨d, hd, by rw [hf, hk]⟩

theorem joins_eq_true (ep : GroupbyExecutionPlan) (key : List Value) (d : Map) :
    joins ep key d = true ↔
      ∃ k, passesFilter ep d = .ok true ∧ evalGroupList d ep.groupList = .ok k ∧
        keyEquals ep key k := by
  unfold joins
  constructor
  · intro h
    split at h
    · rename_i k hf hk
      exact ⟨k, hf, hk, of_decide_eq_true h⟩
    · cases h
  · rintro ⟨k, hf, hk, he⟩
    rw [hf, hk]
    exact decide_eq_true he

theorem countJoining_append (ep : GroupbyExecutionPlan) (key : List Value) (done : List Map)
    (d : Map) :
    countJoining ep key (done ++ [d]) = countJoining ep key done + (if joins ep key d then 1 else 0) := by
  unfold countJoining
  rw [List.countP_append]
  simp [List.countP_cons]

theorem inputsOf_initAggData (id : String) (ps : List Projection) :
    inputsOf id (initAggData ps) = [] := by
  unfold initAggData
  have inner : ∀ (l : List (String × AggInputEvaluator)) (acc : List (String × List Value)),
      inputsOf id acc = [] →
      inputsOf id (l.foldl (fun acc kv => setKey kv.1 [] acc) acc) = [] := by
    intro l
    induction l with
    | nil => intro acc h; exact h
    | cons kv rest ih =>
      intro acc h
      simp only [List.foldl_cons]
      apply ih
      by_cases hk : id = kv.1
      · subst hk
        simp [inputsOf, getKey_setKey_same]
      · simpa [inputsOf, getKey_setKey_ne _ _ _ _ hk] using h
  have outer : ∀ (l : List Projection) (acc : List (String × List Value)),
      inputsOf id acc = [] →
      inputsOf id (l.foldl
        (fun acc proj => proj.aggrEvals.foldl (fun acc kv => setKey kv.1 [] acc) acc) acc) = [] := by
    intro l
    induction l with
    | nil => intro acc h; exact h
    | cons p rest ih =>
      intro acc h
      simp only [List.foldl_cons]
      exact ih _ (inner _ _ h)
  exact outer ps [] (by simp [inputsOf, getKey])

theorem GroupsInv.init (ep : GroupbyExecutionPlan) : GroupsInv ep [] [] :=
  { counts := by intro g hg; cases hg
    distinct := by simp
    covered := by intro k hk; simp [passingKeys] at hk
    fromRows := by intro k hk; simp at hk }

theorem passingKeys_append (ep : GroupbyExecutionPlan) (a b : List Map) :
    passingKeys ep (a ++ b) = passingKeys ep a ++ passingKeys ep b := by
  simp [passingKeys, List.filterMap_append]

theorem GroupsInv.step (ep : GroupbyExecutionPlan) (heqv : Equivalence (keyEquals ep))
    (done : List Map) (d : Map) (gs gs' : List TmpGroupData)
    (inv : GroupsInv ep done gs) (h : evalItem ep d gs = .ok gs') :
    GroupsInv ep (done ++ [d]) gs' := by
  cases evalItem_ok ep d gs gs' h with
  | skipped hf hgs =>
    subst hgs
    have hj : ∀ key, joins ep key d = false := by
      intro key
      simp [joins, hf]
    have hpk : passingKeys ep (done ++ [d]) = passingKeys ep done := by
      rw [passingKeys_append]
      simp [passingKeys, hf]
    refine ⟨?_, inv.distinct, ?_, ?_⟩
    · intro g hg id
      rw [countJoining_append, hj]
      simpa using inv.counts g hg id
    · rw [hpk]; exact inv.covered
    · rw [hpk]; exact inv.fromRows
  | joined k pre post g aggData' hf hk hgs hg hpre hagg hgs' =>
    subst hgs hgs'
    have hpk : passingKeys ep (done ++ [d]) = passingKeys ep done ++ [k] := by
      rw [passingKeys_append]
      simp [passingKeys, hf, hk]
    have hkeys : (pre ++ { g with aggData := aggData' } :: post).map (fun g => g.group)
        = (pre ++ g :: post).map (fun g => g.group) := by simp
    have hdist := inv.distinct
    simp only [List.map_append, List.map_cons, List.pairwise_append, List.pairwise_cons,
      List.mem_map, List.mem_cons] at hdist
    have hother : ∀ x, x ∈ pre ∨ x ∈ post → joins ep x.group d = false := by
      intro x hx
      by_contra hcon
      have hcon' : joins ep x.group d = true := by simpa using hcon
      obtain ⟨k', _, hk', he⟩ := (joins_eq_true ep x.group d).1 hcon'
      rw [hk] at hk'
      cases hk'
      have hgx : keyEquals ep x.group g.group := heqv.trans he (heqv.symm hg)
      rcases hx with hx | hx
      · exact hdist.2.2 x.group ⟨x, hx, rfl⟩ g.group (Or.inl rfl) hgx
      · exact hdist.2.1.1 x.group ⟨x, hx, rfl⟩ (heqv.symm hgx)
    refine ⟨?_, ?_, ?_, ?_⟩
    · intro x hx id
      rw [countJoining_append]
      simp only [List.mem_append, List.mem_cons] at hx
      rcases hx with hx | rfl | hx
      · rw [hother x (Or.inl hx)]
        simpa using inv.counts x (by simp [hx]) id
      · have hjoin : joins ep g.group d = true := (joins_eq_true ep g.group d).2 ⟨k, hf, hk, hg⟩
        simp only [hjoin, if_true]
        rw [collectAggInputs_length d id _ _ _ hagg, inv.counts g (by simp) id]
        ring
      · rw [hother x (Or.inr hx)]
        simpa using inv.counts x (by simp [hx]) id
    · rw [hkeys]; exact inv.distinct
    · rw [hkeys, hpk]
      intro k' hk'
      rcases List.mem_append.1 hk' with hk' | hk'
      · exact inv.covered k' hk'
      · simp only [List.mem_singleton] at hk'
        subst hk'
        exact ⟨g.group, by simp, hg⟩
    · rw [hkeys, hpk]
      intro key hkey
      exact List.mem_append_left _ (inv.fromRows key hkey)
  | created k aggData' hf hk hno hagg hgs' =>
    subst hgs'
    have hpk : passingKeys ep (done ++ [d]) = passingKeys ep done ++ [k] := by
      rw [passingKeys_append]
      simp [passingKeys, hf, hk]
    have hnot : ∀ g ∈ gs, ¬ keyEquals ep g.group k := by
      intro g hg he
      have := hno g hg
      unfold keyEquals at he
      rw [this] at he
      cases he
    have hfresh : countJoining ep k done = 0 := by
      unfold countJoining
      rw [List.countP_eq_zero]
      intro d' hd' hj
      obtain ⟨k', hf', hk', he⟩ := (joins_eq_true ep k d').1 hj
      have hmem : k' ∈ passingKeys ep done := (mem_passingKeys ep done k').2 ⟨d', hd', hf', hk'⟩
      obtain ⟨key, hkey, hke⟩ := inv.covered k' hmem
      obtain ⟨g, hg, rfl⟩ := List.mem_map.1 hkey
      exact hnot g hg (heqv.trans hke (heqv.symm he))
    refine ⟨?_, ?_, ?_, ?_⟩
    · intro x hx id
      rw [countJoining_append]
      simp only [List.mem_append, List.mem_singleton] at hx
      rcases hx with hx | rfl
      · have hj : joins ep x.group d = false := by
          by_contra hcon
          have hcon' : joins ep x.group d = true := by simpa using hcon
          obtain ⟨k', _, hk', he⟩ := (joins_eq_true ep x.group d).1 hcon'
          rw [hk] at hk'
          cases hk'
          exact hnot x hx he
        rw [hj]
        simpa using inv.counts x hx id
      · have hjoin : joins ep k d = true := (joins_eq_true ep k d).2 ⟨k, hf, hk, heqv.refl k⟩
        simp only [hjoin, if_true, hfresh]
        rw [collectAggInputs_length d id _ _ _ hagg, inputsOf_initAggData]
        simp
    · simp only [List.map_append, List.map_cons, List.map_nil, List.pairwise_append]
      refine ⟨inv.distinct, by simp, ?_⟩
      intro a ha b hb
      simp only [List.mem_singleton] at hb
      subst hb
      obtain ⟨g, hg, rfl⟩ := List.mem_map.1 ha
      exact hnot g hg
    · rw [hpk]
      intro k' hk'
      rcases List.mem_append.1 hk' with hk' | hk'
      · obtain ⟨key, hkey, he⟩ := inv.covered k' hk'
        exact ⟨key, by simp only [List.map_append, List.mem_append]; exact Or.inl hkey, he⟩
      · simp only [List.mem_singleton] at hk'
        subst hk'
        exact ⟨k', by simp, heqv.refl k'⟩
    · rw [hpk]
      intro key hkey
      simp only [List.map_append, List.map_cons, List.map_nil, List.mem_append,
        List.mem_singleton] at hkey
      rcases hkey with hkey | rfl
      · exact List.mem_append_left _ (inv.fromRows key hkey)
      · simp

theorem GroupsInv.run (ep : GroupbyExecutionPlan) (heqv : Equivalence (keyEquals ep)) :
    ∀ (rows done : List Map) (gs gs' : List TmpGroupData), GroupsInv ep done gs →
      processCartesianProduct rows (evalItem ep) gs = .ok gs' → GroupsInv ep (done ++ rows) gs' := by
  intro rows
  induction rows with
  | nil =>
    intro done gs gs' inv h
    simp only [processCartesianProduct, Except.ok.injEq] at h
    subst h
    simpa using inv
  | cons d rest ih =>
    intro done gs gs' inv h
    simp only [processCartesianProduct] at h
    cases hd : evalItem ep d gs with
    | error err => rw [hd] at h; cases h
    | ok gs1 =>
      rw [hd] at h
      have := ih (done ++ [d]) gs1 gs' (GroupsInv.step ep heqv done d gs gs1 inv hd) h
      simpa using this

/-! ## What `evalGroup` binds -/

theorem bindAggregates_notin (id : String) :
    ∀ (l : List (String × AggInputEvaluator)) (g : TmpGroupData),
      id ∉ l.map (fun kv => kv.1) →
      getKey id (bindAggregates l g).nonAggData = getKey id g.nonAggData ∧
      getKey id (bindAggregates l g).aggData = getKey id g.aggData := by
  intro l
  induction l with
  | nil => intro g _; exact ⟨rfl, rfl⟩
  | cons kv rest ih =>
    intro g hid
    obtain ⟨key, agg⟩ := kv
    simp only [List.map_cons, List.mem_cons, not_or] at hid
    simp only [bindAggregates]
    obtain ⟨h1, h2⟩ := ih _ hid.2
    rw [h1, h2]
    exact ⟨getKey_setKey_ne _ _ _ _ hid.1, getKey_deleteKey_ne _ _ _ hid.1⟩

theorem bindAggregates_mem (id : String) :
    ∀ (l : List (String × AggInputEvaluator)) (g : TmpGroupData),
      (l.map (fun kv => kv.1)).Nodup → id ∈ l.map (fun kv => kv.1) →
      getKey id (bindAggregates l g).nonAggData
        = some (.int ((inputsOf id g.aggData).length : Nat)) := by
  intro l
  induction l with
  | nil => intro g _ hid; cases hid
  | cons kv rest ih =>
    intro g hnd hid
    obtain ⟨key, agg⟩ := kv
    simp only [List.map_cons, List.nodup_cons] at hnd
    simp only [List.map_cons, List.mem_cons] at hid
    simp only [bindAggregates]
    by_cases hk : id = key
    · subst hk
      rw [(bindAggregates_notin id rest _ hnd.1).1]
      simp [inputsOf, getKey_setKey_same]
    · rcases hid with hid | hid
      · exact absurd hid hk
      · rw [ih _ hnd.2 hid]
        simp [inputsOf, getKey_deleteKey_ne _ _ _ hk]

theorem bindAll_cons (p : Projection) (ps : List Projection) (g : TmpGroupData) :
    bindAll (p :: ps) g = bindAll ps (bindProjection p g) := rfl

theorem bindAll_notin (id : String) :
    ∀ (ps : List Projection) (g : TmpGroupData), id ∉ aggIds ps →
      getKey id (bindAll ps g).nonAggData = getKey id g.nonAggData ∧
      getKey id (bindAll ps g).aggData = getKey id g.aggData := by
  intro ps
  induction ps with
  | nil => intro g _; exact ⟨rfl, rfl⟩
  | cons p rest ih =>
    intro g hid
    simp only [aggIds, List.mem_append, not_or] at hid
    rw [bindAll_cons]
    obtain ⟨h1, h2⟩ := ih (bindProjection p g) hid.2
    rw [h1, h2]
    unfold bindProjection
    by_cases hagg : p.hasAggregate = true
    · simp only [hagg, if_true] at hid ⊢
      exact bindAggregates_notin id _ g hid.1
    · simp [hagg]

theorem bindAll_mem (id : String) :
    ∀ (ps : List Projection) (g : TmpGroupData), (aggIds ps).Nodup → id ∈ aggIds ps →
      getKey id (bindAll ps g).nonAggData
        = some (.int ((inputsOf id g.aggData).length : Nat)) := by
  intro ps
  induction ps with
  | nil => intro g _ hid; simp [aggIds] at hid
  | cons p rest ih =>
    intro g hnd hid
    simp only [aggIds, List.nodup_append] at hnd
    simp only [aggIds, List.mem_append] at hid
    rw [bindAll_cons]
    by_cases hagg : p.hasAggregate = true
    · simp only [hagg, if_true] at hnd hid
      rcases hid with hid | hid
      · have hnot : id ∉ aggIds rest := fun hr => hnd.2.2 hid hr
        rw [(bindAll_notin id rest _ hnot).1]
        simp only [bindProjection, hagg, if_true]
        exact bindAggregates_mem id _ g hnd.1 hid
      · have hnot : id ∉ p.aggrEvals.map (fun kv => kv.1) := fun hl => hnd.2.2 hl hid
        rw [ih _ hnd.2.1 hid]
        simp only [bindProjection, hagg, if_true, inputsOf]
        rw [(bindAggregates_notin id _ g hnot).2]
    · simp only [hagg] at hnd hid
      rcases hid with hid | hid
      · simp at hid
      · rw [ih _ hnd.2.1 hid]
        simp [bindProjection, hagg]

theorem evalProjections_group (ep : GroupbyExecutionPlan) :
    ∀ (ps : List Projection) (g g' : TmpGroupData) (res out : Map),
      evalProjections ep ps g res = .ok (g', out) → g' = bindAll ps g := by
  intro ps
  induction ps with
  | nil =>
    intro g g' res out h
    simp only [evalProjections, Except.ok.injEq, Prod.mk.injEq] at h
    exact h.1.symm
  | cons p rest ih =>
    intro g g' res out h
    simp only [evalProjections] at h
    cases hv : p.evaluator.Eval (bindProjection p g).nonAggData with
    | error err => rw [hv] at h; cases h
    | ok value =>
      rw [hv] at h
      simp only at h
      cases ha : ep.assignOutputValue res p.alias_ value with
      | error err => rw [ha] at h; cases h
      | ok res' =>
        rw [ha] at h
        exact ih _ _ _ _ h

/-! ## The two phases of `performQueryOnBuffer` -/

theorem OutputRows.length_eq (ep : GroupbyExecutionPlan) (groups : List TmpGroupData)
    (outs : List Map) (h : OutputRows ep groups outs) : groups.length = outs.length :=
  List.Forall₂.length_eq h

theorem OutputRows.of_mem (ep : GroupbyExecutionPlan) :
    ∀ (groups : List TmpGroupData) (outs : List Map), OutputRows ep groups outs →
      ∀ g ∈ groups, ∃ g' out, out ∈ outs ∧ evalProjections ep ep.projections g [] = .ok (g', out) := by
  intro groups outs h
  induction h with
  | nil => intro g hg; cases hg
  | @cons g0 out0 gs os hhead _ ih =>
    intro g hg
    rcases List.mem_cons.1 hg with rfl | hg'
    · obtain ⟨g', hev⟩ := hhead
      exact ⟨g', out0, List.mem_cons_self _ _, hev⟩
    · obtain ⟨g', out, hmem, hev⟩ := ih g hg'
      exact ⟨g', out, List.mem_cons_of_mem _ hmem, hev⟩

/-! ## Slices and their arrays -/

theorem take_succ_set {α : Type} (l : List α) (n : Nat) (x : α) (hn : n < l.length) :
    (l.set n x).take (n + 1) = l.take n ++ [x] := by
  induction l generalizing n with
  | nil => simp at hn
  | cons a t ih =>
    cases n with
    | zero => simp
    | succ m =>
      simp only [List.length_cons, Nat.add_lt_add_iff_right] at hn
      simp [List.set, ih m hn]

theorem AppendEffect.refl (h : Heap) (s : Slice) (hfit : s.len ≤ s.cap h) :
    AppendEffect h s [] h s :=
  { rows := by simp
    fits := hfit
    grows := le_refl _
    target := Or.inl rfl
    inStore := fun hs => hs
    frame := fun _ _ _ => rfl }

theorem AppendEffect.trans {h1 h2 h3 : Heap} {s1 s2 s3 : Slice} {o1 o2 : List Map}
    (e1 : AppendEffect h1 s1 o1 h2 s2) (e2 : AppendEffect h2 s2 o2 h3 s3) :
    AppendEffect h1 s1 (o1 ++ o2) h3 s3 :=
  { rows := by rw [e2.rows, e1.rows, List.append_assoc]
    fits := e2.fits
    grows := le_trans e1.grows e2.grows
    target := by
      rcases e2.target with h | ⟨a, ha, hle⟩
      · rw [h]; exact e1.target
      · exact Or.inr ⟨a, ha, le_trans e1.grows hle⟩
    inStore := fun hs => e2.inStore (e1.inStore hs)
    frame := by
      intro a ha hne
      have hne2 : s2.arr ≠ some a := by
        rcases e1.target with h | ⟨b, hb, hle⟩
        · rw [h]; exact hne
        · rw [hb]
          intro e
          simp only [Option.some.injEq] at e
          omega
      rw [e2.frame a (lt_of_lt_of_le ha e1.grows) hne2, e1.frame a ha hne] }

theorem appendRow_effect (h : Heap) (s : Slice) (x : Map) (hfit : s.len ≤ s.cap h) :
    AppendEffect h s [x] (appendRow h s x).1 (appendRow h s x).2 := by
  obtain ⟨arr, len⟩ := s
  cases arr with
  | none =>
    simp only [Slice.cap] at hfit
    have hlen : len = 0 := by omega
    subst hlen
    simp only [appendRow]
    refine ⟨?_, ?_, ?_, ?_, ?_, ?_⟩
    · simp [Slice.rows, List.getD_eq_getElem?_getD]
    · simp [Slice.cap, List.getD_eq_getElem?_getD]
    · simp
    · exact Or.inr ⟨h.length, rfl, le_refl _⟩
    · intro _ a ha
      simp only [Option.some.injEq] at ha
      subst ha
      simp
    · intro a ha _
      simp [List.getD_eq_getElem?_getD, List.getElem?_append_left ha]
  | some a =>
    simp only [Slice.cap] at hfit
    simp only [appendRow]
    by_cases hlt : len < (h.getD a []).length
    · simp only [hlt, if_true]
      have ha : a < h.length := by
        by_contra hge
        have : h.getD a [] = [] := by
          simp [List.getD_eq_getElem?_getD, List.getElem?_eq_none (not_lt.1 hge)]
        rw [this] at hlt
        simp at hlt
      refine ⟨?_, ?_, ?_, ?_, ?_, ?_⟩
      · simp only [Slice.rows]
        simp only [List.getD_eq_getElem?_getD, List.getElem?_set_self ha, Option.getD_some]
        rw [← List.getD_eq_getElem?_getD]
        exact take_succ_set _ _ _ hlt
      · simp only [Slice.cap]
        simp only [List.getD_eq_getElem?_getD, List.getElem?_set_self ha, Option.getD_some,
          List.length_set]
        rw [← List.getD_eq_getElem?_getD]
        omega
      · simp
      · exact Or.inl rfl
      · intro _ b hb
        simp only [Option.some.injEq] at hb
        subst hb
        simpa using ha
      · intro b _ hne
        have hab : a ≠ b := fun e => hne (by rw [e])
        simp [List.getD_eq_getElem?_getD, List.getElem?_set_ne hab]
    · simp only [hlt, if_false]
      have hlen : len = (h.getD a []).length := by omega
      refine ⟨?_, ?_, ?_, ?_, ?_, ?_⟩
      · have htl : ((h.getD a []).take len).length = len := by
          rw [List.length_take]; omega
        simp only [Slice.rows]
        simp only [List.getD_eq_getElem?_getD, List.getElem?_append_right (le_refl _),
          Nat.sub_self, List.getElem?_cons_zero, Option.getD_some]
        rw [← List.getD_eq_getElem?_getD, List.take_append_eq_append_take, htl,
          List.take_of_length_le (by omega)]
        simp
      · simp only [Slice.cap]
        simp only [List.getD_eq_getElem?_getD, List.getElem?_append_right (le_refl _),
          Nat.sub_self, List.getElem?_cons_zero, Option.getD_some, List.length_append,
          List.length_cons, List.length_replicate, List.length_take]
        rw [← List.getD_eq_getElem?_getD]
        omega
      · simp
      · exact Or.inr ⟨h.length, rfl, le_refl _⟩
      · intro _ b hb
        simp only [Option.some.injEq] at hb
        subst hb
        simp
      · intro b hb _
        simp [List.getD_eq_getElem?_getD, List.getElem?_append_left hb]

theorem evalGroups_effect (ep : GroupbyExecutionPlan) :
    ∀ (groups : List TmpGroupData) (h : Heap) (out : Slice), out.len ≤ out.cap h →
      ∃ outs, AppendEffect h out outs (evalGroups ep groups h out).2.1
          (evalGroups ep groups h out).2.2 ∧
        GroupsOutcome ep groups (evalGroups ep groups h out).1 outs := by
  intro groups
  induction groups with
  | nil =>
    intro h out hfit
    exact ⟨[], AppendEffect.refl h out hfit, List.Forall₂.nil⟩
  | cons g rest ih =>
    intro h out hfit
    simp only [evalGroups, evalGroup]
    cases hg : evalProjections ep ep.projections g [] with
    | error err =>
      exact ⟨[], AppendEffect.refl h out hfit, [], g, rest, rfl, List.Forall₂.nil, hg⟩
    | ok r =>
      obtain ⟨g', result⟩ := r
      simp only
      have e1 := appendRow_effect h out result hfit
      obtain ⟨outs, e2, ho⟩ := ih (appendRow h out result).1 (appendRow h out result).2 e1.fits
      refine ⟨[result] ++ outs, e1.trans e2, ?_⟩
      revert ho
      cases (evalGroups ep rest (appendRow h out result).1 (appendRow h out result).2).1 with
      | none =>
        intro ho
        exact List.Forall₂.cons ⟨g', hg⟩ ho
      | some err =>
        rintro ⟨done, gf, rest', hrest, hdone, hfail⟩
        exact ⟨g :: done, gf, rest', by simp [hrest], List.Forall₂.cons ⟨g', hg⟩ hdone, hfail⟩

theorem outputOf_fits (st : PlanState) : (outputOf st).len ≤ (outputOf st).cap st.heap := by
  simp [outputOf]

theorem outputOf_rows (st : PlanState) : (outputOf st).rows st.heap = [] := by
  simp only [outputOf, Slice.rows]
  cases st.prevResults.arr <;> simp

theorem performQueryOnBuffer_groups (ep : GroupbyExecutionPlan) (rows : List Map) (st : PlanState)
    (groups : List TmpGroupData)
    (hg : processCartesianProduct rows (evalItem ep) [] = .ok groups) :
    performQueryOnBuffer ep rows st =
      match evalGroups ep groups st.heap (outputOf st) with
      | (some err, h', output') =>
        (some err, { heap := h', prevResults := output', curResults := st.curResults })
      | (none, h', output') =>
        (none, { heap := h', prevResults := st.curResults, curResults := output' }) := by
  unfold performQueryOnBuffer
  simp only [hg, outputOf]

theorem performQueryOnBuffer_enumError (ep : GroupbyExecutionPlan) (rows : List Map)
    (st : PlanState) (err : Err)
    (hg : processCartesianProduct rows (evalItem ep) [] = .error err) :
    performQueryOnBuffer ep rows st =
      (some err, { heap := st.heap, prevResults := outputOf st, curResults := st.curResults }) := by
  unfold performQueryOnBuffer
  simp only [hg, outputOf]

/-- On success the enumeration has produced a group list and every group has
been evaluated. -/
theorem performQueryOnBuffer_success (ep : GroupbyExecutionPlan) (rows : List Map)
    (st : PlanState) (hok : (performQueryOnBuffer ep rows st).1 = none) :
    ∃ groups outs, processCartesianProduct rows (evalItem ep) [] = .ok groups ∧
      OutputRows ep groups outs ∧
      AppendEffect st.heap (outputOf st) outs (performQueryOnBuffer ep rows st).2.heap
        (performQueryOnBuffer ep rows st).2.curResults ∧
      (performQueryOnBuffer ep rows st).2.prevResults = st.curResults := by
  cases hg : processCartesianProduct rows (evalItem ep) [] with
  | error err =>
    rw [performQueryOnBuffer_enumError ep rows st err hg] at hok
    cases hok
  | ok groups =>
    obtain ⟨outs, heff, hout⟩ := evalGroups_effect ep groups st.heap (outputOf st) (outputOf_fits st)
    rw [performQueryOnBuffer_groups ep rows st groups hg] at hok ⊢
    generalize evalGroups ep groups st.heap (outputOf st) = r at heff hout hok ⊢
    obtain ⟨e, h', o'⟩ := r
    cases e with
    | some err => simp at hok
    | none => exact ⟨groups, outs, rfl, hout, heff, rfl⟩

theorem numClasses_of_inv (ep : GroupbyExecutionPlan) (heqv : Equivalence (keyEquals ep))
    (rows : List Map) (gs : List TmpGroupData) (inv : GroupsInv ep rows gs) :
    numClasses ep heqv (passingKeys ep rows) = gs.length := by
  unfold numClasses
  have hset : ((passingKeys ep rows).map (fun k => (Quotient.mk (keySetoid ep heqv) k))).toFinset
      = ((gs.map (fun g => g.group)).map
          (fun k => (Quotient.mk (keySetoid ep heqv) k))).toFinset := by
    ext q
    simp only [List.mem_toFinset, List.mem_map]
    constructor
    · rintro ⟨k, hk, rfl⟩
      obtain ⟨key, hkey, he⟩ := inv.covered k hk
      obtain ⟨g, hg, rfl⟩ := List.mem_map.1 hkey
      exact ⟨g.group, ⟨g, hg, rfl⟩, Quotient.sound he⟩
    · rintro ⟨k, ⟨g, hg, rfl⟩, rfl⟩
      exact ⟨g.group, inv.fromRows g.group (List.mem_map.2 ⟨g, hg, rfl⟩), rfl⟩
  rw [hset, List.toFinset_card_of_nodup]
  · simp
  · rw [List.Nodup, List.pairwise_map]
    refine inv.distinct.imp ?_
    intro a b hab e
    exact hab (Quotient.exact e)

theorem keyEquals_countPlan (a b : List Value) : keyEquals countPlan a b ↔ a = b := by
  simp only [keyEquals, countPlan, Except.ok.injEq]
  constructor
  · intro h
    have := Value.eq_of_beq _ _ h
    simpa using this
  · rintro rfl
    exact Value.beq_self _

theorem countPlan_keyEquivalence : Equivalence (keyEquals countPlan) :=
  { refl := fun a => (keyEquals_countPlan a a).2 rfl
    symm := fun h => (keyEquals_countPlan _ _).2 ((keyEquals_countPlan _ _).1 h).symm
    trans := fun h1 h2 =>
      (keyEquals_countPlan _ _).2 (((keyEquals_countPlan _ _).1 h1).trans ((keyEquals_countPlan _ _).1 h2)) }

theorem countPlan_cmpOp_total (a b : List Value) :
    ∃ r, countPlan.cmpOp (.array a) (.array b) = .ok r :=
  ⟨_, rfl⟩

/-- C1. When no aggregate identifier is shared between projections (and key
equality is an equivalence relation) and `performQueryOnBuffer` succeeds, every
group of the enumeration binds, in its representative row, each aggregate
identifier to `Int(n)`, `n` being the number of filter-passing rows whose
grouping key equals the key of the group. For `count(a) AS c` grouped by `b` on
the rows `{a:1,b:"x"}, {a:2,b:"x"}, {a:3,b:"y"}` the output rows are `{c:2}` and
`{c:1}`. -/
theorem aggregate_bound_to_row_count :
    (∀ (ep : GroupbyExecutionPlan) (rows : List Map) (st : PlanState),
      (aggIds ep.projections).Nodup → Equivalence (keyEquals ep) →
      (performQueryOnBuffer ep rows st).1 = none →
      ∃ groups, processCartesianProduct rows (evalItem ep) [] = .ok groups ∧
        ∀ g ∈ groups, ∃ g' out, evalProjections ep ep.projections g [] = .ok (g', out) ∧
          ∀ id ∈ aggIds ep.projections,
            getKey id g'.nonAggData = some (.int (countJoining ep g.group rows : Nat))) ∧
    ((performQueryOnBuffer countPlan countRows emptyState).1 = none ∧
      (performQueryOnBuffer countPlan countRows emptyState).2.curResults.rows
          (performQueryOnBuffer countPlan countRows emptyState).2.heap
        = [[("c", .int 2)], [("c", .int 1)]]) := by
  refine ⟨?_, rfl, rfl⟩
  intro ep rows st hids heqv hok
  obtain ⟨groups, outs, hg, hout, _, _⟩ := performQueryOnBuffer_success ep rows st hok
  refine ⟨groups, hg, ?_⟩
  have inv : GroupsInv ep rows groups := by
    simpa using GroupsInv.run ep heqv rows [] [] groups (GroupsInv.init ep) hg
  intro g hgm
  obtain ⟨g', out, _, hev⟩ := OutputRows.of_mem ep groups outs hout g hgm
  refine ⟨g', out, hev, ?_⟩
  intro id hid
  rw [evalProjections_group ep _ _ _ _ _ hev, bindAll_mem id _ g hids hid, inv.counts g hgm id,
    List.count_eq_one_of_mem hids hid, Nat.mul_one]

theorem countPlan_run :
    (performQueryOnBuffer countPlan countRows emptyState).1 = none := by decide

/-- The statement of C1 at the plan and the rows of the scenario. -/
theorem aggregate_bound_to_row_count_witness :
    (aggIds countPlan.projections).Nodup ∧ Equivalence (keyEquals countPlan) ∧
    (performQueryOnBuffer countPlan countRows emptyState).1 = none ∧
    ∃ groups, processCartesianProduct countRows (evalItem countPlan) [] = .ok groups ∧
      ∀ g ∈ groups, ∃ g' out,
        evalProjections countPlan countPlan.projections g [] = .ok (g', out) ∧
        ∀ id ∈ aggIds countPlan.projections,
          getKey id g'.nonAggData = some (.int (countJoining countPlan g.group countRows : Nat)) :=
  ⟨by decide, countPlan_keyEquivalence, countPlan_run,
    aggregate_bound_to_row_count.1 countPlan countRows emptyState (by decide)
      countPlan_keyEquivalence countPlan_run⟩

/-- C2. When key equality never fails and is an equivalence relation and
`performQueryOnBuffer` succeeds, `curResults` holds one output row per group, in
the order of the groups, and its length is the number of equivalence classes of
the grouping keys of the rows that pass the filter. -/
theorem one_output_row_per_key_class (ep : GroupbyExecutionPlan) (rows : List Map)
    (st : PlanState)
    (hnofail : ∀ a b : List Value, ∃ r, ep.cmpOp (.array a) (.array b) = .ok r)
    (heqv : Equivalence (keyEquals ep))
    (hok : (performQueryOnBuffer ep rows st).1 = none) :
    ∃ groups, processCartesianProduct rows (evalItem ep) [] = .ok groups ∧
      OutputRows ep groups
        ((performQueryOnBuffer ep rows st).2.curResults.rows
          (performQueryOnBuffer ep rows st).2.heap) ∧
      ((performQueryOnBuffer ep rows st).2.curResults.rows
          (performQueryOnBuffer ep rows st).2.heap).length
        = numClasses ep heqv (passingKeys ep rows) := by
  obtain ⟨groups, outs, hg, hout, heff, _⟩ := performQueryOnBuffer_success ep rows st hok
  have inv : GroupsInv ep rows groups := by
    simpa using GroupsInv.run ep heqv rows [] [] groups (GroupsInv.init ep) hg
  have hrows : (performQueryOnBuffer ep rows st).2.curResults.rows
      (performQueryOnBuffer ep rows st).2.heap = outs := by
    rw [heff.rows, outputOf_rows, List.nil_append]
  refine ⟨groups, hg, ?_, ?_⟩
  · rw [hrows]; exact hout
  · rw [hrows, numClasses_of_inv ep heqv rows groups inv]
    exact (OutputRows.length_eq ep groups outs hout).symm

/-- The statement of C2 at the plan and the rows of the scenario, where the keys
`["x"]`, `["x"]`, `["y"]` fall into two classes. -/
theorem one_output_row_per_key_class_witness :
    (∀ a b : List Value, ∃ r, countPlan.cmpOp (.array a) (.array b) = .ok r) ∧
    (performQueryOnBuffer countPlan countRows emptyState).1 = none ∧
    ∃ groups, processCartesianProduct countRows (evalItem countPlan) [] = .ok groups ∧
      OutputRows countPlan groups
        ((performQueryOnBuffer countPlan countRows emptyState).2.curResults.rows
          (performQueryOnBuffer countPlan countRows emptyState).2.heap) ∧
      ((performQueryOnBuffer countPlan countRows emptyState).2.curResults.rows
          (performQueryOnBuffer countPlan countRows emptyState).2.heap).length
        = numClasses countPlan countPlan_keyEquivalence (passingKeys countPlan countRows) :=
  ⟨countPlan_cmpOp_total, countPlan_run,
    one_output_row_per_key_class countPlan countRows emptyState countPlan_cmpOp_total
      countPlan_keyEquivalence countPlan_run⟩

/-- C3, at `max(a)` over the single row `{a:7, b:"x"}`: the group has collected
the input `7` under the identifier of the aggregate, the aggregate function
gives `7` on it, and `evalGroup` binds the identifier to `Int(1)`, the number of
inputs; the output row is `{m:1}`. -/
theorem max_bound_to_input_count :
    processCartesianProduct maxRows (evalItem maxPlan) [] = .ok [maxGroup] ∧
    inputsOf "agg1" maxGroup.aggData = [.int 7] ∧
    maxOfInts (inputsOf "agg1" maxGroup.aggData) = .ok (.int 7) ∧
    (∃ g' out, evalProjections maxPlan maxPlan.projections maxGroup [] = .ok (g', out) ∧
      getKey "agg1" g'.nonAggData = some (.int 1)) ∧
    (performQueryOnBuffer maxPlan maxRows emptyState).1 = none ∧
    (performQueryOnBuffer maxPlan maxRows emptyState).2.curResults.rows
        (performQueryOnBuffer maxPlan maxRows emptyState).2.heap = [[("m", .int 1)]] := by
  refine ⟨rfl, rfl, rfl, ⟨_, _, rfl, rfl⟩, rfl, rfl⟩

/-! ## The filter -/

theorem findGroupIdx_withoutFilter (ep : GroupbyExecutionPlan) (k : List Value) :
    ∀ (gs : List TmpGroupData) (i : Nat),
      findGroupIdx (withoutFilter ep) k gs i = findGroupIdx ep k gs i := by
  intro gs
  induction gs with
  | nil => intro i; rfl
  | cons g rest ih =>
    intro i
    simp only [findGroupIdx, ih]
    rfl

theorem evalProjections_withoutFilter (ep : GroupbyExecutionPlan) :
    ∀ (ps : List Projection) (g : TmpGroupData) (res : Map),
      evalProjections (withoutFilter ep) ps g res = evalProjections ep ps g res := by
  intro ps
  induction ps with
  | nil => intro g res; rfl
  | cons p rest ih =>
    intro g res
    simp only [evalProjections, ih]
    rfl

theorem evalGroups_withoutFilter (ep : GroupbyExecutionPlan) :
    ∀ (gs : List TmpGroupData) (h : Heap) (out : Slice),
      evalGroups (withoutFilter ep) gs h out = evalGroups ep gs h out := by
  intro gs
  induction gs with
  | nil => intro h out; rfl
  | cons g rest ih =>
    intro h out
    simp only [evalGroups, evalGroup, evalProjections_withoutFilter, ih]
    rfl

theorem evalItem_withoutFilter (ep : GroupbyExecutionPlan) (d : Map) (gs : List TmpGroupData)
    (hf : passesFilter ep d = .ok true) :
    evalItem (withoutFilter ep) d gs = evalItem ep d gs := by
  unfold evalItem
  rw [hf]
  have h1 : passesFilter (withoutFilter ep) d = .ok true := rfl
  have h2 : findOrCreateGroup (withoutFilter ep) = findOrCreateGroup ep := by
    funext groups k d'
    unfold findOrCreateGroup
    rw [findGroupIdx_withoutFilter]
    rfl
  rw [h1, h2]
  rfl

theorem evalItem_skip (ep : GroupbyExecutionPlan) (d : Map) (gs : List TmpGroupData)
    (hf : passesFilter ep d = .ok false) : evalItem ep d gs = .ok gs := by
  unfold evalItem
  rw [hf]

theorem processCartesianProduct_withoutFilter (ep : GroupbyExecutionPlan) :
    ∀ (rows : List Map) (gs : List TmpGroupData),
      (∀ d ∈ rows, ∃ b, passesFilter ep d = .ok b) →
      processCartesianProduct rows (evalItem ep) gs
        = processCartesianProduct (rows.filter (filterHolds ep)) (evalItem (withoutFilter ep)) gs := by
  intro rows
  induction rows with
  | nil => intro gs _; rfl
  | cons d rest ih =>
    intro gs hno
    obtain ⟨b, hb⟩ := hno d (List.mem_cons_self _ _)
    have hrest : ∀ d' ∈ rest, ∃ b, passesFilter ep d' = .ok b :=
      fun d' hd' => hno d' (List.mem_cons_of_mem _ hd')
    cases b with
    | false =>
      have hh : filterHolds ep d = false := by simp [filterHolds, hb]
      rw [List.filter_cons_of_neg (by simp [hh])]
      simp only [processCartesianProduct, evalItem_skip ep d gs hb]
      exact ih gs hrest
    | true =>
      have hh : filterHolds ep d = true := by simp [filterHolds, hb]
      rw [List.filter_cons_of_pos hh]
      simp only [processCartesianProduct, evalItem_withoutFilter ep d gs hb]
      cases evalItem ep d gs with
      | error err => rfl
      | ok gs1 => exact ih gs1 hrest

/-- C4. With a filter whose evaluation and coercion fail on no row, a row whose
filter value coerces to false (as Null does when `ToBool` sends it to false)
leaves the group list as it is, and `performQueryOnBuffer` returns the same
error and the same state (`curResults` included) as the plan without the filter
run on the rows whose filter value coerces to true. -/
theorem filter_refinement (ep : GroupbyExecutionPlan) (f : Evaluator) (rows : List Map)
    (st : PlanState) (hf : ep.filter = some f)
    (hno : ∀ d ∈ rows, ∃ v b, f.Eval d = .ok v ∧ ep.ToBool v = .ok b) :
    (∀ d v groups, f.Eval d = .ok v → ep.ToBool v = .ok false →
      evalItem ep d groups = .ok groups) ∧
    (∀ d groups, f.Eval d = .ok .null → ep.ToBool .null = .ok false →
      evalItem ep d groups = .ok groups) ∧
    performQueryOnBuffer ep rows st
      = performQueryOnBuffer (withoutFilter ep)
          (rows.filter (fun d =>
            match f.Eval d with
            | .ok v => (match ep.ToBool v with | .ok b => b | .error _ => false)
            | .error _ => false)) st := by
  have hpass : ∀ d v, f.Eval d = .ok v → passesFilter ep d = ep.ToBool v := by
    intro d v hv
    simp [passesFilter, hf, hv]
  have hskip : ∀ d v groups, f.Eval d = .ok v → ep.ToBool v = .ok false →
      evalItem ep d groups = .ok groups := by
    intro d v groups hv hb
    exact evalItem_skip ep d groups (by rw [hpass d v hv, hb])
  refine ⟨hskip, fun d groups hv hb => hskip d .null groups hv hb, ?_⟩
  have hno' : ∀ d ∈ rows, ∃ b, passesFilter ep d = .ok b := by
    intro d hd
    obtain ⟨v, b, hv, hb⟩ := hno d hd
    exact ⟨b, by rw [hpass d v hv, hb]⟩
  have hfilter : (rows.filter (fun d =>
            match f.Eval d with
            | .ok v => (match ep.ToBool v with | .ok b => b | .error _ => false)
            | .error _ => false)) = rows.filter (filterHolds ep) := by
    apply List.filter_congr
    intro d hd
    obtain ⟨v, b, hv, hb⟩ := hno d hd
    simp only [filterHolds, hpass d v hv, hv, hb]
    cases b <;> rfl
  rw [hfilter]
  unfold performQueryOnBuffer
  rw [processCartesianProduct_withoutFilter ep rows [] hno']
  cases processCartesianProduct (rows.filter (filterHolds ep)) (evalItem (withoutFilter ep)) [] with
  | error err => rfl
  | ok groups =>
    simp only [evalGroups_withoutFilter]

/-! ## The output row of a group -/

theorem evalProjections_keeps (ep : GroupbyExecutionPlan) (hassign : AssignsUnderAlias ep)
    (a : String) :
    ∀ (ps : List Projection) (g g' : TmpGroupData) (res out : Map),
      evalProjections ep ps g res = .ok (g', out) → (∀ q ∈ ps, q.alias_ ≠ a) →
      getKey a out = getKey a res := by
  intro ps
  induction ps with
  | nil =>
    intro g g' res out h _
    simp only [evalProjections, Except.ok.injEq, Prod.mk.injEq] at h
    rw [h.2]
  | cons p rest ih =>
    intro g g' res out h hne
    simp only [evalProjections] at h
    cases hv : p.evaluator.Eval (bindProjection p g).nonAggData with
    | error err => rw [hv] at h; cases h
    | ok value =>
      rw [hv] at h
      simp only at h
      cases ha : ep.assignOutputValue res p.alias_ value with
      | error err => rw [ha] at h; cases h
      | ok res' =>
        rw [ha] at h
        rw [ih _ _ _ _ h (fun q hq => hne q (List.mem_cons_of_mem _ hq))]
        exact (hassign _ _ _ _ ha).2 a (fun e => hne p (List.mem_cons_self _ _) e.symm)

theorem evalProjections_holds (ep : GroupbyExecutionPlan) (hassign : AssignsUnderAlias ep) :
    ∀ (ps : List Projection) (g g' : TmpGroupData) (res out : Map),
      evalProjections ep ps g res = .ok (g', out) →
      ∀ (i : Nat) (p : Projection), ps.get? i = some p →
        (∀ j q, i < j → ps.get? j = some q → q.alias_ ≠ p.alias_) →
        ∃ v, p.evaluator.Eval (bindAll (ps.take (i + 1)) g).nonAggData = .ok v ∧
          getKey p.alias_ out = some v := by
  intro ps
  induction ps with
  | nil => intro g g' res out _ i p hp; simp at hp
  | cons p0 rest ih =>
    intro g g' res out h i p hp hlater
    simp only [evalProjections] at h
    cases hv : p0.evaluator.Eval (bindProjection p0 g).nonAggData with
    | error err => rw [hv] at h; cases h
    | ok value =>
      rw [hv] at h
      simp only at h
      cases ha : ep.assignOutputValue res p0.alias_ value with
      | error err => rw [ha] at h; cases h
      | ok res' =>
        rw [ha] at h
        cases i with
        | zero =>
          simp only [List.get?_cons_zero, Option.some.injEq] at hp
          subst hp
          refine ⟨value, by simpa [bindAll] using hv, ?_⟩
          rw [evalProjections_keeps ep hassign p0.alias_ rest _ _ _ _ h]
          · exact (hassign _ _ _ _ ha).1
          · intro q hq
            obtain ⟨n, hn⟩ := List.get?_of_mem hq
            exact hlater (n + 1) q (Nat.succ_pos n) (by simpa using hn)
        | succ n =>
          simp only [List.get?_cons_succ] at hp
          have := ih _ _ _ _ h n p hp (fun j q hj hq =>
            hlater (j + 1) q (Nat.succ_lt_succ hj) (by simpa using hq))
          simpa [bindAll_cons] using this

theorem countPlan_assigns (ps : List Projection) (gl : List Evaluator) (f : Option Evaluator) :
    AssignsUnderAlias { countPlan with projections := ps, groupList := gl, filter := f } := by
  intro m a v m' h
  simp only [countPlan, Except.ok.injEq] at h
  subst h
  exact ⟨getKey_setKey_same a v m, fun b hb => getKey_setKey_ne a b v m hb⟩

/-- C5 as stated fails when an alias is used twice: for `SELECT a AS x, b AS x`
on the row `{a:1, b:2}` the call succeeds with the output row `{x:2}`, which
does not hold under `x` the value `1` of the first projection. -/
theorem duplicate_alias_overwritten :
    (performQueryOnBuffer dupAliasPlan dupAliasRows emptyState).1 = none ∧
    processCartesianProduct dupAliasRows (evalItem dupAliasPlan) [] = .ok [dupAliasGroup] ∧
    (performQueryOnBuffer dupAliasPlan dupAliasRows emptyState).2.curResults.rows
        (performQueryOnBuffer dupAliasPlan dupAliasRows emptyState).2.heap
      = [[("x", .int 2)]] ∧
    ¬ (∀ i p, dupAliasPlan.projections.get? i = some p →
        HoldsProjectionValue dupAliasPlan dupAliasGroup [("x", .int 2)] i p) := by
  refine ⟨rfl, rfl, rfl, ?_⟩
  intro hall
  obtain ⟨v, hv, hget⟩ := hall 0 _ rfl
  have h1 : v = .int 1 := by
    have : (Except.ok (Value.int 1) : Except Err Value) = .ok v := hv
    cases this
    rfl
  subst h1
  have h2 : some (Value.int 2) = some (Value.int 1) := hget
  simp at h2

/-- C5, amended. When the output assignment stores the value under the alias and
`performQueryOnBuffer` succeeds, the output row of every group holds, under the
alias of every projection `p` whose alias no later projection uses, the value of
the evaluator of `p` on the representative row of the group in which the
aggregate identifiers of `p` and of the projections before `p` are bound. -/
theorem projection_value_under_alias (ep : GroupbyExecutionPlan) (rows : List Map)
    (st : PlanState) (hassign : AssignsUnderAlias ep)
    (hok : (performQueryOnBuffer ep rows st).1 = none) :
    ∃ groups, processCartesianProduct rows (evalItem ep) [] = .ok groups ∧
      List.Forall₂
        (fun g out => ∀ i p, ep.projections.get? i = some p →
          (∀ j q, i < j → ep.projections.get? j = some q → q.alias_ ≠ p.alias_) →
          HoldsProjectionValue ep g out i p)
        groups
        ((performQueryOnBuffer ep rows st).2.curResults.rows
          (performQueryOnBuffer ep rows st).2.heap) := by
  obtain ⟨groups, outs, hg, hout, heff, _⟩ := performQueryOnBuffer_success ep rows st hok
  have hrows : (performQueryOnBuffer ep rows st).2.curResults.rows
      (performQueryOnBuffer ep rows st).2.heap = outs := by
    rw [heff.rows, outputOf_rows, List.nil_append]
  refine ⟨groups, hg, ?_⟩
  rw [hrows]
  refine List.Forall₂.imp ?_ hout
  rintro g out ⟨g', hev⟩ i p hp hlater
  exact evalProjections_holds ep hassign ep.projections g g' [] out hev i p hp hlater

/-- The statement of C5, amended, at `SELECT a AS x, b AS x` on `{a:1, b:2}`. -/
theorem projection_value_under_alias_witness :
    AssignsUnderAlias dupAliasPlan ∧
    (performQueryOnBuffer dupAliasPlan dupAliasRows emptyState).1 = none ∧
    ∃ groups, processCartesianProduct dupAliasRows (evalItem dupAliasPlan) [] = .ok groups ∧
      List.Forall₂
        (fun g out => ∀ i p, dupAliasPlan.projections.get? i = some p →
          (∀ j q, i < j → dupAliasPlan.projections.get? j = some q → q.alias_ ≠ p.alias_) →
          HoldsProjectionValue dupAliasPlan g out i p)
        groups
        ((performQueryOnBuffer dupAliasPlan dupAliasRows emptyState).2.curResults.rows
          (performQueryOnBuffer dupAliasPlan dupAliasRows emptyState).2.heap) :=
  ⟨countPlan_assigns _ _ _, by decide,
    projection_value_under_alias dupAliasPlan dupAliasRows emptyState (countPlan_assigns _ _ _)
      (by decide)⟩

/-! ## The creation of groups -/

theorem getKey_initAggData (ps : List Projection) (p : Projection) (hp : p ∈ ps)
    (kv : String × AggInputEvaluator) (hkv : kv ∈ p.aggrEvals) :
    getKey kv.1 (initAggData ps) = some [] := by
  unfold initAggData
  have inner : ∀ (l : List (String × AggInputEvaluator)) (acc : List (String × List Value)),
      (getKey kv.1 acc = some [] ∨ kv ∈ l) →
      getKey kv.1 (l.foldl (fun acc kv => setKey kv.1 [] acc) acc) = some [] := by
    intro l
    induction l with
    | nil =>
      intro acc h
      rcases h with h | h
      · exact h
      · cases h
    | cons x rest ih =>
      intro acc h
      simp only [List.foldl_cons]
      apply ih
      by_cases hx : kv.1 = x.1
      · left
        rw [hx]
        exact getKey_setKey_same _ _ _
      · rcases h with h | h
        · left
          rw [getKey_setKey_ne _ _ _ _ hx]
          exact h
        · rcases List.mem_cons.1 h with rfl | h'
          · exact absurd rfl hx
          · exact Or.inr h'
  have outer : ∀ (l : List Projection) (acc : List (String × List Value)),
      (getKey kv.1 acc = some [] ∨ p ∈ l) →
      getKey kv.1 (l.foldl
        (fun acc proj => proj.aggrEvals.foldl (fun acc kv => setKey kv.1 [] acc) acc) acc)
        = some [] := by
    intro l
    induction l with
    | nil =>
      intro acc h
      rcases h with h | h
      · exact h
      · cases h
    | cons x rest ih =>
      intro acc h
      simp only [List.foldl_cons]
      apply ih
      rcases h with h | h
      · exact Or.inl (inner _ _ (Or.inl h))
      · rcases List.mem_cons.1 h with rfl | h'
        · exact Or.inl (inner _ _ (Or.inr hkv))
        · exact Or.inr h'
  exact outer ps [] (Or.inr hp)

theorem evalItem_keeps (ep : GroupbyExecutionPlan) (d : Map) (gs gs' : List TmpGroupData)
    (h : evalItem ep d gs = .ok gs') (i : Nat) (g : TmpGroupData) (hg : gs.get? i = some g) :
    ∃ g', gs'.get? i = some g' ∧ g'.group = g.group ∧ g'.nonAggData = g.nonAggData := by
  cases evalItem_ok ep d gs gs' h with
  | skipped _ hgs => subst hgs; exact ⟨g, hg, rfl, rfl⟩
  | joined k pre post g0 aggData' _ _ hgs _ _ _ hgs' =>
    subst hgs hgs'
    simp only [List.get?_eq_getElem?] at hg ⊢
    rcases Nat.lt_trichotomy i pre.length with hlt | heq | hgt
    · rw [List.getElem?_append_left hlt] at hg ⊢
      exact ⟨g, hg, rfl, rfl⟩
    · subst heq
      rw [List.getElem?_append_right (le_refl _)] at hg ⊢
      simp only [Nat.sub_self, List.getElem?_cons_zero, Option.some.injEq] at hg ⊢
      subst hg
      exact ⟨_, rfl, rfl, rfl⟩
    · rw [List.getElem?_append_right (le_of_lt hgt)] at hg ⊢
      obtain ⟨n, hn⟩ : ∃ n, i - pre.length = n + 1 := ⟨i - pre.length - 1, by omega⟩
      rw [hn] at hg ⊢
      simp only [List.getElem?_cons_succ] at hg ⊢
      exact ⟨g, hg, rfl, rfl⟩
  | created k aggData' _ _ _ _ hgs' =>
    subst hgs'
    simp only [List.get?_eq_getElem?] at hg ⊢
    have hlt : i < gs.length := by
      by_contra hge
      rw [List.getElem?_eq_none (not_lt.1 hge)] at hg
      cases hg
    rw [List.getElem?_append_left hlt]
    exact ⟨g, hg, rfl, rfl⟩

theorem processCartesianProduct_keeps (ep : GroupbyExecutionPlan) :
    ∀ (rows : List Map) (gs gs' : List TmpGroupData),
      processCartesianProduct rows (evalItem ep) gs = .ok gs' →
      ∀ (i : Nat) (g : TmpGroupData), gs.get? i = some g →
        ∃ g', gs'.get? i = some g' ∧ g'.group = g.group ∧ g'.nonAggData = g.nonAggData := by
  intro rows
  induction rows with
  | nil =>
    intro gs gs' h i g hg
    simp only [processCartesianProduct, Except.ok.injEq] at h
    subst h
    exact ⟨g, hg, rfl, rfl⟩
  | cons d rest ih =>
    intro gs gs' h i g hg
    simp only [processCartesianProduct] at h
    cases hd : evalItem ep d gs with
    | error err => rw [hd] at h; cases h
    | ok gs1 =>
      rw [hd] at h
      obtain ⟨g1, hg1, hk1, hr1⟩ := evalItem_keeps ep d gs gs1 hd i g hg
      obtain ⟨g', hg', hk', hr'⟩ := ih gs1 gs' h i g1 hg1
      exact ⟨g', hg', hk'.trans hk1, hr'.trans hr1⟩

/-- C6. (1) `findOrCreateGroup` appends a group exactly when `cmpOp` finds the
key equal to the key of no existing group; the new group has the key and a copy
of the row, and its `aggData` is the initial one. (2) In the initial `aggData`
every aggregate has a buffer and every buffer is empty. (3) `evalItem` lengthens
the group list, by one group, exactly when the row passes the filter and its key
equals the key of no existing group. (4) The rows handled later change neither
the key nor the representative row of a group. -/
theorem group_created_for_new_key (ep : GroupbyExecutionPlan) :
    (∀ (groups groups' : List TmpGroupData) (k : List Value) (d : Map) (idx : Nat),
      findOrCreateGroup ep groups k d = .ok (groups', idx) →
      ((∀ g ∈ groups, ep.cmpOp (.array g.group) (.array k) = .ok false) ∧
          groups' = groups ++
            [{ group := k, aggData := initAggData ep.projections, nonAggData := d }] ∧
          idx = groups.length) ∨
        ((∃ g ∈ groups, ep.cmpOp (.array g.group) (.array k) = .ok true) ∧
          groups' = groups ∧ idx < groups.length)) ∧
    ((∀ p ∈ ep.projections, ∀ kv ∈ p.aggrEvals,
        getKey kv.1 (initAggData ep.projections) = some []) ∧
      ∀ id, inputsOf id (initAggData ep.projections) = []) ∧
    (∀ (d : Map) (groups groups' : List TmpGroupData), evalItem ep d groups = .ok groups' →
      (groups'.length = groups.length ∨ groups'.length = groups.length + 1) ∧
      (groups'.length = groups.length + 1 ↔
        passesFilter ep d = .ok true ∧ ∃ k, evalGroupList d ep.groupList = .ok k ∧
          (∀ g ∈ groups, ep.cmpOp (.array g.group) (.array k) = .ok false) ∧
          ∃ g', groups'.get? groups.length = some g' ∧ g'.group = k ∧ g'.nonAggData = d)) ∧
    (∀ (rows : List Map) (groups groups' : List TmpGroupData),
      processCartesianProduct rows (evalItem ep) groups = .ok groups' →
      ∀ (i : Nat) (g : TmpGroupData), groups.get? i = some g →
        ∃ g', groups'.get? i = some g' ∧ g'.group = g.group ∧ g'.nonAggData = g.nonAggData) := by
  refine ⟨?_, ⟨getKey_initAggData ep.projections, fun id => inputsOf_initAggData id _⟩, ?_,
    processCartesianProduct_keeps ep⟩
  · intro groups groups' k d idx h
    rcases findOrCreateGroup_ok ep groups groups' k d idx h with
      ⟨pre, g, post, hgs, rfl, rfl, hg, _⟩ | ⟨hno, rfl, rfl⟩
    · right
      subst hgs
      exact ⟨⟨g, by simp, hg⟩, rfl, by simp⟩
    · left
      exact ⟨hno, rfl, rfl⟩
  · intro d groups groups' h
    cases evalItem_ok ep d groups groups' h with
    | skipped hf hgs =>
      subst hgs
      refine ⟨Or.inl rfl, ?_⟩
      constructor
      · intro hlen; omega
      · rintro ⟨hf', _⟩
        rw [hf] at hf'
        cases hf'
    | joined k pre post g aggData' hf hk hgs hg hpre hagg hgs' =>
      subst hgs hgs'
      refine ⟨Or.inl (by simp), ?_⟩
      constructor
      · intro hlen
        simp at hlen
      · rintro ⟨_, k', hk', hno, _⟩
        rw [hk] at hk'
        cases hk'
        have := hno g (by simp)
        rw [hg] at this
        cases this
    | created k aggData' hf hk hno hagg hgs' =>
      subst hgs'
      refine ⟨Or.inr (by simp), ?_⟩
      constructor
      · intro _
        refine ⟨hf, k, hk, hno, { group := k, aggData := aggData', nonAggData := d }, ?_, rfl, rfl⟩
        simp [List.get?_eq_getElem?]
      · intro _
        simp

/-! ## `prevResults` and `curResults` across a call -/

theorem AppendEffect.wellFormed {h h' : Heap} {s s' : Slice} {outs : List Map}
    (eff : AppendEffect h s outs h' s') (hs : ∀ a, s.arr = some a → a < h.length) :
    s'.wellFormed h' := by
  have hfit := eff.fits
  have hin := eff.inStore hs
  unfold Slice.wellFormed
  unfold Slice.cap at hfit
  cases harr : s'.arr with
  | none =>
    rw [harr] at hfit
    simpa using hfit
  | some a =>
    rw [harr] at hfit
    exact ⟨hin a harr, hfit⟩

/-- A well-formed slice that does not share the array of `output` is untouched
by the appends to `output`. -/
theorem AppendEffect.apart {h h' : Heap} {s s' : Slice} {outs : List Map}
    (eff : AppendEffect h s outs h' s') (t : Slice) (ht : t.wellFormed h)
    (hns : ¬ s.shares t) :
    t.rows h' = t.rows h ∧ ¬ s'.shares t ∧ t.wellFormed h' := by
  unfold Slice.wellFormed at ht
  cases harr : t.arr with
  | none =>
    rw [harr] at ht
    refine ⟨by simp [Slice.rows, harr], ?_, by simp [Slice.wellFormed, harr, ht]⟩
    rintro ⟨a, _, h2⟩
    rw [harr] at h2
    cases h2
  | some a =>
    rw [harr] at ht
    simp only at ht
    have hne : s.arr ≠ some a := fun e => hns ⟨a, e, harr⟩
    have hframe := eff.frame a ht.1 hne
    refine ⟨by simp only [Slice.rows, harr]; rw [hframe], ?_, ?_⟩
    · rintro ⟨b, h1, h2⟩
      rw [harr] at h2
      cases h2
      rcases eff.target with htar | ⟨c, hc, hle⟩
      · exact hne (htar ▸ h1)
      · rw [hc] at h1
        cases h1
        omega
    · simp only [Slice.wellFormed, harr, hframe]
      exact ⟨lt_of_lt_of_le ht.1 eff.grows, ht.2⟩

theorem Slice.shares_comm (s t : Slice) : s.shares t ↔ t.shares s :=
  ⟨fun ⟨a, h1, h2⟩ => ⟨a, h2, h1⟩, fun ⟨a, h1, h2⟩ => ⟨a, h2, h1⟩⟩

theorem outputOf_inStore (st : PlanState) (hwf : st.wellFormed) :
    ∀ a, (outputOf st).arr = some a → a < st.heap.length := by
  intro a ha
  have h1 := hwf.1
  unfold Slice.wellFormed at h1
  simp only [outputOf] at ha
  rw [ha] at h1
  exact h1.1

/-- The state after a call, whatever its outcome: the rows `outs` were appended
to `output`; on success `output` became `curResults` and the old `curResults`
became `prevResults`; on an error `output` became `prevResults` and `curResults`
stayed. -/
theorem performQueryOnBuffer_effect (ep : GroupbyExecutionPlan) (rows : List Map)
    (st : PlanState) :
    ∃ outs,
      ((performQueryOnBuffer ep rows st).1 = none ∧
        AppendEffect st.heap (outputOf st) outs (performQueryOnBuffer ep rows st).2.heap
          (performQueryOnBuffer ep rows st).2.curResults ∧
        (performQueryOnBuffer ep rows st).2.prevResults = st.curResults) ∨
      ((performQueryOnBuffer ep rows st).1 ≠ none ∧
        AppendEffect st.heap (outputOf st) outs (performQueryOnBuffer ep rows st).2.heap
          (performQueryOnBuffer ep rows st).2.prevResults ∧
        (performQueryOnBuffer ep rows st).2.curResults = st.curResults) := by
  cases hg : processCartesianProduct rows (evalItem ep) [] with
  | error err =>
    rw [performQueryOnBuffer_enumError ep rows st err hg]
    exact ⟨[], Or.inr ⟨by simp, AppendEffect.refl _ _ (outputOf_fits st), rfl⟩⟩
  | ok groups =>
    obtain ⟨outs, heff, _⟩ := evalGroups_effect ep groups st.heap (outputOf st) (outputOf_fits st)
    rw [performQueryOnBuffer_groups ep rows st groups hg]
    generalize evalGroups ep groups st.heap (outputOf st) = r at heff ⊢
    obtain ⟨e, h', o'⟩ := r
    cases e with
    | some err => exact ⟨outs, Or.inr ⟨by simp, heff, rfl⟩⟩
    | none => exact ⟨outs, Or.inl ⟨rfl, heff, rfl⟩⟩

/-- When the enumeration succeeded and the call failed, a group failed: the
groups before it were evaluated and their output rows are in `prevResults`. -/
theorem performQueryOnBuffer_groupError (ep : GroupbyExecutionPlan) (rows : List Map)
    (st : PlanState) (groups : List TmpGroupData) (err : Err)
    (hg : processCartesianProduct rows (evalItem ep) [] = .ok groups)
    (herr : (performQueryOnBuffer ep rows st).1 = some err) :
    ∃ done g rest outs, groups = done ++ g :: rest ∧ OutputRows ep done outs ∧
      evalProjections ep ep.projections g [] = .error err ∧
      (performQueryOnBuffer ep rows st).2.prevResults.rows
        (performQueryOnBuffer ep rows st).2.heap = outs := by
  obtain ⟨outs, heff, hout⟩ := evalGroups_effect ep groups st.heap (outputOf st) (outputOf_fits st)
  rw [performQueryOnBuffer_groups ep rows st groups hg] at herr ⊢
  generalize evalGroups ep groups st.heap (outputOf st) = r at heff hout herr ⊢
  obtain ⟨e, h', o'⟩ := r
  cases e with
  | none => simp at herr
  | some err' =>
    simp only [Option.some.injEq] at herr
    subst herr
    obtain ⟨done, g, rest, hgs, hdone, hfail⟩ := hout
    refine ⟨done, g, rest, outs, hgs, hdone, hfail, ?_⟩
    have := heff.rows
    rw [outputOf_rows, List.nil_append] at this
    exact this

/-- C7. A successful `performQueryOnBuffer` leaves in `prevResults` exactly the
rows that `curResults` held before the call and in `curResults` the rows
computed by the call: the output rows of the groups of the enumeration, in
their order. The call starts in a well-formed state whose two result slices do
not share an array, which is the invariant that every call keeps (C10) and that
the comment in `rollback` requires on leaving the function. -/
theorem results_moved_on_success (ep : GroupbyExecutionPlan) (rows : List Map)
    (st : PlanState) (hwf : st.wellFormed)
    (hapart : ¬ st.prevResults.shares st.curResults)
    (hok : (performQueryOnBuffer ep rows st).1 = none) :
    (performQueryOnBuffer ep rows st).2.prevResults.rows (performQueryOnBuffer ep rows st).2.heap
      = st.curResults.rows st.heap ∧
    ∃ groups, processCartesianProduct rows (evalItem ep) [] = .ok groups ∧
      OutputRows ep groups
        ((performQueryOnBuffer ep rows st).2.curResults.rows
          (performQueryOnBuffer ep rows st).2.heap) := by
  obtain ⟨groups, outs, hg, hout, heff, hprev⟩ := performQueryOnBuffer_success ep rows st hok
  have hkept := heff.apart st.curResults hwf.2 hapart
  refine ⟨by rw [hprev]; exact hkept.1, groups, hg, ?_⟩
  rw [heff.rows, outputOf_rows, List.nil_append]
  exact hout

/-- C8. When `performQueryOnBuffer` returns an error, `curResults` is the slice
it was and holds the rows it held before the call, for every plan, every input
and every state that a call can be started in: a well-formed state whose two
result slices do not share an array, the invariant that every call keeps (C10)
and that the comment in `rollback` requires on leaving the function. -/
theorem curResults_kept_on_error (ep : GroupbyExecutionPlan) (rows : List Map)
    (st : PlanState) (err : Err) (hwf : st.wellFormed)
    (hapart : ¬ st.prevResults.shares st.curResults)
    (herr : (performQueryOnBuffer ep rows st).1 = some err) :
    (performQueryOnBuffer ep rows st).2.curResults = st.curResults ∧
    (performQueryOnBuffer ep rows st).2.curResults.rows (performQueryOnBuffer ep rows st).2.heap
      = st.curResults.rows st.heap := by
  obtain ⟨outs, ⟨hnone, _, _⟩ | ⟨_, heff, hcur⟩⟩ := performQueryOnBuffer_effect ep rows st
  · rw [hnone] at herr
    cases herr
  · exact ⟨hcur, by rw [hcur]; exact (heff.apart st.curResults hwf.2 hapart).1⟩

/-- C10. If `prevResults` and `curResults` do not share an array before a call
of `performQueryOnBuffer` (in a well-formed state), they do not share one after
it, whether the call succeeds or returns an error; the state stays well formed. -/
theorem results_storage_stays_apart (ep : GroupbyExecutionPlan) (rows : List Map)
    (st : PlanState) (hwf : st.wellFormed)
    (hapart : ¬ st.prevResults.shares st.curResults) :
    ¬ (performQueryOnBuffer ep rows st).2.prevResults.shares
        (performQueryOnBuffer ep rows st).2.curResults ∧
    (performQueryOnBuffer ep rows st).2.wellFormed := by
  obtain ⟨outs, ⟨_, heff, hprev⟩ | ⟨_, heff, hcur⟩⟩ := performQueryOnBuffer_effect ep rows st
  · have hkept := heff.apart st.curResults hwf.2 hapart
    have hnew := heff.wellFormed (outputOf_inStore st hwf)
    unfold PlanState.wellFormed
    rw [hprev]
    exact ⟨fun hs => hkept.2.1 ((Slice.shares_comm _ _).1 hs), hkept.2.2, hnew⟩
  · have hkept := heff.apart st.curResults hwf.2 hapart
    have hnew := heff.wellFormed (outputOf_inStore st hwf)
    unfold PlanState.wellFormed
    rw [hcur]
    exact ⟨hkept.2.1, hnew, hkept.2.2⟩

/-- C9, amended. In a well-formed state whose two result slices do not share an
array, when the evaluation of a group fails `curResults` holds what it held
before the call, and `prevResults` holds the output rows of the groups that were
evaluated before the failing one. -/
theorem group_failure_keeps_curResults (ep : GroupbyExecutionPlan) (rows : List Map)
    (st : PlanState) (groups : List TmpGroupData) (err : Err) (hwf : st.wellFormed)
    (hapart : ¬ st.prevResults.shares st.curResults)
    (hg : processCartesianProduct rows (evalItem ep) [] = .ok groups)
    (herr : (performQueryOnBuffer ep rows st).1 = some err) :
    (performQueryOnBuffer ep rows st).2.curResults.rows (performQueryOnBuffer ep rows st).2.heap
      = st.curResults.rows st.heap ∧
    ∃ done g rest outs, groups = done ++ g :: rest ∧ OutputRows ep done outs ∧
      evalProjections ep ep.projections g [] = .error err ∧
      (performQueryOnBuffer ep rows st).2.prevResults.rows
        (performQueryOnBuffer ep rows st).2.heap = outs := by
  refine ⟨?_, performQueryOnBuffer_groupError ep rows st groups err hg herr⟩
  obtain ⟨outs, ⟨hnone, _, _⟩ | ⟨_, heff, hcur⟩⟩ := performQueryOnBuffer_effect ep rows st
  · rw [hnone] at herr
    cases herr
  · rw [hcur]
    exact (heff.apart st.curResults hwf.2 hapart).1

/-! ## Concrete runs -/

theorem filteredRows_coerce :
    ∀ d ∈ filteredRows, ∃ v b, (column "keep").Eval d = .ok v ∧ filteredPlan.ToBool v = .ok b := by
  intro d hd
  simp only [filteredRows, List.mem_cons, List.mem_singleton, List.not_mem_nil, or_false] at hd
  rcases hd with rfl | rfl | rfl | rfl <;> exact ⟨_, _, rfl, rfl⟩

/-- The statement of C4 at the scenario with the filter `keep`: the run equals
the run of the plan without filter on the first and the last row. -/
theorem filter_refinement_witness :
    filteredPlan.filter = some (column "keep") ∧
    (∀ d ∈ filteredRows, ∃ v b,
      (column "keep").Eval d = .ok v ∧ filteredPlan.ToBool v = .ok b) ∧
    performQueryOnBuffer filteredPlan filteredRows emptyState
      = performQueryOnBuffer (withoutFilter filteredPlan)
          (filteredRows.filter (fun d =>
            match (column "keep").Eval d with
            | .ok v => (match filteredPlan.ToBool v with | .ok b => b | .error _ => false)
            | .error _ => false)) emptyState :=
  ⟨rfl, filteredRows_coerce,
    (filter_refinement filteredPlan (column "keep") filteredRows emptyState rfl
      filteredRows_coerce).2.2⟩

/-- The statement of C6 at the scenario: the first row creates the group of
`"x"` in the empty list, and the two rows that follow leave its key and its
representative row as they are. -/
theorem group_created_for_new_key_witness :
    (((∀ g ∈ ([] : List TmpGroupData),
          countPlan.cmpOp (.array g.group) (.array [.string "x"]) = .ok false) ∧
        [{ group := [.string "x"], aggData := [("agg1", [])],
           nonAggData := [("a", .int 1), ("b", .string "x")] }]
          = ([] : List TmpGroupData) ++
            [{ group := [.string "x"], aggData := initAggData countPlan.projections,
               nonAggData := [("a", .int 1), ("b", .string "x")] }] ∧
        0 = ([] : List TmpGroupData).length) ∨
      ((∃ g ∈ ([] : List TmpGroupData),
          countPlan.cmpOp (.array g.group) (.array [.string "x"]) = .ok true) ∧
        [{ group := [.string "x"], aggData := [("agg1", [])],
           nonAggData := [("a", .int 1), ("b", .string "x")] }] = ([] : List TmpGroupData) ∧
        0 < ([] : List TmpGroupData).length)) ∧
    ∃ g', ([{ group := [.string "x"], aggData := [("agg1", [.int 1, .int 2])],
              nonAggData := [("a", .int 1), ("b", .string "x")] },
            { group := [.string "y"], aggData := [("agg1", [.int 3])],
              nonAggData := [("a", .int 3), ("b", .string "y")] }] : List TmpGroupData).get? 0
          = some g' ∧
        g'.group = [.string "x"] ∧ g'.nonAggData = [("a", .int 1), ("b", .string "x")] :=
  ⟨(group_created_for_new_key countPlan).1 [] _ [.string "x"]
      [("a", .int 1), ("b", .string "x")] 0 rfl,
    (group_created_for_new_key countPlan).2.2.2 countRows.tail
      [{ group := [.string "x"], aggData := [("agg1", [.int 1])],
         nonAggData := [("a", .int 1), ("b", .string "x")] }] _ rfl 0 _ rfl⟩

/-- Why the result slices are kept apart, on success: were `prevResults` a part
of the array of `curResults`, as in `aliasedState`, which no call leaves behind
when the slices were apart before it, the run of the scenario would write its
output rows `{c:2}, {c:1}` over the rows `{c:8}, {c:9}` of `curResults`. -/
theorem shared_array_overwritten_on_success :
    aliasedState.wellFormed ∧ aliasedState.prevResults.shares aliasedState.curResults ∧
    (performQueryOnBuffer countPlan countRows aliasedState).1 = none ∧
    aliasedState.curResults.rows aliasedState.heap = [[("c", .int 8)], [("c", .int 9)]] ∧
    (performQueryOnBuffer countPlan countRows aliasedState).2.prevResults.rows
        (performQueryOnBuffer countPlan countRows aliasedState).2.heap
      = [[("c", .int 2)], [("c", .int 1)]] ∧
    (performQueryOnBuffer countPlan countRows aliasedState).2.prevResults.rows
        (performQueryOnBuffer countPlan countRows aliasedState).2.heap
      ≠ aliasedState.curResults.rows aliasedState.heap := by
  refine ⟨by decide, by decide, rfl, rfl, rfl, ?_⟩
  intro h
  have h' : [[("c", Value.int 2)], [("c", Value.int 1)]]
      = [[("c", Value.int 8)], [("c", Value.int 9)]] := h
  simp at h'

/-- The statement of C7 at the scenario run from `sampleState`. -/
theorem results_moved_on_success_witness :
    sampleState.wellFormed ∧ ¬ sampleState.prevResults.shares sampleState.curResults ∧
    (performQueryOnBuffer countPlan countRows sampleState).1 = none ∧
    (performQueryOnBuffer countPlan countRows sampleState).2.prevResults.rows
        (performQueryOnBuffer countPlan countRows sampleState).2.heap
      = sampleState.curResults.rows sampleState.heap ∧
    ∃ groups, processCartesianProduct countRows (evalItem countPlan) [] = .ok groups ∧
      OutputRows countPlan groups
        ((performQueryOnBuffer countPlan countRows sampleState).2.curResults.rows
          (performQueryOnBuffer countPlan countRows sampleState).2.heap) :=
  ⟨by decide, by decide, by decide,
    results_moved_on_success countPlan countRows sampleState (by decide) (by decide) (by decide)⟩

/-- Why the result slices are kept apart, on an error: were `prevResults` a part
of the array of `curResults`, as in `aliasedState`, which no call leaves behind
when the slices were apart before it, the run of `partPlan` on `partRows` would
return its error after the output row `{c:0}` of the first group has been
written over the first row of `curResults`, which held `{c:8}, {c:9}`. -/
theorem shared_array_overwritten_on_error :
    aliasedState.wellFormed ∧ aliasedState.prevResults.shares aliasedState.curResults ∧
    (performQueryOnBuffer partPlan partRows aliasedState).1 = some "no such column: z" ∧
    aliasedState.curResults.rows aliasedState.heap = [[("c", .int 8)], [("c", .int 9)]] ∧
    (performQueryOnBuffer partPlan partRows aliasedState).2.curResults.rows
        (performQueryOnBuffer partPlan partRows aliasedState).2.heap
      = [[("c", .int 0)], [("c", .int 9)]] ∧
    (performQueryOnBuffer partPlan partRows aliasedState).2.curResults.rows
        (performQueryOnBuffer partPlan partRows aliasedState).2.heap
      ≠ aliasedState.curResults.rows aliasedState.heap := by
  refine ⟨by decide, by decide, rfl, rfl, rfl, ?_⟩
  intro h
  have h' : [[("c", Value.int 0)], [("c", Value.int 9)]]
      = [[("c", Value.int 8)], [("c", Value.int 9)]] := h
  simp at h'

/-- The statement of C8 at a run in which the second group fails. -/
theorem curResults_kept_on_error_witness :
    sampleState.wellFormed ∧ ¬ sampleState.prevResults.shares sampleState.curResults ∧
    (performQueryOnBuffer partPlan partRows sampleState).1 = some "no such column: z" ∧
    (performQueryOnBuffer partPlan partRows sampleState).2.curResults = sampleState.curResults ∧
    (performQueryOnBuffer partPlan partRows sampleState).2.curResults.rows
        (performQueryOnBuffer partPlan partRows sampleState).2.heap
      = sampleState.curResults.rows sampleState.heap :=
  ⟨by decide, by decide, by decide,
    curResults_kept_on_error partPlan partRows sampleState "no such column: z" (by decide)
      (by decide) (by decide)⟩

/-- C9 as stated fails: in the run of `partPlan` on `partRows` from `sampleState`
the first group is evaluated, the second fails, and `prevResults`, which held
`{c:7}`, holds `{c:0}` afterwards, the output row of the first group. -/
theorem group_failure_changes_prevResults :
    processCartesianProduct partRows (evalItem partPlan) [] = .ok partGroups ∧
    (performQueryOnBuffer partPlan partRows sampleState).1 = some "no such column: z" ∧
    sampleState.prevResults.rows sampleState.heap = [[("c", .int 7)]] ∧
    (performQueryOnBuffer partPlan partRows sampleState).2.prevResults.rows
        (performQueryOnBuffer partPlan partRows sampleState).2.heap = [[("c", .int 0)]] ∧
    ¬ ((performQueryOnBuffer partPlan partRows sampleState).2.prevResults.rows
          (performQueryOnBuffer partPlan partRows sampleState).2.heap
        = sampleState.prevResults.rows sampleState.heap ∧
      (performQueryOnBuffer partPlan partRows sampleState).2.curResults.rows
          (performQueryOnBuffer partPlan partRows sampleState).2.heap
        = sampleState.curResults.rows sampleState.heap) := by
  refine ⟨rfl, rfl, rfl, rfl, ?_⟩
  rintro ⟨h, _⟩
  have h' : [[("c", Value.int 0)]] = [[("c", Value.int 7)]] := h
  simp at h'

/-- The statement of C9, amended, at the same run. -/
theorem group_failure_keeps_curResults_witness :
    sampleState.wellFormed ∧ ¬ sampleState.prevResults.shares sampleState.curResults ∧
    processCartesianProduct partRows (evalItem partPlan) [] = .ok partGroups ∧
    (performQueryOnBuffer partPlan partRows sampleState).1 = some "no such column: z" ∧
    (performQueryOnBuffer partPlan partRows sampleState).2.curResults.rows
        (performQueryOnBuffer partPlan partRows sampleState).2.heap
      = sampleState.curResults.rows sampleState.heap ∧
    ∃ done g rest outs, partGroups = done ++ g :: rest ∧ OutputRows partPlan done outs ∧
      evalProjections partPlan partPlan.projections g [] = .error "no such column: z" ∧
      (performQueryOnBuffer partPlan partRows sampleState).2.prevResults.rows
        (performQueryOnBuffer partPlan partRows sampleState).2.heap = outs :=
  ⟨by decide, by decide, rfl, by decide,
    group_failure_keeps_curResults partPlan partRows sampleState partGroups "no such column: z"
      (by decide) (by decide) rfl (by decide)⟩

/-- The statement of C10 at the failing run and at the successful run. -/
theorem results_storage_stays_apart_witness :
    sampleState.wellFormed ∧ ¬ sampleState.prevResults.shares sampleState.curResults ∧
    (¬ (performQueryOnBuffer partPlan partRows sampleState).2.prevResults.shares
          (performQueryOnBuffer partPlan partRows sampleState).2.curResults ∧
      (performQueryOnBuffer partPlan partRows sampleState).2.wellFormed) ∧
    (¬ (performQueryOnBuffer countPlan countRows sampleState).2.prevResults.shares
          (performQueryOnBuffer countPlan countRows sampleState).2.curResults ∧
      (performQueryOnBuffer countPlan countRows sampleState).2.wellFormed) :=
  ⟨by decide, by decide,
    results_storage_stays_apart partPlan partRows sampleState (by decide) (by decide),
    results_storage_stays_apart countPlan countRows sampleState (by decide) (by decide)⟩

/-! ## The empty enumeration -/

theorem performQueryOnBuffer_nil (ep : GroupbyExecutionPlan) (st : PlanState) :
    performQueryOnBuffer ep [] st
      = (none, { heap := st.heap, prevResults := st.curResults, curResults := outputOf st }) :=
  rfl

/-- The run on no row allocates nothing: from `aliasedState`, in which the two
result slices share array 0 and which no call leaves behind when the slices were
apart before it, it succeeds with an empty `curResults` and leaves two slices of
array 0. -/
theorem empty_run_keeps_shared_array :
    (performQueryOnBuffer countPlan [] aliasedState).1 = none ∧
    (performQueryOnBuffer countPlan [] aliasedState).2.curResults.rows
        (performQueryOnBuffer countPlan [] aliasedState).2.heap = [] ∧
    (performQueryOnBuffer countPlan [] aliasedState).2.prevResults.shares
        (performQueryOnBuffer countPlan [] aliasedState).2.curResults := by
  refine ⟨rfl, rfl, by decide⟩

/-- C11. When no combined row is enumerated, `performQueryOnBuffer` succeeds
with an empty `curResults`, whatever the plan is, and leaves `prevResults` and
`curResults` in different arrays: the call starts with the two slices apart,
which is the invariant that every call keeps (C10) and that the comment in
`rollback` requires on leaving the function. -/
theorem empty_run_gives_empty_results (ep : GroupbyExecutionPlan) (st : PlanState) :
    (performQueryOnBuffer ep [] st).1 = none ∧
    (performQueryOnBuffer ep [] st).2.curResults.len = 0 ∧
    (performQueryOnBuffer ep [] st).2.curResults.rows (performQueryOnBuffer ep [] st).2.heap = [] ∧
    (¬ st.prevResults.shares st.curResults →
      ¬ (performQueryOnBuffer ep [] st).2.prevResults.shares
          (performQueryOnBuffer ep [] st).2.curResults) := by
  rw [performQueryOnBuffer_nil]
  refine ⟨rfl, rfl, outputOf_rows st, ?_⟩
  intro hapart hs
  exact hapart ((Slice.shares_comm _ _).1 hs)

/-- The statement of C11 at the plan of the scenario run on no row from
`sampleState`. -/
theorem empty_run_gives_empty_results_witness :
    ¬ sampleState.prevResults.shares sampleState.curResults ∧
    ¬ (performQueryOnBuffer countPlan [] sampleState).2.prevResults.shares
        (performQueryOnBuffer countPlan [] sampleState).2.curResults :=
  ⟨by decide, (empty_run_gives_empty_results countPlan sampleState).2.2.2 (by decide)⟩

/-! ## Where an error comes from -/

theorem passesFilter_error (ep : GroupbyExecutionPlan) (d : Map) (err : Err) :
    passesFilter ep d = .error err ↔
      (∃ f, ep.filter = some f ∧ f.Eval d = .error err) ∨
      (∃ f v, ep.filter = some f ∧ f.Eval d = .ok v ∧ ep.ToBool v = .error err) := by
  unfold passesFilter
  cases hf : ep.filter with
  | none => simp
  | some f =>
    cases hv : f.Eval d with
    | error e => simp [hv]
    | ok v => simp [hv]

theorem evalGroupList_error (d : Map) (err : Err) :
    ∀ l : List Evaluator, evalGroupList d l = .error err ↔
      ∃ pre eval post values, l = pre ++ eval :: post ∧ evalGroupList d pre = .ok values ∧
        eval.Eval d = .error err := by
  intro l
  induction l with
  | nil =>
    simp [evalGroupList]
  | cons e rest ih =>
    simp only [evalGroupList]
    cases he : e.Eval d with
    | error e1 =>
      constructor
      · intro h
        simp only [Except.error.injEq] at h
        subst h
        exact ⟨[], e, rest, [], rfl, rfl, he⟩
      · rintro ⟨pre, eval, post, values, hl, hpre, h⟩
        cases pre with
        | nil =>
          simp only [List.nil_append, List.cons.injEq] at hl
          obtain ⟨rfl, _⟩ := hl
          rw [he] at h
          simpa using h
        | cons p0 pre' =>
          simp only [List.cons_append, List.cons.injEq] at hl
          obtain ⟨rfl, _⟩ := hl
          simp [evalGroupList, he] at hpre
    | ok value =>
      simp only
      cases hr : evalGroupList d rest with
      | error e2 =>
        simp only [Except.error.injEq]
        constructor
        · intro h
          subst h
          obtain ⟨pre, eval, post, values, hl, hpre, h⟩ := ih.1 hr
          exact ⟨e :: pre, eval, post, value :: values, by simp [hl],
            by simp [evalGroupList, he, hpre], h⟩
        · rintro ⟨pre, eval, post, values, hl, hpre, h⟩
          cases pre with
          | nil =>
            simp only [List.nil_append, List.cons.injEq] at hl
            obtain ⟨rfl, _⟩ := hl
            rw [he] at h
            cases h
          | cons p0 pre' =>
            simp only [List.cons_append, List.cons.injEq] at hl
            obtain ⟨rfl, rfl⟩ := hl
            have hpre' : ∃ vs, evalGroupList d pre' = .ok vs := by
              simp only [evalGroupList, he] at hpre
              cases hq : evalGroupList d pre' with
              | error e3 => rw [hq] at hpre; cases hpre
              | ok vs => exact ⟨vs, rfl⟩
            obtain ⟨vs, hvs⟩ := hpre'
            have := ih.2 ⟨pre', eval, post, vs, rfl, hvs, h⟩
            rw [hr] at this
            simpa using this
      | ok values =>
        constructor
        · intro h; cases h
        · rintro ⟨pre, eval, post, vs, hl, hpre, h⟩
          cases pre with
          | nil =>
            simp only [List.nil_append, List.cons.injEq] at hl
            obtain ⟨rfl, _⟩ := hl
            rw [he] at h
            cases h
          | cons p0 pre' =>
            simp only [List.cons_append, List.cons.injEq] at hl
            obtain ⟨rfl, rfl⟩ := hl
            have hpre' : ∃ vs, evalGroupList d pre' = .ok vs := by
              simp only [evalGroupList, he] at hpre
              cases hq : evalGroupList d pre' with
              | error e3 => rw [hq] at hpre; cases hpre
              | ok vs => exact ⟨vs, rfl⟩
            obtain ⟨vs', hvs⟩ := hpre'
            have := ih.2 ⟨pre', eval, post, vs', rfl, hvs, h⟩
            rw [hr] at this
            cases this

theorem findGroupIdx_error (ep : GroupbyExecutionPlan) (k : List Value) (err : Err) :
    ∀ (gs : List TmpGroupData) (i : Nat), findGroupIdx ep k gs i = .error err ↔
      ∃ pre g post, gs = pre ++ g :: post ∧
        (∀ g' ∈ pre, ep.cmpOp (.array g'.group) (.array k) = .ok false) ∧
        ep.cmpOp (.array g.group) (.array k) = .error err := by
  intro gs
  induction gs with
  | nil => intro i; simp [findGroupIdx]
  | cons g0 rest ih =>
    intro i
    simp only [findGroupIdx]
    cases hc : ep.cmpOp (.array g0.group) (.array k) with
    | error e1 =>
      constructor
      · intro h
        simp only [Except.error.injEq] at h
        subst h
        exact ⟨[], g0, rest, rfl, by simp, hc⟩
      · rintro ⟨pre, g, post, hl, hpre, h⟩
        cases pre with
        | nil =>
          simp only [List.nil_append, List.cons.injEq] at hl
          obtain ⟨rfl, _⟩ := hl
          rw [hc] at h
          simpa using h
        | cons p0 pre' =>
          simp only [List.cons_append, List.cons.injEq] at hl
          obtain ⟨rfl, _⟩ := hl
          have := hpre g0 (List.mem_cons_self _ _)
          rw [hc] at this
          cases this
    | ok equals =>
      cases equals with
      | true =>
        simp only [if_true]
        constructor
        · intro h; cases h
        · rintro ⟨pre, g, post, hl, hpre, h⟩
          cases pre with
          | nil =>
            simp only [List.nil_append, List.cons.injEq] at hl
            obtain ⟨rfl, _⟩ := hl
            rw [hc] at h
            cases h
          | cons p0 pre' =>
            simp only [List.cons_append, List.cons.injEq] at hl
            obtain ⟨rfl, _⟩ := hl
            have := hpre g0 (List.mem_cons_self _ _)
            rw [hc] at this
            cases this
      | false =>
        simp only [Bool.false_eq_true, if_false]
        rw [ih (i + 1)]
        constructor
        · rintro ⟨pre, g, post, hl, hpre, h⟩
          refine ⟨g0 :: pre, g, post, by simp [hl], ?_, h⟩
          intro g' hg'
          rcases List.mem_cons.1 hg' with rfl | hg''
          · exact hc
          · exact hpre g' hg''
        · rintro ⟨pre, g, post, hl, hpre, h⟩
          cases pre with
          | nil =>
            simp only [List.nil_append, List.cons.injEq] at hl
            obtain ⟨rfl, _⟩ := hl
            rw [hc] at h
            cases h
          | cons p0 pre' =>
            simp only [List.cons_append, List.cons.injEq] at hl
            obtain ⟨rfl, rfl⟩ := hl
            exact ⟨pre', g, post, rfl, fun g' hg' => hpre g' (List.mem_cons_of_mem _ hg'), h⟩

theorem findOrCreateGroup_error (ep : GroupbyExecutionPlan) (gs : List TmpGroupData)
    (k : List Value) (d : Map) (err : Err) :
    findOrCreateGroup ep gs k d = .error err ↔ findGroupIdx ep k gs 0 = .error err := by
  unfold findOrCreateGroup
  cases h : findGroupIdx ep k gs 0 with
  | error e => simp
  | ok r => cases r <;> simp

theorem errorOf_eq_some {β : Type} (r : Except Err β) (err : Err) :
    errorOf r = some err ↔ r = .error err := by
  cases r <;> simp [errorOf]

theorem firstErrorOf_append {α β : Type} (ev : α → Except Err β) (l1 l2 : List α) :
    firstErrorOf ev (l1 ++ l2)
      = match firstErrorOf ev l1 with
        | some err => some err
        | none => firstErrorOf ev l2 := by
  induction l1 with
  | nil => rfl
  | cons x rest ih =>
    simp only [List.cons_append, firstErrorOf]
    cases ev x with
    | error e => rfl
    | ok v => exact ih

theorem firstErrorOf_eq_some {α β : Type} (ev : α → Except Err β) (err : Err) :
    ∀ l : List α, firstErrorOf ev l = some err ↔
      ∃ pre x post, l = pre ++ x :: post ∧ (∀ y ∈ pre, ∃ v, ev y = .ok v) ∧
        ev x = .error err := by
  intro l
  induction l with
  | nil => simp [firstErrorOf]
  | cons x rest ih =>
    simp only [firstErrorOf]
    cases hx : ev x with
    | error e =>
      simp only [Option.some.injEq]
      constructor
      · intro h
        subst h
        exact ⟨[], x, rest, rfl, by simp, hx⟩
      · rintro ⟨pre, y, post, hl, hpre, h⟩
        cases pre with
        | nil =>
          simp only [List.nil_append, List.cons.injEq] at hl
          obtain ⟨rfl, _⟩ := hl
          rw [hx] at h
          simpa using h
        | cons p0 pre' =>
          simp only [List.cons_append, List.cons.injEq] at hl
          obtain ⟨rfl, _⟩ := hl
          obtain ⟨v, hv⟩ := hpre x (List.mem_cons_self _ _)
          rw [hx] at hv
          cases hv
    | ok v =>
      simp only
      rw [ih]
      constructor
      · rintro ⟨pre, y, post, hl, hpre, h⟩
        refine ⟨x :: pre, y, post, by simp [hl], ?_, h⟩
        intro z hz
        rcases List.mem_cons.1 hz with rfl | hz'
        · exact ⟨v, hx⟩
        · exact hpre z hz'
      · rintro ⟨pre, y, post, hl, hpre, h⟩
        cases pre with
        | nil =>
          simp only [List.nil_append, List.cons.injEq] at hl
          obtain ⟨rfl, _⟩ := hl
          rw [hx] at h
          cases h
        | cons p0 pre' =>
          simp only [List.cons_append, List.cons.injEq] at hl
          obtain ⟨rfl, rfl⟩ := hl
          exact ⟨pre', y, post, rfl, fun z hz => hpre z (List.mem_cons_of_mem _ hz), h⟩

theorem appendAggInputs_errorOf (d : Map) :
    ∀ (l : List (String × AggInputEvaluator)) (aggData : List (String × List Value)),
      errorOf (appendAggInputs d l aggData)
        = firstErrorOf (fun kv : String × AggInputEvaluator => kv.2.aggrEval.Eval d) l := by
  intro l
  induction l with
  | nil => intro aggData; rfl
  | cons kv rest ih =>
    intro aggData
    obtain ⟨key, agg⟩ := kv
    simp only [appendAggInputs, firstErrorOf]
    cases agg.aggrEval.Eval d with
    | error e => rfl
    | ok v => exact ih _

theorem collectAggInputs_errorOf (d : Map) :
    ∀ (ps : List Projection) (aggData : List (String × List Value)),
      errorOf (collectAggInputs d ps aggData)
        = firstErrorOf (fun kv : String × AggInputEvaluator => kv.2.aggrEval.Eval d)
            (aggInputsOf ps) := by
  intro ps
  induction ps with
  | nil => intro aggData; rfl
  | cons p rest ih =>
    intro aggData
    simp only [collectAggInputs, aggInputsOf]
    by_cases hagg : p.hasAggregate = true
    · simp only [hagg, if_true]
      rw [firstErrorOf_append, ← appendAggInputs_errorOf d p.aggrEvals aggData]
      cases appendAggInputs d p.aggrEvals aggData with
      | error e => rfl
      | ok a => exact ih a
    · simp only [hagg]
      exact ih aggData

theorem collectAggInputs_error (d : Map) (ps : List Projection)
    (aggData : List (String × List Value)) (err : Err) :
    collectAggInputs d ps aggData = .error err ↔
      ∃ pre kv post, aggInputsOf ps = pre ++ kv :: post ∧
        (∀ y ∈ pre, ∃ v, y.2.aggrEval.Eval d = .ok v) ∧ kv.2.aggrEval.Eval d = .error err := by
  rw [← errorOf_eq_some, collectAggInputs_errorOf, firstErrorOf_eq_some]

theorem evalItem_of_failure (ep : GroupbyExecutionPlan) (d : Map) (gs : List TmpGroupData)
    (err : Err) (h : ItemFailure ep d gs err) : evalItem ep d gs = .error err := by
  cases h with
  | filterEval f hf h =>
    have hp : passesFilter ep d = .error err :=
      (passesFilter_error ep d err).2 (Or.inl ⟨f, hf, h⟩)
    unfold evalItem
    rw [hp]
  | coercion f v hf hv h =>
    have hp : passesFilter ep d = .error err :=
      (passesFilter_error ep d err).2 (Or.inr ⟨f, v, hf, hv, h⟩)
    unfold evalItem
    rw [hp]
  | groupExpr pre post eval values hp hl hpre h =>
    have hk : evalGroupList d ep.groupList = .error err :=
      (evalGroupList_error d err _).2 ⟨pre, eval, post, values, hl, hpre, h⟩
    unfold evalItem
    rw [hp, hk]
  | comparison k pre post g hp hk hgs hpre h =>
    have hfind : findOrCreateGroup ep gs k d = .error err :=
      (findOrCreateGroup_error ep gs k d err).2
        ((findGroupIdx_error ep k err gs 0).2 ⟨pre, g, post, hgs, hpre, h⟩)
    unfold evalItem
    rw [hp, hk]
    simp only
    rw [hfind]
  | aggInput k found pre post key agg hp hk hfind hl hpre h =>
    obtain ⟨gs1, idx⟩ := found
    unfold evalItem
    rw [hp, hk]
    simp only
    rw [hfind]
    simp only
    have hget : ∃ itemGroup, gs1.get? idx = some itemGroup := by
      rcases findOrCreateGroup_ok ep gs gs1 k d idx hfind with
        ⟨pre', g, post', hgs, rfl, rfl, _, _⟩ | ⟨_, rfl, rfl⟩
      · subst hgs
        exact ⟨g, by
          simp only [List.get?_eq_getElem?, List.getElem?_append_right (le_refl _),
            Nat.sub_self, List.getElem?_cons_zero]⟩
      · exact ⟨{ group := k, aggData := initAggData ep.projections, nonAggData := d }, by
          simp only [List.get?_eq_getElem?, List.getElem?_append_right (le_refl _),
            Nat.sub_self, List.getElem?_cons_zero]⟩
    obtain ⟨itemGroup, hget⟩ := hget
    rw [hget]
    simp only
    rw [(collectAggInputs_error d ep.projections itemGroup.aggData err).2
      ⟨pre, (key, agg), post, hl, hpre, h⟩]

theorem failure_of_evalItem (ep : GroupbyExecutionPlan) (d : Map) (gs : List TmpGroupData)
    (err : Err) (h : evalItem ep d gs = .error err) : ItemFailure ep d gs err := by
  unfold evalItem at h
  cases hp : passesFilter ep d with
  | error e =>
    rw [hp] at h
    simp only [Except.error.injEq] at h
    subst h
    rcases (passesFilter_error ep d e).1 hp with ⟨f, hf, hfe⟩ | ⟨f, v, hf, hv, hc⟩
    · exact .filterEval f hf hfe
    · exact .coercion f v hf hv hc
  | ok b =>
    rw [hp] at h
    cases b with
    | false => cases h
    | true =>
      simp only at h
      cases hk : evalGroupList d ep.groupList with
      | error e =>
        rw [hk] at h
        simp only [Except.error.injEq] at h
        subst h
        obtain ⟨pre, eval, post, values, hl, hpre, he⟩ := (evalGroupList_error d e _).1 hk
        exact .groupExpr pre post eval values hp hl hpre he
      | ok k =>
        rw [hk] at h
        simp only at h
        cases hfind : findOrCreateGroup ep gs k d with
        | error e =>
          rw [hfind] at h
          simp only [Except.error.injEq] at h
          subst h
          obtain ⟨pre, g, post, hgs, hpre, hc⟩ :=
            (findGroupIdx_error ep k e gs 0).1 ((findOrCreateGroup_error ep gs k d e).1 hfind)
          exact .comparison k pre post g hp hk hgs hpre hc
        | ok r =>
          obtain ⟨gs1, idx⟩ := r
          rw [hfind] at h
          simp only at h
          cases hget : gs1.get? idx with
          | none => rw [hget] at h; cases h
          | some itemGroup =>
            rw [hget] at h
            simp only at h
            cases hagg : collectAggInputs d ep.projections itemGroup.aggData with
            | ok a => rw [hagg] at h; cases h
            | error e =>
              rw [hagg] at h
              simp only [Except.error.injEq] at h
              subst h
              obtain ⟨pre, kv, post, hl, hpre, he⟩ :=
                (collectAggInputs_error d ep.projections itemGroup.aggData e).1 hagg
              exact .aggInput k (gs1, idx) pre post kv.1 kv.2 hp hk hfind hl hpre he

theorem evalProjections_append (ep : GroupbyExecutionPlan) :
    ∀ (pre rest : List Projection) (g : TmpGroupData) (res : Map),
      evalProjections ep (pre ++ rest) g res
        = match evalProjections ep pre g res with
          | .error err => .error err
          | .ok (g1, res1) => evalProjections ep rest g1 res1 := by
  intro pre
  induction pre with
  | nil => intro rest g res; rfl
  | cons p pre' ih =>
    intro rest g res
    simp only [List.cons_append, evalProjections]
    cases p.evaluator.Eval (bindProjection p g).nonAggData with
    | error e => rfl
    | ok v =>
      simp only
      cases ep.assignOutputValue res p.alias_ v with
      | error e => rfl
      | ok res' => exact ih rest _ _

theorem evalProjections_error (ep : GroupbyExecutionPlan) (err : Err) :
    ∀ (ps : List Projection) (g : TmpGroupData) (res : Map),
      evalProjections ep ps g res = .error err ↔
        ∃ pre p post g1 res1, ps = pre ++ p :: post ∧
          evalProjections ep pre g res = .ok (g1, res1) ∧
          (p.evaluator.Eval (bindProjection p g1).nonAggData = .error err ∨
            ∃ v, p.evaluator.Eval (bindProjection p g1).nonAggData = .ok v ∧
              ep.assignOutputValue res1 p.alias_ v = .error err) := by
  intro ps
  induction ps with
  | nil =>
    intro g res
    simp [evalProjections]
  | cons p0 rest ih =>
    intro g res
    constructor
    · intro h
      simp only [evalProjections] at h
      cases hv : p0.evaluator.Eval (bindProjection p0 g).nonAggData with
      | error e =>
        rw [hv] at h
        simp only [Except.error.injEq] at h
        subst h
        exact ⟨[], p0, rest, g, res, rfl, rfl, Or.inl hv⟩
      | ok v =>
        rw [hv] at h
        simp only at h
        cases ha : ep.assignOutputValue res p0.alias_ v with
        | error e =>
          rw [ha] at h
          simp only [Except.error.injEq] at h
          subst h
          exact ⟨[], p0, rest, g, res, rfl, rfl, Or.inr ⟨v, hv, ha⟩⟩
        | ok res' =>
          rw [ha] at h
          obtain ⟨pre, p, post, g1, res1, hl, hpre, hfail⟩ := (ih _ _).1 h
          refine ⟨p0 :: pre, p, post, g1, res1, by simp [hl], ?_, hfail⟩
          simp only [evalProjections, hv, ha]
          exact hpre
    · rintro ⟨pre, p, post, g1, res1, hl, hpre, hfail⟩
      rw [hl, evalProjections_append, hpre]
      simp only [evalProjections]
      rcases hfail with hfail | ⟨v, hv, ha⟩
      · rw [hfail]
      · rw [hv]
        simp only
        rw [ha]

theorem groupFailure_iff (ep : GroupbyExecutionPlan) (group : TmpGroupData) (err : Err) :
    evalProjections ep ep.projections group [] = .error err ↔ GroupFailure ep group err := by
  rw [evalProjections_error]
  constructor
  · rintro ⟨pre, p, post, g1, res1, hl, hpre, hfail | ⟨v, hv, ha⟩⟩
    · exact .projection pre post p g1 res1 hl hpre hfail
    · exact .assignment pre post p g1 res1 v hl hpre hv ha
  · intro h
    cases h with
    | projection pre post p g1 res1 hl hpre h =>
      exact ⟨pre, p, post, g1, res1, hl, hpre, Or.inl h⟩
    | assignment pre post p g1 res1 v hl hpre hv h =>
      exact ⟨pre, p, post, g1, res1, hl, hpre, Or.inr ⟨v, hv, h⟩⟩

theorem processCartesianProduct_error {σ : Type} (f : Map → σ → Except Err σ) (err : Err) :
    ∀ (rows : List Map) (s : σ), processCartesianProduct rows f s = .error err ↔
      ∃ done d rest s', rows = done ++ d :: rest ∧
        processCartesianProduct done f s = .ok s' ∧ f d s' = .error err := by
  intro rows
  induction rows with
  | nil =>
    intro s
    simp [processCartesianProduct]
  | cons d0 rest0 ih =>
    intro s
    simp only [processCartesianProduct]
    cases hd : f d0 s with
    | error e =>
      constructor
      · intro h
        simp only [Except.error.injEq] at h
        subst h
        exact ⟨[], d0, rest0, s, rfl, rfl, hd⟩
      · rintro ⟨done, d, rest, s', hl, hdone, hf⟩
        cases done with
        | nil =>
          simp only [List.nil_append, List.cons.injEq] at hl
          obtain ⟨rfl, _⟩ := hl
          simp only [processCartesianProduct, Except.ok.injEq] at hdone
          subst hdone
          rw [hd] at hf
          simpa using hf
        | cons x done' =>
          simp only [List.cons_append, List.cons.injEq] at hl
          obtain ⟨rfl, _⟩ := hl
          simp [processCartesianProduct, hd] at hdone
    | ok s1 =>
      simp only
      rw [ih s1]
      constructor
      · rintro ⟨done, d, rest, s', hl, hdone, hf⟩
        refine ⟨d0 :: done, d, rest, s', by simp [hl], ?_, hf⟩
        simp only [processCartesianProduct, hd]
        exact hdone
      · rintro ⟨done, d, rest, s', hl, hdone, hf⟩
        cases done with
        | nil =>
          simp only [List.nil_append, List.cons.injEq] at hl
          obtain ⟨rfl, _⟩ := hl
          simp only [processCartesianProduct, Except.ok.injEq] at hdone
          subst hdone
          rw [hd] at hf
          cases hf
        | cons x done' =>
          simp only [List.cons_append, List.cons.injEq] at hl
          obtain ⟨rfl, rfl⟩ := hl
          simp only [processCartesianProduct, hd] at hdone
          exact ⟨done', d, rest, s', rfl, hdone, hf⟩

theorem evalGroups_error (ep : GroupbyExecutionPlan) (err : Err) :
    ∀ (groups : List TmpGroupData) (h : Heap) (out : Slice),
      (evalGroups ep groups h out).1 = some err ↔
        ∃ done g rest, groups = done ++ g :: rest ∧
          (∀ g' ∈ done, ∃ r, evalProjections ep ep.projections g' [] = .ok r) ∧
          evalProjections ep ep.projections g [] = .error err := by
  intro groups
  induction groups with
  | nil =>
    intro h out
    simp [evalGroups]
  | cons g0 rest0 ih =>
    intro h out
    simp only [evalGroups, evalGroup]
    cases hg : evalProjections ep ep.projections g0 [] with
    | error e =>
      simp only [Option.some.injEq]
      constructor
      · intro he
        subst he
        exact ⟨[], g0, rest0, rfl, by simp, hg⟩
      · rintro ⟨done, g, rest, hl, hdone, hf⟩
        cases done with
        | nil =>
          simp only [List.nil_append, List.cons.injEq] at hl
          obtain ⟨rfl, _⟩ := hl
          rw [hg] at hf
          simpa using hf
        | cons x done' =>
          simp only [List.cons_append, List.cons.injEq] at hl
          obtain ⟨rfl, _⟩ := hl
          obtain ⟨r, hr⟩ := hdone g0 (List.mem_cons_self _ _)
          rw [hg] at hr
          cases hr
    | ok r =>
      obtain ⟨g', result⟩ := r
      simp only
      rw [ih]
      constructor
      · rintro ⟨done, g, rest, hl, hdone, hf⟩
        refine ⟨g0 :: done, g, rest, by simp [hl], ?_, hf⟩
        intro x hx
        rcases List.mem_cons.1 hx with rfl | hx'
        · exact ⟨_, hg⟩
        · exact hdone x hx'
      · rintro ⟨done, g, rest, hl, hdone, hf⟩
        cases done with
        | nil =>
          simp only [List.nil_append, List.cons.injEq] at hl
          obtain ⟨rfl, _⟩ := hl
          rw [hg] at hf
          cases hf
        | cons x done' =>
          simp only [List.cons_append, List.cons.injEq] at hl
          obtain ⟨rfl, rfl⟩ := hl
          exact ⟨done', g, rest, rfl, fun y hy => hdone y (List.mem_cons_of_mem _ hy), hf⟩

theorem performQueryOnBuffer_error_of_groups (ep : GroupbyExecutionPlan) (rows : List Map)
    (st : PlanState) (groups : List TmpGroupData)
    (hg : processCartesianProduct rows (evalItem ep) [] = .ok groups) :
    (performQueryOnBuffer ep rows st).1 = (evalGroups ep groups st.heap (outputOf st)).1 := by
  rw [performQueryOnBuffer_groups ep rows st groups hg]
  generalize evalGroups ep groups st.heap (outputOf st) = r
  obtain ⟨e, h', o'⟩ := r
  cases e <;> rfl

/-- C12. `performQueryOnBuffer` returns the error `err` if and only if `err` is
the first failure on its way: either some rows have been handled without error
and on the next row a filter evaluation, a Bool coercion, a grouping expression,
a key comparison against an existing group or an aggregate input expression
returns `err`, all the calls before it on that row having succeeded; or the
enumeration has succeeded, some groups have been evaluated without error and on
the next group a projection evaluation or an output assignment returns `err`,
the projections before it having been evaluated and assigned. In particular it
returns no error exactly when none of these calls fails on the way. -/
theorem error_iff_first_failure (ep : GroupbyExecutionPlan) (rows : List Map)
    (st : PlanState) :
    (∀ err, (performQueryOnBuffer ep rows st).1 = some err ↔
      ((∃ done d rest gs, rows = done ++ d :: rest ∧
          processCartesianProduct done (evalItem ep) [] = .ok gs ∧ ItemFailure ep d gs err) ∨
        (∃ groups done g rest, processCartesianProduct rows (evalItem ep) [] = .ok groups ∧
          groups = done ++ g :: rest ∧
          (∀ g' ∈ done, ∃ r, evalProjections ep ep.projections g' [] = .ok r) ∧
          GroupFailure ep g err))) ∧
    ((performQueryOnBuffer ep rows st).1 = none ↔
      ∃ groups, processCartesianProduct rows (evalItem ep) [] = .ok groups ∧
        ∀ g ∈ groups, ∃ r, evalProjections ep ep.projections g [] = .ok r) := by
  have key : ∀ err, (performQueryOnBuffer ep rows st).1 = some err ↔
      ((∃ done d rest gs, rows = done ++ d :: rest ∧
          processCartesianProduct done (evalItem ep) [] = .ok gs ∧ ItemFailure ep d gs err) ∨
        (∃ groups done g rest, processCartesianProduct rows (evalItem ep) [] = .ok groups ∧
          groups = done ++ g :: rest ∧
          (∀ g' ∈ done, ∃ r, evalProjections ep ep.projections g' [] = .ok r) ∧
          GroupFailure ep g err)) := by
    intro err
    cases hg : processCartesianProduct rows (evalItem ep) [] with
    | error e =>
      rw [performQueryOnBuffer_enumError ep rows st e hg]
      simp only [Option.some.injEq]
      constructor
      · intro he
        subst he
        obtain ⟨done, d, rest, gs, hl, hdone, hf⟩ :=
          (processCartesianProduct_error (evalItem ep) e rows []).1 hg
        exact Or.inl ⟨done, d, rest, gs, hl, hdone, failure_of_evalItem ep d gs e hf⟩
      · rintro (⟨done, d, rest, gs, hl, hdone, hf⟩ | ⟨groups, _, _, _, hgr, _⟩)
        · have := (processCartesianProduct_error (evalItem ep) err rows []).2
            ⟨done, d, rest, gs, hl, hdone, evalItem_of_failure ep d gs err hf⟩
          rw [hg] at this
          simpa using this
        · cases hgr
    | ok groups =>
      rw [performQueryOnBuffer_error_of_groups ep rows st groups hg,
        evalGroups_error ep err groups st.heap (outputOf st)]
      constructor
      · rintro ⟨done, g, rest, hl, hdone, hf⟩
        exact Or.inr ⟨groups, done, g, rest, rfl, hl, hdone, (groupFailure_iff ep g err).1 hf⟩
      · rintro (⟨done, d, rest, gs, hl, hdone, hf⟩ | ⟨groups', done, g, rest, hgr, hl, hdone, hf⟩)
        · have := (processCartesianProduct_error (evalItem ep) err rows []).2
            ⟨done, d, rest, gs, hl, hdone, evalItem_of_failure ep d gs err hf⟩
          rw [hg] at this
          cases this
        · simp only [Except.ok.injEq] at hgr
          subst hgr
          exact ⟨done, g, rest, hl, hdone, (groupFailure_iff ep g err).2 hf⟩
  refine ⟨key, ?_⟩
  constructor
  · intro hok
    obtain ⟨groups, outs, hg, hout, _, _⟩ := performQueryOnBuffer_success ep rows st hok
    refine ⟨groups, hg, ?_⟩
    intro g hgm
    obtain ⟨g', out, _, hev⟩ := OutputRows.of_mem ep groups outs hout g hgm
    exact ⟨_, hev⟩
  · rintro ⟨groups, hg, hall⟩
    cases hres : (performQueryOnBuffer ep rows st).1 with
    | none => rfl
    | some err =>
      exfalso
      rcases (key err).1 hres with ⟨done, d, rest, gs, hl, hdone, hf⟩ |
        ⟨groups', done, g, rest, hgr, hl, _, hf⟩
      · have := (processCartesianProduct_error (evalItem ep) err rows []).2
          ⟨done, d, rest, gs, hl, hdone, evalItem_of_failure ep d gs err hf⟩
        rw [hg] at this
        cases this
      · rw [hg] at hgr
        simp only [Except.ok.injEq] at hgr
        subst hgr
        obtain ⟨r, hr⟩ := hall g (by rw [hl]; simp)
        rw [(groupFailure_iff ep g err).2 hf] at hr
        cases hr

/-- The statement of C12 at two runs: the run of `partPlan` on `partRows`, whose
error is the failure of the projection `z` on the second group, and the run of
`countPlan` on `countRows`, which has no failure and no error. -/
theorem error_iff_first_failure_witness :
    ((∃ done d rest gs, partRows = done ++ d :: rest ∧
        processCartesianProduct done (evalItem partPlan) [] = .ok gs ∧
        ItemFailure partPlan d gs "no such column: z") ∨
      (∃ groups done g rest,
        processCartesianProduct partRows (evalItem partPlan) [] = .ok groups ∧
        groups = done ++ g :: rest ∧
        (∀ g' ∈ done, ∃ r, evalProjections partPlan partPlan.projections g' [] = .ok r) ∧
        GroupFailure partPlan g "no such column: z")) ∧
    (∃ groups, processCartesianProduct countRows (evalItem countPlan) [] = .ok groups ∧
      ∀ g ∈ groups, ∃ r, evalProjections countPlan countPlan.projections g [] = .ok r) :=
  ⟨((error_iff_first_failure partPlan partRows sampleState).1 "no such column: z").1 rfl,
    (error_iff_first_failure countPlan countRows sampleState).2.1 rfl⟩

/-! ## Whether the plan can be built -/

/-- C25. `CanBuildGroupbyExecutionPlan(lp, reg)` returns true if and only if
`lp.GroupingStmt` is true and `lp.Having` is nil; a plan with the same two
fields and any other fields, with any registry, gets the same answer. -/
theorem canBuild_iff_grouping_without_having {Expression Rest Registry : Type}
    (lp : LogicalPlan Expression Rest) (reg : Registry) :
    (CanBuildGroupbyExecutionPlan lp reg = true ↔
      lp.GroupingStmt = true ∧ lp.Having = none) ∧
    (∀ (Rest' Registry' : Type) (rest' : Rest') (reg' : Registry'),
      CanBuildGroupbyExecutionPlan
        ({ GroupingStmt := lp.GroupingStmt, Having := lp.Having, rest := rest' } :
          LogicalPlan Expression Rest') reg'
        = CanBuildGroupbyExecutionPlan lp reg) := by
  constructor
  · unfold CanBuildGroupbyExecutionPlan
    cases lp.GroupingStmt <;> cases lp.Having <;> simp
  · intro Rest' Registry' rest' reg'
    rfl

/-! ## Invariants of the enumeration -/

theorem processCartesianProduct_induction {σ : Type} (f : Map → σ → Except Err σ)
    (P : List Map → σ → Prop)
    (hstep : ∀ done d s s', P done s → f d s = .ok s' → P (done ++ [d]) s') :
    ∀ (rows done : List Map) (s s' : σ), P done s →
      processCartesianProduct rows f s = .ok s' → P (done ++ rows) s'
  | [], done, s, s', hP, h => by
    simp only [processCartesianProduct, Except.ok.injEq] at h
    subst h
    simpa using hP
  | d :: rest, done, s, s', hP, h => by
    simp only [processCartesianProduct] at h
    cases hd : f d s with
    | error err => rw [hd] at h; cases h
    | ok s1 =>
      rw [hd] at h
      have := processCartesianProduct_induction f P hstep rest (done ++ [d]) s1 s'
        (hstep done d s s1 hP hd) h
      simpa using this

theorem evalItem_keeps_unequal (ep : GroupbyExecutionPlan) (d : Map) (gs gs' : List TmpGroupData)
    (hP : (gs.map (fun g => g.group)).Pairwise
      (fun a b => ep.cmpOp (.array a) (.array b) = .ok false))
    (h : evalItem ep d gs = .ok gs') :
    (gs'.map (fun g => g.group)).Pairwise
      (fun a b => ep.cmpOp (.array a) (.array b) = .ok false) := by
  cases evalItem_ok ep d gs gs' h with
  | skipped hf h => rw [h]; exact hP
  | joined k pre post g aggData' hf hk hgs hg hpre hagg h =>
    rw [h]
    rw [hgs] at hP
    simpa using hP
  | created k aggData' hf hk hno hagg h =>
    rw [h, List.map_append, List.pairwise_append]
    refine ⟨hP, by simp, ?_⟩
    intro a ha b hb
    simp only [List.map_cons, List.map_nil, List.mem_singleton] at hb
    obtain ⟨g, hg, rfl⟩ := List.mem_map.1 ha
    rw [hb]
    exact hno g hg

/-- C26. After every step of the row enumeration of `performQueryOnBuffer` (the
first `n` rows have been handled without an error), the group list holds no two
groups with equal keys: for groups `i < j` the comparison of the key of group
`i` with the key of group `j` returns false. Nothing is assumed of the
comparison. -/
theorem groups_have_unequal_keys (ep : GroupbyExecutionPlan) (rows : List Map) (n : Nat)
    (gs : List TmpGroupData)
    (h : processCartesianProduct (rows.take n) (evalItem ep) [] = .ok gs) :
    gs.Pairwise (fun gi gj => ep.cmpOp (.array gi.group) (.array gj.group) = .ok false) ∧
    ∀ i j gi gj, i < j → gs.get? i = some gi → gs.get? j = some gj →
      ep.cmpOp (.array gi.group) (.array gj.group) = .ok false := by
  have key := processCartesianProduct_induction (evalItem ep)
    (fun _ gs => (gs.map (fun g => g.group)).Pairwise
      (fun a b => ep.cmpOp (.array a) (.array b) = .ok false))
    (fun _ d s s' hP hs => evalItem_keeps_unequal ep d s s' hP hs)
    (rows.take n) [] [] gs List.Pairwise.nil h
  have hpw : gs.Pairwise
      (fun gi gj => ep.cmpOp (.array gi.group) (.array gj.group) = .ok false) :=
    List.pairwise_map.1 key
  refine ⟨hpw, ?_⟩
  intro i j gi gj hij hi hj
  rw [List.get?_eq_getElem?] at hi hj
  obtain ⟨hi', rfl⟩ := List.getElem?_eq_some.1 hi
  obtain ⟨hj', rfl⟩ := List.getElem?_eq_some.1 hj
  exact List.pairwise_iff_getElem.1 hpw i j hi' hj' hij

/-- The statement of C26 at the three rows of the scenario: the two groups made
have the keys `x` and `y`, which the comparison finds unequal. -/
theorem groups_have_unequal_keys_witness :
    processCartesianProduct (countRows.take 3) (evalItem countPlan) []
      = .ok [{ group := [.string "x"], aggData := [("agg1", [.int 1, .int 2])],
               nonAggData := [("a", .int 1), ("b", .string "x")] },
             { group := [.string "y"], aggData := [("agg1", [.int 3])],
               nonAggData := [("a", .int 3), ("b", .string "y")] }] ∧
    countPlan.cmpOp (.array [.string "x"]) (.array [.string "y"]) = .ok false :=
  ⟨rfl,
    (groups_have_unequal_keys countPlan countRows 3 _ rfl).2 0 1
      { group := [.string "x"], aggData := [("agg1", [.int 1, .int 2])],
        nonAggData := [("a", .int 1), ("b", .string "x")] }
      { group := [.string "y"], aggData := [("agg1", [.int 3])],
        nonAggData := [("a", .int 3), ("b", .string "y")] }
      (by decide) rfl rfl⟩

/-! ## The order of the output -/

theorem performQueryOnBuffer_rows (ep : GroupbyExecutionPlan) (rows : List Map) (st : PlanState)
    (hok : (performQueryOnBuffer ep rows st).1 = none) :
    ∃ groups, processCartesianProduct rows (evalItem ep) [] = .ok groups ∧
      OutputRows ep groups ((performQueryOnBuffer ep rows st).2.curResults.rows
        (performQueryOnBuffer ep rows st).2.heap) := by
  obtain ⟨groups, outs, hg, hout, happ, _⟩ := performQueryOnBuffer_success ep rows st hok
  have hrows := happ.rows
  rw [outputOf_rows, List.nil_append] at hrows
  rw [hrows]
  exact ⟨groups, hg, hout⟩

theorem OutputRows.unique (ep : GroupbyExecutionPlan) : ∀ (groups : List TmpGroupData)
    (o1 o2 : List Map), OutputRows ep groups o1 → OutputRows ep groups o2 → o1 = o2 := by
  intro groups o1 o2 h1
  induction h1 generalizing o2 with
  | nil => intro h2; cases h2; rfl
  | @cons g out gs outs hhead _ ih =>
    intro h2
    cases h2 with
    | @cons _ out2 _ outs2 hhead2 htail2 =>
      obtain ⟨g1, e1⟩ := hhead
      obtain ⟨g2, e2⟩ := hhead2
      rw [e1] at e2
      simp only [Except.ok.injEq, Prod.mk.injEq] at e2
      rw [e2.2, ih outs2 htail2]

theorem performQueryOnBuffer_none_of_groups (ep : GroupbyExecutionPlan) (rows : List Map)
    (st : PlanState) (groups : List TmpGroupData)
    (hg : processCartesianProduct rows (evalItem ep) [] = .ok groups)
    (hall : ∀ g ∈ groups, ∃ r, evalProjections ep ep.projections g [] = .ok r) :
    (performQueryOnBuffer ep rows st).1 = none := by
  cases hres : (performQueryOnBuffer ep rows st).1 with
  | none => rfl
  | some err =>
    exfalso
    obtain ⟨done, g, rest, outs, hl, _, hfail, _⟩ :=
      performQueryOnBuffer_groupError ep rows st groups err hg hres
    obtain ⟨r, hr⟩ := hall g (by rw [hl]; simp)
    rw [hfail] at hr
    cases hr

theorem keepFirst_step (ep : GroupbyExecutionPlan) (d : Map) (gs gs' : List TmpGroupData)
    (h : evalItem ep d gs = .ok gs') :
    gs'.map (fun g => (g.group, g.nonAggData))
      = keepFirst ep (gs.map (fun g => (g.group, g.nonAggData))) d := by
  cases evalItem_ok ep d gs gs' h with
  | skipped hf h =>
    rw [h]
    unfold keepFirst
    rw [hf]
  | joined k pre post g aggData' hf hk hgs hg hpre hagg h =>
    have hany : ((gs.map (fun g => (g.group, g.nonAggData))).any
        (fun e => decide (keyEquals ep e.1 k))) = true := by
      rw [List.any_eq_true]
      refine ⟨(g.group, g.nonAggData), List.mem_map.2 ⟨g, by rw [hgs]; simp, rfl⟩, ?_⟩
      exact decide_eq_true hg
    unfold keepFirst
    rw [hf, hk]
    simp only [hany, if_true]
    rw [h, hgs]
    simp
  | created k aggData' hf hk hno hagg h =>
    have hany : ((gs.map (fun g => (g.group, g.nonAggData))).any
        (fun e => decide (keyEquals ep e.1 k))) = false := by
      rw [Bool.eq_false_iff]
      intro ht
      rw [List.any_eq_true] at ht
      obtain ⟨e, he, hdec⟩ := ht
      obtain ⟨g, hg, rfl⟩ := List.mem_map.1 he
      have hk' : keyEquals ep g.group k := of_decide_eq_true hdec
      unfold keyEquals at hk'
      rw [hno g hg] at hk'
      cases hk'
    unfold keepFirst
    rw [hf, hk]
    simp only [hany]
    rw [h]
    simp

theorem groups_firstOccurrences (ep : GroupbyExecutionPlan) (rows : List Map)
    (groups : List TmpGroupData)
    (hg : processCartesianProduct rows (evalItem ep) [] = .ok groups) :
    groups.map (fun g => (g.group, g.nonAggData)) = firstOccurrences ep rows := by
  have key := processCartesianProduct_induction (evalItem ep)
    (fun done gs => gs.map (fun g => (g.group, g.nonAggData)) = firstOccurrences ep done)
    (fun done d s s' hP hs => by
      show s'.map (fun g => (g.group, g.nonAggData)) = firstOccurrences ep (done ++ [d])
      unfold firstOccurrences
      rw [List.foldl_append, List.foldl_cons, List.foldl_nil]
      unfold firstOccurrences at hP
      rw [← hP]
      exact keepFirst_step ep d s s' hs)
    rows [] [] groups rfl hg
  simpa using key

/-- C27. For a given enumeration order of the combined rows, a successful
`performQueryOnBuffer` orders its output by first occurrence: the keys and the
representative rows of the groups are, in order, the distinct keys met among the
filter-passing rows with the rows that brought them, and the `i`-th row of
`curResults` is the output row of the `i`-th group. The outcome is determined by
the plan and the rows: from any other state the call succeeds too and leaves
the same rows in `curResults`. -/
theorem output_ordered_by_first_occurrence (ep : GroupbyExecutionPlan) (rows : List Map)
    (st : PlanState) (hok : (performQueryOnBuffer ep rows st).1 = none) :
    ∃ groups, processCartesianProduct rows (evalItem ep) [] = .ok groups ∧
      groups.map (fun g => (g.group, g.nonAggData)) = firstOccurrences ep rows ∧
      OutputRows ep groups ((performQueryOnBuffer ep rows st).2.curResults.rows
        (performQueryOnBuffer ep rows st).2.heap) ∧
      ∀ st' : PlanState, (performQueryOnBuffer ep rows st').1 = none ∧
        (performQueryOnBuffer ep rows st').2.curResults.rows
            (performQueryOnBuffer ep rows st').2.heap
          = (performQueryOnBuffer ep rows st).2.curResults.rows
              (performQueryOnBuffer ep rows st).2.heap := by
  obtain ⟨groups, hg, hout⟩ := performQueryOnBuffer_rows ep rows st hok
  refine ⟨groups, hg, groups_firstOccurrences ep rows groups hg, hout, ?_⟩
  intro st'
  have hok' : (performQueryOnBuffer ep rows st').1 = none :=
    performQueryOnBuffer_none_of_groups ep rows st' groups hg
      (fun g hgm => by
        obtain ⟨g', out, _, hev⟩ := OutputRows.of_mem ep groups _ hout g hgm
        exact ⟨_, hev⟩)
  obtain ⟨groups', hg', hout'⟩ := performQueryOnBuffer_rows ep rows st' hok'
  rw [hg] at hg'
  simp only [Except.ok.injEq] at hg'
  subst hg'
  exact ⟨hok', OutputRows.unique ep groups _ _ hout' hout⟩

/-- The statement of C27 at the scenario: the keys `x` and `y` are met in this
order, and `curResults` holds the row of `x` before the row of `y`, from the
empty state and from `sampleState` alike. -/
theorem output_ordered_by_first_occurrence_witness :
    (firstOccurrences countPlan countRows).map (fun e => e.1) = [[.string "x"], [.string "y"]] ∧
    (performQueryOnBuffer countPlan countRows emptyState).2.curResults.rows
        (performQueryOnBuffer countPlan countRows emptyState).2.heap
      = [[("c", .int 2)], [("c", .int 1)]] ∧
    ∃ groups, processCartesianProduct countRows (evalItem countPlan) [] = .ok groups ∧
      groups.map (fun g => (g.group, g.nonAggData)) = firstOccurrences countPlan countRows ∧
      OutputRows countPlan groups
        ((performQueryOnBuffer countPlan countRows emptyState).2.curResults.rows
          (performQueryOnBuffer countPlan countRows emptyState).2.heap) ∧
      ∀ st' : PlanState, (performQueryOnBuffer countPlan countRows st').1 = none ∧
        (performQueryOnBuffer countPlan countRows st').2.curResults.rows
            (performQueryOnBuffer countPlan countRows st').2.heap
          = (performQueryOnBuffer countPlan countRows emptyState).2.curResults.rows
              (performQueryOnBuffer countPlan countRows emptyState).2.heap :=
  ⟨rfl, rfl, output_ordered_by_first_occurrence countPlan countRows emptyState rfl⟩

/-! ## Identifiers bound once and again -/

theorem aggIds_append (a b : List Projection) : aggIds (a ++ b) = aggIds a ++ aggIds b := by
  induction a with
  | nil => rfl
  | cons p a ih => simp [aggIds, ih]

theorem bindAll_append (a b : List Projection) (g : TmpGroupData) :
    bindAll (a ++ b) g = bindAll b (bindAll a g) := by
  unfold bindAll
  rw [List.foldl_append]

theorem bindAggregates_inputs_nil (id : String) : ∀ (l : List (String × AggInputEvaluator))
    (g : TmpGroupData), inputsOf id g.aggData = [] →
    inputsOf id (bindAggregates l g).aggData = []
  | [], _, h => h
  | (key, agg) :: rest, g, h => by
    simp only [bindAggregates]
    apply bindAggregates_inputs_nil id rest
    show inputsOf id (deleteKey key g.aggData) = []
    unfold inputsOf at h ⊢
    by_cases hk : id = key
    · rw [hk, getKey_deleteKey_same]
      rfl
    · rw [getKey_deleteKey_ne key id g.aggData hk]
      exact h

theorem bindAggregates_deletes (id : String) : ∀ (l : List (String × AggInputEvaluator))
    (g : TmpGroupData), id ∈ l.map (fun kv => kv.1) →
    inputsOf id (bindAggregates l g).aggData = []
  | [], _, h => by cases h
  | (key, agg) :: rest, g, h => by
    simp only [bindAggregates]
    by_cases hk : id = key
    · apply bindAggregates_inputs_nil id rest
      show inputsOf id (deleteKey key g.aggData) = []
      unfold inputsOf
      rw [hk, getKey_deleteKey_same]
      rfl
    · apply bindAggregates_deletes id rest
      simp only [List.map_cons, List.mem_cons] at h
      rcases h with h | h
      · exact absurd h hk
      · exact h

theorem bindAggregates_once (id : String) : ∀ (l : List (String × AggInputEvaluator))
    (g : TmpGroupData), (l.map (fun kv => kv.1)).count id = 1 →
    getKey id (bindAggregates l g).nonAggData = some (.int ((inputsOf id g.aggData).length : Nat))
  | [], _, h => by simp at h
  | (key, agg) :: rest, g, h => by
    simp only [bindAggregates]
    by_cases hk : key = id
    · have hrest : id ∉ rest.map (fun kv => kv.1) := by
        intro hm
        have hpos := List.count_pos_iff.2 hm
        simp only [List.map_cons, hk, List.count_cons_self] at h
        omega
      rw [(bindAggregates_notin id rest _ hrest).1]
      show getKey id (setKey key _ g.nonAggData) = _
      rw [hk, getKey_setKey_same]
      rfl
    · have hcount : (rest.map (fun kv => kv.1)).count id = 1 := by
        simp only [List.map_cons] at h
        rw [List.count_cons_of_ne (fun e => hk e.symm)] at h
        exact h
      rw [bindAggregates_once id rest _ hcount]
      show some (Value.int ((inputsOf id (deleteKey key g.aggData)).length : Nat)) = _
      unfold inputsOf
      rw [getKey_deleteKey_ne key id g.aggData (fun e => hk e.symm)]

theorem bindAggregates_again (id : String) : ∀ (l : List (String × AggInputEvaluator))
    (g : TmpGroupData), id ∈ l.map (fun kv => kv.1) → inputsOf id g.aggData = [] →
    getKey id (bindAggregates l g).nonAggData = some (.int 0)
  | [], _, h, _ => by cases h
  | (key, agg) :: rest, g, h, hnil => by
    simp only [bindAggregates]
    have hnil' : inputsOf id (deleteKey key g.aggData) = [] := by
      unfold inputsOf at hnil ⊢
      by_cases hk : id = key
      · rw [hk, getKey_deleteKey_same]
        rfl
      · rw [getKey_deleteKey_ne key id g.aggData hk]
        exact hnil
    by_cases hrest : id ∈ rest.map (fun kv => kv.1)
    · exact bindAggregates_again id rest _ hrest hnil'
    · have hk : key = id := by
        simp only [List.map_cons, List.mem_cons] at h
        rcases h with h | h
        · exact h.symm
        · exact absurd h hrest
      rw [(bindAggregates_notin id rest _ hrest).1]
      show getKey id (setKey key _ g.nonAggData) = _
      rw [hk, getKey_setKey_same]
      have h0 : (getKey id g.aggData).getD [] = [] := hnil
      rw [h0]
      rfl

theorem bindAll_once (id : String) : ∀ (ps : List Projection) (g : TmpGroupData),
    (aggIds ps).count id = 1 →
    getKey id (bindAll ps g).nonAggData = some (.int ((inputsOf id g.aggData).length : Nat))
  | [], _, h => by simp [aggIds] at h
  | p :: rest, g, h => by
    rw [bindAll_cons]
    by_cases hin : id ∈ aggIds rest
    · have hrest : (aggIds rest).count id = 1 := by
        have hpos := List.count_pos_iff.2 hin
        simp only [aggIds, List.count_append] at h
        omega
      have hp : id ∉ (if p.hasAggregate then p.aggrEvals.map (fun kv => kv.1) else []) := by
        intro hm
        have hpos := List.count_pos_iff.2 hm
        simp only [aggIds, List.count_append] at h
        omega
      rw [bindAll_once id rest _ hrest]
      unfold inputsOf bindProjection
      cases hagg : p.hasAggregate with
      | false => simp
      | true =>
        rw [hagg] at hp
        simp only [if_true] at hp ⊢
        rw [(bindAggregates_notin id p.aggrEvals g hp).2]
    · have hp : p.hasAggregate = true ∧ (p.aggrEvals.map (fun kv => kv.1)).count id = 1 := by
        have h0 := List.count_eq_zero_of_not_mem hin
        simp only [aggIds, List.count_append, h0, Nat.add_zero] at h
        cases hagg : p.hasAggregate with
        | false => rw [hagg] at h; simp at h
        | true => rw [hagg] at h; exact ⟨rfl, by simpa using h⟩
      rw [(bindAll_notin id rest _ hin).1]
      unfold bindProjection
      rw [hp.1, if_pos rfl]
      exact bindAggregates_once id p.aggrEvals g hp.2

theorem evalProjections_evaluates (ep : GroupbyExecutionPlan) (pre post : List Projection)
    (p : Projection) (g g' : TmpGroupData) (res out : Map)
    (h : evalProjections ep (pre ++ p :: post) g res = .ok (g', out)) :
    ∃ v, p.evaluator.Eval (bindAll (pre ++ [p]) g).nonAggData = .ok v := by
  rw [evalProjections_append] at h
  cases hpre : evalProjections ep pre g res with
  | error err => rw [hpre] at h; cases h
  | ok r =>
    obtain ⟨g1, res1⟩ := r
    rw [hpre] at h
    simp only [evalProjections] at h
    have hg1 := evalProjections_group ep pre g g1 res res1 hpre
    have hb : bindAll (pre ++ [p]) g = bindProjection p g1 := by
      rw [bindAll_append, ← hg1]
      rfl
    rw [hb]
    cases hv : p.evaluator.Eval (bindProjection p g1).nonAggData with
    | error err => rw [hv] at h; cases h
    | ok v => exact ⟨v, rfl⟩

/-! ## Grouping partitions the rows -/

theorem filterHolds_eq_true (ep : GroupbyExecutionPlan) (d : Map) :
    filterHolds ep d = true ↔ passesFilter ep d = .ok true := by
  unfold filterHolds
  cases h : passesFilter ep d with
  | error e => simp
  | ok b => cases b <;> simp

theorem evalItem_adds_inputs (ep : GroupbyExecutionPlan) (id : String) (d : Map)
    (gs gs' : List TmpGroupData) (h : evalItem ep d gs = .ok gs') :
    (gs'.map (inputCount id)).sum
      = (gs.map (inputCount id)).sum
        + (if filterHolds ep d then (aggIds ep.projections).count id else 0) := by
  cases evalItem_ok ep d gs gs' h with
  | skipped hf h =>
    have hfh : filterHolds ep d = false := by
      unfold filterHolds
      rw [hf]
    rw [h, hfh]
    simp
  | joined k pre post g aggData' hf hk hgs hg hpre hagg h =>
    have hfh : filterHolds ep d = true := (filterHolds_eq_true ep d).2 hf
    have hlen := collectAggInputs_length d id ep.projections g.aggData aggData' hagg
    rw [h, hgs, hfh]
    simp only [List.map_append, List.map_cons, List.sum_append, List.sum_cons, inputCount,
      if_true]
    rw [hlen]
    omega
  | created k aggData' hf hk hno hagg h =>
    have hfh : filterHolds ep d = true := (filterHolds_eq_true ep d).2 hf
    have hlen := collectAggInputs_length d id ep.projections _ aggData' hagg
    rw [inputsOf_initAggData] at hlen
    rw [h, hfh]
    simp only [List.map_append, List.map_cons, List.map_nil, List.sum_append, List.sum_cons,
      List.sum_nil, inputCount, if_true]
    rw [hlen]
    simp

theorem inputCount_sum (ep : GroupbyExecutionPlan) (id : String) (rows : List Map)
    (groups : List TmpGroupData)
    (hg : processCartesianProduct rows (evalItem ep) [] = .ok groups) :
    (groups.map (inputCount id)).sum
      = rows.countP (filterHolds ep) * (aggIds ep.projections).count id := by
  have key := processCartesianProduct_induction (evalItem ep)
    (fun done gs => (gs.map (inputCount id)).sum
      = done.countP (filterHolds ep) * (aggIds ep.projections).count id)
    (fun done d s s' hP hs => by
      show (s'.map (inputCount id)).sum
        = (done ++ [d]).countP (filterHolds ep) * (aggIds ep.projections).count id
      rw [evalItem_adds_inputs ep id d s s' hs, hP, List.countP_append, List.countP_cons,
        List.countP_nil]
      by_cases hf : filterHolds ep d = true
      · simp only [hf, if_true]
        rw [Nat.add_mul]
        simp
      · simp only [hf]
        simp)
    rows [] [] groups (by simp) hg
  simpa using key

/-- C28. For an aggregate identifier that a single projection carries: every
step of the enumeration leaves the inputs held for it as they are when the row
does not pass the filter, and adds exactly one input to exactly one group (an
existing one, or the one it creates) when it does; so, when
`performQueryOnBuffer` succeeds, the numbers of inputs of the groups, which are
the counts that `evalGroup` binds the identifier to, sum to the number of rows
that pass the filter. -/
theorem grouping_partitions_rows (ep : GroupbyExecutionPlan) (id : String)
    (honce : (aggIds ep.projections).count id = 1) :
    (∀ d gs gs', evalItem ep d gs = .ok gs' →
      (filterHolds ep d = false ∧ gs' = gs) ∨
      (filterHolds ep d = true ∧
        ∃ pre post g g', gs' = pre ++ g' :: post ∧ inputCount id g' = inputCount id g + 1 ∧
          (gs = pre ++ g :: post ∨
            (gs = pre ∧ post = [] ∧ inputCount id g = 0 ∧ g.group = g'.group)))) ∧
    (∀ rows st, (performQueryOnBuffer ep rows st).1 = none →
      ∃ groups, processCartesianProduct rows (evalItem ep) [] = .ok groups ∧
        (groups.map (inputCount id)).sum = rows.countP (filterHolds ep) ∧
        ∀ g ∈ groups, ∃ g' out, evalProjections ep ep.projections g [] = .ok (g', out) ∧
          getKey id g'.nonAggData = some (.int (inputCount id g : Nat))) := by
  constructor
  · intro d gs gs' h
    cases evalItem_ok ep d gs gs' h with
    | skipped hf h =>
      refine Or.inl ⟨?_, h⟩
      unfold filterHolds
      rw [hf]
    | joined k pre post g aggData' hf hk hgs hg hpre hagg h =>
      refine Or.inr ⟨(filterHolds_eq_true ep d).2 hf, pre, post, g,
        { g with aggData := aggData' }, h, ?_, Or.inl hgs⟩
      have hlen := collectAggInputs_length d id ep.projections g.aggData aggData' hagg
      rw [honce] at hlen
      exact hlen
    | created k aggData' hf hk hno hagg h =>
      refine Or.inr ⟨(filterHolds_eq_true ep d).2 hf, gs, [],
        { group := k, aggData := initAggData ep.projections, nonAggData := d },
        { group := k, aggData := aggData', nonAggData := d }, h, ?_, Or.inr ⟨rfl, rfl, ?_, rfl⟩⟩
      · have hlen := collectAggInputs_length d id ep.projections _ aggData' hagg
        rw [honce] at hlen
        exact hlen
      · show (inputsOf id (initAggData ep.projections)).length = 0
        rw [inputsOf_initAggData]
        rfl
  · intro rows st hok
    obtain ⟨groups, hg, hout⟩ := performQueryOnBuffer_rows ep rows st hok
    refine ⟨groups, hg, ?_, ?_⟩
    · rw [inputCount_sum ep id rows groups hg, honce, Nat.mul_one]
    · intro g hgm
      obtain ⟨g', out, _, hev⟩ := OutputRows.of_mem ep groups _ hout g hgm
      refine ⟨g', out, hev, ?_⟩
      rw [evalProjections_group ep _ _ _ _ _ hev]
      exact bindAll_once id ep.projections g honce

/-- The statement of C28 at the plan with the filter `keep` run on
`filteredRows`: two of the four rows pass the filter, and the two groups hold
one input each. -/
theorem grouping_partitions_rows_witness :
    (aggIds filteredPlan.projections).count "agg1" = 1 ∧
    filteredRows.countP (filterHolds filteredPlan) = 2 ∧
    processCartesianProduct filteredRows (evalItem filteredPlan) [] = .ok filteredGroups ∧
    ∃ groups, processCartesianProduct filteredRows (evalItem filteredPlan) [] = .ok groups ∧
      (groups.map (inputCount "agg1")).sum = filteredRows.countP (filterHolds filteredPlan) ∧
      ∀ g ∈ groups, ∃ g' out,
        evalProjections filteredPlan filteredPlan.projections g [] = .ok (g', out) ∧
        getKey "agg1" g'.nonAggData = some (.int (inputCount "agg1" g : Nat)) :=
  ⟨by decide, by decide, rfl,
    (grouping_partitions_rows filteredPlan "agg1" (by decide)).2 filteredRows emptyState rfl⟩

/-! ## An identifier carried by two projections -/

theorem countJoining_pos (ep : GroupbyExecutionPlan) (heqv : Equivalence (keyEquals ep))
    (rows : List Map) (gs : List TmpGroupData) (inv : GroupsInv ep rows gs)
    (g : TmpGroupData) (hg : g ∈ gs) : 1 ≤ countJoining ep g.group rows := by
  have hk := inv.fromRows g.group (List.mem_map.2 ⟨g, hg, rfl⟩)
  obtain ⟨d, hd, hf, hkey⟩ := (mem_passingKeys ep rows g.group).1 hk
  unfold countJoining
  exact List.countP_pos_iff.2
    ⟨d, hd, (joins_eq_true ep g.group d).2 ⟨g.group, hf, hkey, heqv.refl _⟩⟩

/-- C30. When two aggregate-bearing projections `p1` and `p2` carry the same
aggregate identifier (and no other projection does), key equality being an
equivalence relation, then after a successful run every group, of `n ≥ 1`
filter-passing rows, has collected `2n` inputs for the identifier; `evalGroup`
evaluates `p1` on a row in which the identifier is bound to `2n` and `p2` on a
row in which it is bound to 0, so that neither is evaluated with it bound to
`n`. -/
theorem shared_identifier_counts_twice (ep : GroupbyExecutionPlan)
    (pre mid post : List Projection) (p1 p2 : Projection) (id : String) (rows : List Map)
    (st : PlanState)
    (hps : ep.projections = pre ++ p1 :: (mid ++ p2 :: post))
    (h1 : p1.hasAggregate = true) (h2 : p2.hasAggregate = true)
    (hid1 : (p1.aggrEvals.map (fun kv => kv.1)).count id = 1)
    (hid2 : (p2.aggrEvals.map (fun kv => kv.1)).count id = 1)
    (hpre : id ∉ aggIds pre) (hmid : id ∉ aggIds mid) (hpost : id ∉ aggIds post)
    (heqv : Equivalence (keyEquals ep))
    (hok : (performQueryOnBuffer ep rows st).1 = none) :
    ∃ groups, processCartesianProduct rows (evalItem ep) [] = .ok groups ∧
      ∀ g ∈ groups,
        1 ≤ countJoining ep g.group rows ∧
        inputCount id g = 2 * countJoining ep g.group rows ∧
        getKey id (bindAll (pre ++ [p1]) g).nonAggData
          = some (.int ((2 * countJoining ep g.group rows : Nat) : Int)) ∧
        getKey id (bindAll (pre ++ p1 :: (mid ++ [p2])) g).nonAggData = some (.int 0) ∧
        getKey id (bindAll (pre ++ [p1]) g).nonAggData
          ≠ some (.int ((countJoining ep g.group rows : Nat) : Int)) ∧
        getKey id (bindAll (pre ++ p1 :: (mid ++ [p2])) g).nonAggData
          ≠ some (.int ((countJoining ep g.group rows : Nat) : Int)) ∧
        (∃ v1, p1.evaluator.Eval (bindAll (pre ++ [p1]) g).nonAggData = .ok v1) ∧
        (∃ v2, p2.evaluator.Eval (bindAll (pre ++ p1 :: (mid ++ [p2])) g).nonAggData
          = .ok v2) := by
  obtain ⟨groups, outs, hg, hout, _, _⟩ := performQueryOnBuffer_success ep rows st hok
  refine ⟨groups, hg, ?_⟩
  have inv : GroupsInv ep rows groups := by
    simpa using GroupsInv.run ep heqv rows [] [] groups (GroupsInv.init ep) hg
  have hcount : (aggIds ep.projections).count id = 2 := by
    rw [hps, aggIds_append]
    simp only [aggIds, h1, h2, if_true, aggIds_append, List.count_append, hid1, hid2,
      List.count_eq_zero_of_not_mem hpre, List.count_eq_zero_of_not_mem hmid,
      List.count_eq_zero_of_not_mem hpost]
  intro g hgm
  have hlen : inputCount id g = 2 * countJoining ep g.group rows := by
    unfold inputCount
    rw [inv.counts g hgm id, hcount, Nat.mul_comm]
  have hin1 : id ∈ p1.aggrEvals.map (fun kv => kv.1) :=
    List.count_pos_iff.1 (by rw [hid1]; exact Nat.one_pos)
  have hin2 : id ∈ p2.aggrEvals.map (fun kv => kv.1) :=
    List.count_pos_iff.1 (by rw [hid2]; exact Nat.one_pos)
  -- the row on which `p1` is evaluated
  have hb1 : bindAll (pre ++ [p1]) g = bindAggregates p1.aggrEvals (bindAll pre g) := by
    rw [bindAll_append]
    simp [bindAll, bindProjection, h1]
  have hpreK := bindAll_notin id pre g hpre
  have hv1 : getKey id (bindAll (pre ++ [p1]) g).nonAggData
      = some (.int ((2 * countJoining ep g.group rows : Nat) : Int)) := by
    rw [hb1, bindAggregates_once id p1.aggrEvals _ hid1]
    unfold inputsOf
    rw [hpreK.2]
    have := hlen
    unfold inputCount inputsOf at this
    rw [this]
  have hdel1 : inputsOf id (bindAll (pre ++ [p1]) g).aggData = [] := by
    rw [hb1]
    exact bindAggregates_deletes id p1.aggrEvals _ hin1
  -- the row on which `p2` is evaluated
  have hb2 : bindAll (pre ++ p1 :: (mid ++ [p2])) g
      = bindAggregates p2.aggrEvals (bindAll mid (bindAll (pre ++ [p1]) g)) := by
    have e : pre ++ p1 :: (mid ++ [p2]) = (pre ++ [p1]) ++ (mid ++ [p2]) := by simp
    rw [e, bindAll_append, bindAll_append]
    simp [bindAll, bindProjection, h2]
  have hmidK := bindAll_notin id mid (bindAll (pre ++ [p1]) g) hmid
  have hv2 : getKey id (bindAll (pre ++ p1 :: (mid ++ [p2])) g).nonAggData = some (.int 0) := by
    rw [hb2]
    apply bindAggregates_again id p2.aggrEvals _ hin2
    unfold inputsOf at hdel1 ⊢
    rw [hmidK.2]
    exact hdel1
  obtain ⟨g', out, _, hev⟩ := OutputRows.of_mem ep groups outs hout g hgm
  have hpos := countJoining_pos ep heqv rows groups inv g hgm
  refine ⟨hpos, hlen, hv1, hv2, ?_, ?_, ?_, ?_⟩
  · rw [hv1]
    intro e
    simp only [Option.some.injEq, Value.int.injEq] at e
    omega
  · rw [hv2]
    intro e
    simp only [Option.some.injEq, Value.int.injEq] at e
    omega
  · rw [hps] at hev
    exact evalProjections_evaluates ep pre (mid ++ p2 :: post) p1 g g' [] out hev
  · have e : pre ++ p1 :: (mid ++ p2 :: post) = (pre ++ p1 :: mid) ++ p2 :: post := by simp
    rw [hps, e] at hev
    have := evalProjections_evaluates ep (pre ++ p1 :: mid) post p2 g g' [] out hev
    simpa using this

/-- The statement of C30 at the plan `twicePlan` run on the rows of the
scenario: the group of `x` has two rows and the group of `y` one, and the output
rows are `{c1:4, c2:0}` and `{c1:2, c2:0}`. -/
theorem shared_identifier_counts_twice_witness :
    (performQueryOnBuffer twicePlan countRows emptyState).2.curResults.rows
        (performQueryOnBuffer twicePlan countRows emptyState).2.heap
      = [[("c1", .int 4), ("c2", .int 0)], [("c1", .int 2), ("c2", .int 0)]] ∧
    ∃ groups, processCartesianProduct countRows (evalItem twicePlan) [] = .ok groups ∧
      ∀ g ∈ groups,
        1 ≤ countJoining twicePlan g.group countRows ∧
        inputCount "agg1" g = 2 * countJoining twicePlan g.group countRows ∧
        getKey "agg1" (bindAll ([] ++ [countAs "c1"]) g).nonAggData
          = some (.int ((2 * countJoining twicePlan g.group countRows : Nat) : Int)) ∧
        getKey "agg1" (bindAll ([] ++ countAs "c1" :: ([] ++ [countAs "c2"])) g).nonAggData
          = some (.int 0) ∧
        getKey "agg1" (bindAll ([] ++ [countAs "c1"]) g).nonAggData
          ≠ some (.int ((countJoining twicePlan g.group countRows : Nat) : Int)) ∧
        getKey "agg1" (bindAll ([] ++ countAs "c1" :: ([] ++ [countAs "c2"])) g).nonAggData
          ≠ some (.int ((countJoining twicePlan g.group countRows : Nat) : Int)) ∧
        (∃ v1, (countAs "c1").evaluator.Eval
          (bindAll ([] ++ [countAs "c1"]) g).nonAggData = .ok v1) ∧
        (∃ v2, (countAs "c2").evaluator.Eval
          (bindAll ([] ++ countAs "c1" :: ([] ++ [countAs "c2"])) g).nonAggData = .ok v2) :=
  ⟨rfl,
    shared_identifier_counts_twice twicePlan [] [] [] (countAs "c1") (countAs "c2") "agg1"
      countRows emptyState rfl rfl rfl (by decide) (by decide) (by simp [aggIds])
      (by simp [aggIds]) (by simp [aggIds]) countPlan_keyEquivalence rfl⟩

/-! ## The enumeration in another order -/

theorem findGroupIdx_total (ep : GroupbyExecutionPlan)
    (hnofail : ∀ a b : List Value, ∃ r, ep.cmpOp (.array a) (.array b) = .ok r)
    (k : List Value) : ∀ (gs : List TmpGroupData) (i : Nat), ∃ r, findGroupIdx ep k gs i = .ok r
  | [], _ => ⟨none, rfl⟩
  | g :: rest, i => by
    obtain ⟨r, hr⟩ := hnofail g.group k
    simp only [findGroupIdx, hr]
    cases r with
    | true => exact ⟨some i, rfl⟩
    | false => exact findGroupIdx_total ep hnofail k rest (i + 1)

theorem findOrCreateGroup_total (ep : GroupbyExecutionPlan)
    (hnofail : ∀ a b : List Value, ∃ r, ep.cmpOp (.array a) (.array b) = .ok r)
    (gs : List TmpGroupData) (k : List Value) (d : Map) :
    ∃ found, findOrCreateGroup ep gs k d = .ok found := by
  obtain ⟨r, hr⟩ := findGroupIdx_total ep hnofail k gs 0
  unfold findOrCreateGroup
  rw [hr]
  cases r <;> exact ⟨_, rfl⟩

theorem evalItem_error_any (ep : GroupbyExecutionPlan)
    (hnofail : ∀ a b : List Value, ∃ r, ep.cmpOp (.array a) (.array b) = .ok r)
    (d : Map) (gs gs2 : List TmpGroupData) (err : Err) (h : evalItem ep d gs = .error err) :
    evalItem ep d gs2 = .error err := by
  apply evalItem_of_failure
  cases failure_of_evalItem ep d gs err h with
  | filterEval f hf h => exact .filterEval f hf h
  | coercion f v hf hv h => exact .coercion f v hf hv h
  | groupExpr pre post eval values hp hl hpre h =>
    exact .groupExpr pre post eval values hp hl hpre h
  | comparison k pre post g hp hk hgs hpre h =>
    obtain ⟨r, hr⟩ := hnofail g.group k
    rw [hr] at h
    cases h
  | aggInput k found pre post key agg hp hk hfind hl hpre h =>
    obtain ⟨found2, hf2⟩ := findOrCreateGroup_total ep hnofail gs2 k d
    exact .aggInput k found2 pre post key agg hp hk hf2 hl hpre h

theorem processCartesianProduct_append {σ : Type} (f : Map → σ → Except Err σ) :
    ∀ (a b : List Map) (s : σ),
      processCartesianProduct (a ++ b) f s
        = match processCartesianProduct a f s with
          | .error err => .error err
          | .ok s1 => processCartesianProduct b f s1
  | [], _, _ => rfl
  | d :: a, b, s => by
    simp only [List.cons_append, processCartesianProduct]
    cases f d s with
    | error err => rfl
    | ok s1 => exact processCartesianProduct_append f a b s1

theorem enumeration_row_ok (ep : GroupbyExecutionPlan) (rows : List Map)
    (groups : List TmpGroupData)
    (hg : processCartesianProduct rows (evalItem ep) [] = .ok groups) (d : Map) (hd : d ∈ rows) :
    ∃ gs gs', evalItem ep d gs = .ok gs' := by
  obtain ⟨s, t, rfl⟩ := List.append_of_mem hd
  rw [processCartesianProduct_append] at hg
  cases hs : processCartesianProduct s (evalItem ep) [] with
  | error err => rw [hs] at hg; cases hg
  | ok s1 =>
    rw [hs] at hg
    simp only [processCartesianProduct] at hg
    cases hd1 : evalItem ep d s1 with
    | error err => rw [hd1] at hg; cases hg
    | ok s2 => exact ⟨s1, s2, hd1⟩

theorem enumeration_total (ep : GroupbyExecutionPlan) : ∀ (rows : List Map),
    (∀ d ∈ rows, ∀ gs, ∃ gs', evalItem ep d gs = .ok gs') →
    ∀ gs, ∃ gs', processCartesianProduct rows (evalItem ep) gs = .ok gs'
  | [], _, gs => ⟨gs, rfl⟩
  | d :: rest, h, gs => by
    obtain ⟨gs1, h1⟩ := h d (List.mem_cons_self _ _) gs
    obtain ⟨gs2, h2⟩ := enumeration_total ep rest
      (fun d' hd' => h d' (List.mem_cons_of_mem _ hd')) gs1
    refine ⟨gs2, ?_⟩
    simp only [processCartesianProduct, h1]
    exact h2

theorem enumeration_of_perm (ep : GroupbyExecutionPlan)
    (hnofail : ∀ a b : List Value, ∃ r, ep.cmpOp (.array a) (.array b) = .ok r)
    (rows1 rows2 : List Map) (hperm : rows1.Perm rows2) (groups1 : List TmpGroupData)
    (hg : processCartesianProduct rows1 (evalItem ep) [] = .ok groups1) :
    ∃ groups2, processCartesianProduct rows2 (evalItem ep) [] = .ok groups2 := by
  apply enumeration_total
  intro d hd gs
  obtain ⟨s, s', hs⟩ := enumeration_row_ok ep rows1 groups1 hg d (hperm.mem_iff.2 hd)
  cases hd2 : evalItem ep d gs with
  | ok gs' => exact ⟨gs', rfl⟩
  | error err =>
    rw [evalItem_error_any ep hnofail d gs s err hd2] at hs
    cases hs

theorem groups_representatives (ep : GroupbyExecutionPlan) (rows : List Map)
    (groups : List TmpGroupData)
    (hg : processCartesianProduct rows (evalItem ep) [] = .ok groups) :
    ∀ g ∈ groups, g.nonAggData ∈ rows ∧ passesFilter ep g.nonAggData = .ok true ∧
      evalGroupList g.nonAggData ep.groupList = .ok g.group := by
  have key := processCartesianProduct_induction (evalItem ep)
    (fun done gs => ∀ g ∈ gs, g.nonAggData ∈ done ∧ passesFilter ep g.nonAggData = .ok true ∧
      evalGroupList g.nonAggData ep.groupList = .ok g.group)
    (fun done d s s' hP hs => by
      intro g hgm
      cases evalItem_ok ep d s s' hs with
      | skipped hf h =>
        rw [h] at hgm
        obtain ⟨h1, h2, h3⟩ := hP g hgm
        exact ⟨List.mem_append_left _ h1, h2, h3⟩
      | joined k pre post g0 aggData' hf hk hgs hg0 hpre hagg h =>
        rw [h] at hgm
        rcases List.mem_append.1 hgm with hm | hm
        · obtain ⟨h1, h2, h3⟩ := hP g (by rw [hgs]; exact List.mem_append_left _ hm)
          exact ⟨List.mem_append_left _ h1, h2, h3⟩
        · rcases List.mem_cons.1 hm with hm | hm
          · obtain ⟨h1, h2, h3⟩ := hP g0 (by rw [hgs]; simp)
            rw [hm]
            exact ⟨List.mem_append_left _ h1, h2, h3⟩
          · obtain ⟨h1, h2, h3⟩ := hP g (by rw [hgs]; simp [hm])
            exact ⟨List.mem_append_left _ h1, h2, h3⟩
      | created k aggData' hf hk hno hagg h =>
        rw [h] at hgm
        rcases List.mem_append.1 hgm with hm | hm
        · obtain ⟨h1, h2, h3⟩ := hP g hm
          exact ⟨List.mem_append_left _ h1, h2, h3⟩
        · simp only [List.mem_singleton] at hm
          rw [hm]
          exact ⟨by simp, hf, hk⟩)
    rows [] [] groups (by simp) hg
  simpa using key

/-! ## Groups that are bound alike -/

theorem bindValues_append (binds : List (String × Value)) (key : String) (v : Value) (d : Map) :
    bindValues (binds ++ [(key, v)]) d = setKey key v (bindValues binds d) := by
  unfold bindValues
  rw [List.foldl_append]
  rfl

theorem inputCount_deleteKey (id key : String) (g : TmpGroupData) (nonAgg : Map) :
    inputCount id { g with nonAggData := nonAgg, aggData := deleteKey key g.aggData }
      = if id = key then 0 else inputCount id g := by
  unfold inputCount inputsOf
  by_cases hk : id = key
  · simp only [hk, if_true]
    rw [getKey_deleteKey_same]
    rfl
  · simp only [hk, if_false]
    rw [getKey_deleteKey_ne key id g.aggData hk]

theorem bindAggregates_alike (ep : GroupbyExecutionPlan) (rows : List Map) :
    ∀ (l : List (String × AggInputEvaluator)) (ga gb : TmpGroupData),
      BoundAlike ep rows ga gb → BoundAlike ep rows (bindAggregates l ga) (bindAggregates l gb)
  | [], _, _, h => h
  | (key, agg) :: rest, ga, gb, h => by
    simp only [bindAggregates]
    apply bindAggregates_alike ep rows rest
    obtain ⟨hcount, binds, d1, d2, k1, k2, hd1, hd2, hk1, hk2, hkeq, ha, hb⟩ := h
    have hlen : ((getKey key ga.aggData).getD []).length
        = ((getKey key gb.aggData).getD []).length := hcount key
    refine ⟨?_, binds ++ [(key, .int ((getKey key ga.aggData).getD []).length)], d1, d2, k1, k2,
      hd1, hd2, hk1, hk2, hkeq, ?_, ?_⟩
    · intro id
      rw [inputCount_deleteKey, inputCount_deleteKey, hcount id]
    · rw [bindValues_append, ← ha]
    · rw [bindValues_append, ← hb, hlen]

theorem bindProjection_alike (ep : GroupbyExecutionPlan) (rows : List Map) (p : Projection)
    (ga gb : TmpGroupData) (h : BoundAlike ep rows ga gb) :
    BoundAlike ep rows (bindProjection p ga) (bindProjection p gb) := by
  unfold bindProjection
  cases p.hasAggregate with
  | true => exact bindAggregates_alike ep rows p.aggrEvals ga gb h
  | false => exact h

theorem evalProjections_alike (ep : GroupbyExecutionPlan) (rows : List Map)
    (hsame : SameOnEqualKeys ep rows) :
    ∀ (ps : List Projection), (∀ p ∈ ps, p ∈ ep.projections) →
      ∀ (ga gb : TmpGroupData) (res out : Map), BoundAlike ep rows ga gb →
        ((∃ g', evalProjections ep ps ga res = .ok (g', out)) ↔
          ∃ g', evalProjections ep ps gb res = .ok (g', out))
  | [], _, ga, gb, res, out, _ => by
    simp [evalProjections]
  | p :: rest, hsub, ga, gb, res, out, h => by
    have h' := bindProjection_alike ep rows p ga gb h
    have heval : p.evaluator.Eval (bindProjection p ga).nonAggData
        = p.evaluator.Eval (bindProjection p gb).nonAggData := by
      obtain ⟨_, binds, d1, d2, k1, k2, hd1, hd2, hk1, hk2, hkeq, ha, hb⟩ := h'
      rw [ha, hb]
      exact hsame p (hsub p (List.mem_cons_self _ _)) d1 hd1 d2 hd2 k1 k2 hk1 hk2 hkeq binds
    simp only [evalProjections]
    rw [heval]
    cases p.evaluator.Eval (bindProjection p gb).nonAggData with
    | error err => simp
    | ok v =>
      dsimp only
      cases ep.assignOutputValue res p.alias_ v with
      | error err => simp
      | ok res' =>
        dsimp only
        exact evalProjections_alike ep rows hsame rest
          (fun q hq => hsub q (List.mem_cons_of_mem _ hq)) _ _ res' out h'

theorem outputRowOf_eq_some (ep : GroupbyExecutionPlan) (g : TmpGroupData) (out : Map) :
    outputRowOf ep g = some out ↔ ∃ g', evalProjections ep ep.projections g [] = .ok (g', out) := by
  unfold outputRowOf
  cases evalProjections ep ep.projections g [] with
  | error err => simp
  | ok r =>
    obtain ⟨g1, out1⟩ := r
    simp

theorem outputRowOf_alike (ep : GroupbyExecutionPlan) (rows : List Map)
    (hsame : SameOnEqualKeys ep rows) (ga gb : TmpGroupData) (h : BoundAlike ep rows ga gb) :
    outputRowOf ep ga = outputRowOf ep gb := by
  apply Option.ext
  intro out
  rw [Option.mem_def, Option.mem_def, outputRowOf_eq_some, outputRowOf_eq_some]
  exact evalProjections_alike ep rows hsame ep.projections (fun _ hp => hp) ga gb [] out h

theorem OutputRows.eq_filterMap (ep : GroupbyExecutionPlan) (groups : List TmpGroupData)
    (outs : List Map) (h : OutputRows ep groups outs) :
    outs = groups.filterMap (outputRowOf ep) := by
  induction h with
  | nil => rfl
  | @cons g out gs outs hhead _ ih =>
    have hg : outputRowOf ep g = some out := (outputRowOf_eq_some ep g out).2 hhead
    rw [List.filterMap_cons, hg, ← ih]

theorem joins_congr (ep : GroupbyExecutionPlan) (heqv : Equivalence (keyEquals ep))
    (k k' : List Value) (h : keyEquals ep k k') (d : Map) : joins ep k d = joins ep k' d := by
  rw [Bool.eq_iff_iff, joins_eq_true, joins_eq_true]
  constructor
  · rintro ⟨kd, hf, hk, he⟩
    exact ⟨kd, hf, hk, heqv.trans (heqv.symm h) he⟩
  · rintro ⟨kd, hf, hk, he⟩
    exact ⟨kd, hf, hk, heqv.trans h he⟩

theorem countJoining_perm (ep : GroupbyExecutionPlan) (heqv : Equivalence (keyEquals ep))
    (k k' : List Value) (h : keyEquals ep k k') (rows1 rows2 : List Map)
    (hperm : rows1.Perm rows2) : countJoining ep k rows1 = countJoining ep k' rows2 := by
  unfold countJoining
  rw [hperm.countP_eq]
  congr 1
  funext d
  exact joins_congr ep heqv k k' h d

/-! ## Permuting the rows -/

theorem exists_perm_of_matching {α β : Type} (R : α → β → Prop) :
    ∀ (l1 : List α) (l2 : List β), (∀ a ∈ l1, ∃ b ∈ l2, R a b) → (∀ b ∈ l2, ∃ a ∈ l1, R a b) →
      l1.Pairwise (fun a a' => ∀ b, R a b → ¬ R a' b) →
      l2.Pairwise (fun b b' => ∀ a, R a b → ¬ R a b') →
      ∃ l2', l2'.Perm l2 ∧ List.Forall₂ R l1 l2'
  | [], l2, _, h2, _, _ => by
    cases l2 with
    | nil => exact ⟨[], List.Perm.refl _, List.Forall₂.nil⟩
    | cons b l2 =>
      obtain ⟨a, ha, _⟩ := h2 b (List.mem_cons_self _ _)
      cases ha
  | a :: l1, l2, h1, h2, hp1, hp2 => by
    obtain ⟨b, hb, hab⟩ := h1 a (List.mem_cons_self _ _)
    obtain ⟨s, t, rfl⟩ := List.append_of_mem hb
    obtain ⟨hpa, hpl1⟩ := List.pairwise_cons.1 hp1
    obtain ⟨hps, hpbt, hpst⟩ := List.pairwise_append.1 hp2
    obtain ⟨hpb, hpt⟩ := List.pairwise_cons.1 hpbt
    have h1' : ∀ a' ∈ l1, ∃ b' ∈ s ++ t, R a' b' := by
      intro a' ha'
      obtain ⟨b', hb', hab'⟩ := h1 a' (List.mem_cons_of_mem _ ha')
      refine ⟨b', ?_, hab'⟩
      rcases List.mem_append.1 hb' with hm | hm
      · exact List.mem_append_left _ hm
      · rcases List.mem_cons.1 hm with hm | hm
        · rw [hm] at hab'
          exact absurd hab' (hpa a' ha' b hab)
        · exact List.mem_append_right _ hm
    have h2' : ∀ b' ∈ s ++ t, ∃ a' ∈ l1, R a' b' := by
      intro b' hb'
      have hmem : b' ∈ s ++ b :: t := by
        rcases List.mem_append.1 hb' with hm | hm
        · exact List.mem_append_left _ hm
        · exact List.mem_append_right _ (List.mem_cons_of_mem _ hm)
      obtain ⟨a', ha', hab'⟩ := h2 b' hmem
      rcases List.mem_cons.1 ha' with hm | hm
      · rw [hm] at hab'
        rcases List.mem_append.1 hb' with hs | ht
        · exact absurd hab (hpst b' hs b (List.mem_cons_self _ _) a hab')
        · exact absurd hab' (hpb b' ht a hab)
      · exact ⟨a', hm, hab'⟩
    have hp2' : (s ++ t).Pairwise (fun b b' => ∀ a, R a b → ¬ R a b') :=
      List.pairwise_append.2 ⟨hps, hpt, fun x hx y hy => hpst x hx y (List.mem_cons_of_mem _ hy)⟩
    obtain ⟨l2', hperm, hf⟩ := exists_perm_of_matching R l1 (s ++ t) h1' h2' hpl1 hp2'
    exact ⟨b :: l2', (List.Perm.cons b hperm).trans List.perm_middle.symm,
      List.Forall₂.cons hab hf⟩

theorem map_eq_of_matching {α β γ : Type} (R : α → β → Prop) (f : α → γ) (g : β → γ) :
    ∀ (l1 : List α) (l2 : List β), List.Forall₂ R l1 l2 →
      (∀ a ∈ l1, ∀ b ∈ l2, R a b → f a = g b) → l1.map f = l2.map g := by
  intro l1 l2 h
  induction h with
  | nil => intro _; rfl
  | @cons a b l1 l2 hab _ ih =>
    intro hfg
    rw [List.map_cons, List.map_cons, hfg a (List.mem_cons_self _ _) b (List.mem_cons_self _ _) hab,
      ih (fun a' ha' b' hb' hr =>
        hfg a' (List.mem_cons_of_mem _ ha') b' (List.mem_cons_of_mem _ hb') hr)]

theorem passingKeys_perm (ep : GroupbyExecutionPlan) (rows1 rows2 : List Map)
    (hperm : rows1.Perm rows2) (k : List Value) (hk : k ∈ passingKeys ep rows1) :
    k ∈ passingKeys ep rows2 := by
  obtain ⟨d, hd, hf, hkey⟩ := (mem_passingKeys ep rows1 k).1 hk
  exact (mem_passingKeys ep rows2 k).2 ⟨d, hperm.mem_iff.1 hd, hf, hkey⟩

theorem GroupsInv.matched (ep : GroupbyExecutionPlan) (heqv : Equivalence (keyEquals ep))
    (rows1 rows2 : List Map) (hperm : rows1.Perm rows2) (gs1 gs2 : List TmpGroupData)
    (inv1 : GroupsInv ep rows1 gs1) (inv2 : GroupsInv ep rows2 gs2) :
    ∀ g1 ∈ gs1, ∃ g2 ∈ gs2, keyEquals ep g1.group g2.group := by
  intro g1 hg1
  have hk := passingKeys_perm ep rows1 rows2 hperm g1.group
    (inv1.fromRows g1.group (List.mem_map.2 ⟨g1, hg1, rfl⟩))
  obtain ⟨key, hkey, he⟩ := inv2.covered g1.group hk
  obtain ⟨g2, hg2, rfl⟩ := List.mem_map.1 hkey
  exact ⟨g2, hg2, heqv.symm he⟩

theorem getKey_bindValues_congr (k : String) : ∀ (binds : List (String × Value)) (d1 d2 : Map),
    getKey k d1 = getKey k d2 → getKey k (bindValues binds d1) = getKey k (bindValues binds d2)
  | [], _, _, h => h
  | kv :: binds, d1, d2, h => by
    show getKey k (bindValues binds (setKey kv.1 kv.2 d1))
      = getKey k (bindValues binds (setKey kv.1 kv.2 d2))
    apply getKey_bindValues_congr k binds
    by_cases hk : k = kv.1
    · rw [hk, getKey_setKey_same, getKey_setKey_same]
    · rw [getKey_setKey_ne kv.1 k kv.2 d1 hk, getKey_setKey_ne kv.1 k kv.2 d2 hk]
      exact h

theorem countPlan_sameOnEqualKeys : SameOnEqualKeys countPlan countRows := by
  intro p hp d1 hd1 d2 hd2 k1 k2 _ _ _ binds
  have hp' : p.evaluator = column "agg1" := by
    simp only [countPlan, List.mem_singleton] at hp
    rw [hp]
  have hnone : ∀ d ∈ countRows, getKey "agg1" d = none := by
    intro d hd
    simp only [countRows, List.mem_cons, List.mem_singleton, List.not_mem_nil, or_false] at hd
    rcases hd with h | h | h <;> rw [h] <;> rfl
  have hkey := getKey_bindValues_congr "agg1" binds d1 d2
    ((hnone d1 hd1).trans (hnone d2 hd2).symm)
  rw [hp']
  simp only [column]
  rw [hkey]

theorem countRows_perm : countRows.Perm countRowsPermuted := by
  show List.Perm ([_, _] ++ [_]) ([_] ++ [_, _])
  exact List.perm_append_comm

theorem performQueryOnBuffer_perm (ep : GroupbyExecutionPlan) (rows1 rows2 : List Map)
    (st : PlanState)
    (hnofail : ∀ a b : List Value, ∃ r, ep.cmpOp (.array a) (.array b) = .ok r)
    (heqv : Equivalence (keyEquals ep))
    (hsame : SameOnEqualKeys ep rows1)
    (hperm : rows1.Perm rows2)
    (hok : (performQueryOnBuffer ep rows1 st).1 = none) :
    (performQueryOnBuffer ep rows2 st).1 = none ∧
    ((performQueryOnBuffer ep rows1 st).2.curResults.rows
        (performQueryOnBuffer ep rows1 st).2.heap).Perm
      ((performQueryOnBuffer ep rows2 st).2.curResults.rows
        (performQueryOnBuffer ep rows2 st).2.heap) := by
  obtain ⟨groups1, hg1, hout1⟩ := performQueryOnBuffer_rows ep rows1 st hok
  obtain ⟨groups2, hg2⟩ := enumeration_of_perm ep hnofail rows1 rows2 hperm groups1 hg1
  have inv1 : GroupsInv ep rows1 groups1 := by
    simpa using GroupsInv.run ep heqv rows1 [] [] groups1 (GroupsInv.init ep) hg1
  have inv2 : GroupsInv ep rows2 groups2 := by
    simpa using GroupsInv.run ep heqv rows2 [] [] groups2 (GroupsInv.init ep) hg2
  have rep1 := groups_representatives ep rows1 groups1 hg1
  have rep2 := groups_representatives ep rows2 groups2 hg2
  -- groups with equal keys have the same output row
  have halike : ∀ g1 ∈ groups1, ∀ g2 ∈ groups2, keyEquals ep g1.group g2.group →
      outputRowOf ep g1 = outputRowOf ep g2 := by
    intro g1 h1 g2 h2 hk
    apply outputRowOf_alike ep rows1 hsame
    refine ⟨?_, [], g1.nonAggData, g2.nonAggData, g1.group, g2.group, (rep1 g1 h1).1,
      hperm.mem_iff.2 (rep2 g2 h2).1, (rep1 g1 h1).2.2, (rep2 g2 h2).2.2, hk, rfl, rfl⟩
    intro id
    unfold inputCount
    rw [inv1.counts g1 h1 id, inv2.counts g2 h2 id,
      countJoining_perm ep heqv _ _ hk rows1 rows2 hperm]
  -- the groups of the two runs match one to one
  have hm1 := GroupsInv.matched ep heqv rows1 rows2 hperm groups1 groups2 inv1 inv2
  have hm2' := GroupsInv.matched ep heqv rows2 rows1 hperm.symm groups2 groups1 inv2 inv1
  have hm2 : ∀ g2 ∈ groups2, ∃ g1 ∈ groups1, keyEquals ep g1.group g2.group := by
    intro g2 h2
    obtain ⟨g1, h1, hk⟩ := hm2' g2 h2
    exact ⟨g1, h1, heqv.symm hk⟩
  have hp1 : groups1.Pairwise
      (fun a a' => ∀ b : TmpGroupData, keyEquals ep a.group b.group →
        ¬ keyEquals ep a'.group b.group) :=
    (List.pairwise_map.1 inv1.distinct).imp
      (fun hne b hab hab' => hne (heqv.trans hab (heqv.symm hab')))
  have hp2 : groups2.Pairwise
      (fun b b' => ∀ a : TmpGroupData, keyEquals ep a.group b.group →
        ¬ keyEquals ep a.group b'.group) :=
    (List.pairwise_map.1 inv2.distinct).imp
      (fun hne a hab hab' => hne (heqv.trans (heqv.symm hab) hab'))
  obtain ⟨l2, hperm2, hf2⟩ := exists_perm_of_matching
    (fun (a b : TmpGroupData) => keyEquals ep a.group b.group) groups1 groups2 hm1 hm2 hp1 hp2
  have hmap : groups1.map (outputRowOf ep) = l2.map (outputRowOf ep) :=
    map_eq_of_matching _ _ _ groups1 l2 hf2
      (fun a ha b hb hr => halike a ha b (hperm2.mem_iff.1 hb) hr)
  -- the second run succeeds
  have hall2 : ∀ g2 ∈ groups2, ∃ r, evalProjections ep ep.projections g2 [] = .ok r := by
    intro g2 h2
    obtain ⟨g1, h1, hk⟩ := hm2 g2 h2
    obtain ⟨g', out, _, hev⟩ := OutputRows.of_mem ep groups1 _ hout1 g1 h1
    have hsome : outputRowOf ep g2 = some out := by
      rw [← halike g1 h1 g2 h2 hk]
      exact (outputRowOf_eq_some ep g1 out).2 ⟨g', hev⟩
    obtain ⟨g2', hev2⟩ := (outputRowOf_eq_some ep g2 out).1 hsome
    exact ⟨_, hev2⟩
  have hok2 := performQueryOnBuffer_none_of_groups ep rows2 st groups2 hg2 hall2
  refine ⟨hok2, ?_⟩
  obtain ⟨groups2', hg2', hout2⟩ := performQueryOnBuffer_rows ep rows2 st hok2
  rw [hg2] at hg2'
  simp only [Except.ok.injEq] at hg2'
  subst hg2'
  rw [OutputRows.eq_filterMap ep groups1 _ hout1, OutputRows.eq_filterMap ep groups2 _ hout2]
  have e1 : groups1.filterMap (outputRowOf ep) = l2.filterMap (outputRowOf ep) := by
    have h1 : List.filterMap id (groups1.map (outputRowOf ep))
        = List.filterMap id (l2.map (outputRowOf ep)) := by rw [hmap]
    rw [List.filterMap_map, List.filterMap_map] at h1
    exact h1
  rw [e1]
  exact hperm2.filterMap (outputRowOf ep)

theorem SameOnEqualKeys.perm (ep : GroupbyExecutionPlan) (rows1 rows2 : List Map)
    (hperm : rows1.Perm rows2) (hsame : SameOnEqualKeys ep rows1) : SameOnEqualKeys ep rows2 :=
  fun p hp d1 hd1 d2 hd2 =>
    hsame p hp d1 (hperm.mem_iff.2 hd1) d2 (hperm.mem_iff.2 hd2)

/-- C29. If key equality never fails and is an equivalence relation, and every
projection evaluates to the same result on any two buffered rows with equal
grouping keys once the same values are bound in them, then the run on the rows
in another order of enumeration succeeds exactly when the run on the rows
succeeds, and the rows that it then leaves in `curResults` are a permutation of
the rows that the latter leaves there. -/
theorem permuted_rows_permute_output (ep : GroupbyExecutionPlan) (rows1 rows2 : List Map)
    (st : PlanState)
    (hnofail : ∀ a b : List Value, ∃ r, ep.cmpOp (.array a) (.array b) = .ok r)
    (heqv : Equivalence (keyEquals ep))
    (hsame : SameOnEqualKeys ep rows1)
    (hperm : rows1.Perm rows2) :
    ((performQueryOnBuffer ep rows1 st).1 = none ↔ (performQueryOnBuffer ep rows2 st).1 = none) ∧
    ((performQueryOnBuffer ep rows1 st).1 = none →
      ((performQueryOnBuffer ep rows1 st).2.curResults.rows
          (performQueryOnBuffer ep rows1 st).2.heap).Perm
        ((performQueryOnBuffer ep rows2 st).2.curResults.rows
          (performQueryOnBuffer ep rows2 st).2.heap)) :=
  ⟨⟨fun hok => (performQueryOnBuffer_perm ep rows1 rows2 st hnofail heqv hsame hperm hok).1,
      fun hok => (performQueryOnBuffer_perm ep rows2 rows1 st hnofail heqv
        (SameOnEqualKeys.perm ep rows1 rows2 hperm hsame) hperm.symm hok).1⟩,
    fun hok => (performQueryOnBuffer_perm ep rows1 rows2 st hnofail heqv hsame hperm hok).2⟩

/-- The statement of C29 at the scenario: the rows enumerated as `y, x, x`
instead of `x, x, y` give `{c:1}, {c:2}` instead of `{c:2}, {c:1}`. -/
theorem permuted_rows_permute_output_witness :
    (performQueryOnBuffer countPlan countRows emptyState).2.curResults.rows
        (performQueryOnBuffer countPlan countRows emptyState).2.heap
      = [[("c", .int 2)], [("c", .int 1)]] ∧
    (performQueryOnBuffer countPlan countRowsPermuted emptyState).2.curResults.rows
        (performQueryOnBuffer countPlan countRowsPermuted emptyState).2.heap
      = [[("c", .int 1)], [("c", .int 2)]] ∧
    ((performQueryOnBuffer countPlan countRows emptyState).2.curResults.rows
        (performQueryOnBuffer countPlan countRows emptyState).2.heap).Perm
      ((performQueryOnBuffer countPlan countRowsPermuted emptyState).2.curResults.rows
        (performQueryOnBuffer countPlan countRowsPermuted emptyState).2.heap) :=
  ⟨rfl, rfl,
    (permuted_rows_permute_output countPlan countRows countRowsPermuted emptyState
      countPlan_cmpOp_total countPlan_keyEquivalence countPlan_sameOnEqualKeys
      countRows_perm).2 rfl⟩

end Execution

namespace Core

open Execution (getKey setKey deleteKey)

open DefaultDynamicTopology

/-! ## Lists and registries -/

theorem modifyAt_length {α : Type} (f : α → α) : ∀ (n : Nat) (l : List α),
    (modifyAt f n l).length = l.length := by
  intro n l
  induction l generalizing n with
  | nil => cases n <;> rfl
  | cons x l ih =>
    cases n with
    | zero => rfl
    | succ m => simp [modifyAt, ih]

theorem modifyAt_get? {α : Type} (f : α → α) : ∀ (n : Nat) (l : List α) (i : Nat),
    (modifyAt f n l).get? i = if i = n then (l.get? i).map f else l.get? i := by
  intro n l
  induction l generalizing n with
  | nil => intro i; cases n <;> simp [modifyAt]
  | cons x l ih =>
    intro i
    cases n with
    | zero =>
      cases i with
      | zero => simp [modifyAt]
      | succ j => simp [modifyAt]
    | succ m =>
      cases i with
      | zero => simp [modifyAt]
      | succ j =>
        simp only [modifyAt, List.get?_cons_succ, ih m j, Nat.add_right_cancel_iff]

theorem mem_of_getKey {α : Type} (k : String) (v : α) :
    ∀ l : List (String × α), getKey k l = some v → (k, v) ∈ l := by
  intro l
  induction l with
  | nil => intro h; simp [getKey] at h
  | cons e l ih =>
    obtain ⟨k', v'⟩ := e
    intro h
    by_cases hk : k' = k
    · subst hk
      simp only [getKey, if_true, Option.some.injEq] at h
      subst h
      exact List.mem_cons_self _ _
    · simp only [getKey, hk, if_false] at h
      exact List.mem_cons_of_mem _ (ih h)

theorem getKey_of_mem {α : Type} (k : String) (v : α) :
    ∀ l : List (String × α), (l.map (fun e => e.1)).Nodup → (k, v) ∈ l →
      getKey k l = some v := by
  intro l
  induction l with
  | nil => intro _ h; cases h
  | cons e l ih =>
    obtain ⟨k', v'⟩ := e
    intro hnd h
    simp only [List.map_cons, List.nodup_cons, List.mem_map, not_exists, not_and] at hnd
    rcases List.mem_cons.1 h with heq | hmem
    · simp only [Prod.mk.injEq] at heq
      obtain ⟨rfl, rfl⟩ := heq
      simp [getKey]
    · have hk : k' ≠ k := fun e => hnd.1 (k, v) hmem e.symm
      simp only [getKey, hk, if_false]
      exact ih hnd.2 hmem

theorem getKey_none_iff {α : Type} (k : String) :
    ∀ l : List (String × α), getKey k l = none ↔ k ∉ l.map (fun e => e.1) := by
  intro l
  induction l with
  | nil => simp [getKey]
  | cons e l ih =>
    obtain ⟨k', v'⟩ := e
    by_cases hk : k' = k
    · subst hk
      simp [getKey]
    · simp only [getKey, hk, if_false, ih, List.map_cons, List.mem_cons, not_or]
      constructor
      · intro h
        exact ⟨fun e => hk e.symm, h⟩
      · intro h
        exact h.2

theorem setKey_of_absent {α : Type} (k : String) (v : α) :
    ∀ l : List (String × α), getKey k l = none → setKey k v l = l ++ [(k, v)] := by
  intro l
  induction l with
  | nil => intro _; rfl
  | cons e l ih =>
    obtain ⟨k', v'⟩ := e
    intro h
    by_cases hk : k' = k
    · subst hk
      simp [getKey] at h
    · simp only [getKey, hk, if_false] at h
      simp [setKey, hk, ih h]

theorem deleteKey_eq_filter {α : Type} (k : String) :
    ∀ l : List (String × α), deleteKey k l = l.filter (fun e => decide (e.1 ≠ k)) := by
  intro l
  induction l with
  | nil => rfl
  | cons e l ih =>
    obtain ⟨k', v'⟩ := e
    by_cases hk : k' = k
    · subst hk
      simp [deleteKey, ih]
    · simp [deleteKey, hk, ih]

theorem keys_deleteKey_nodup {α : Type} (k : String) (l : List (String × α))
    (h : (l.map (fun e => e.1)).Nodup) : ((deleteKey k l).map (fun e => e.1)).Nodup := by
  rw [deleteKey_eq_filter]
  exact h.sublist ((List.filter_sublist l).map _)

/-! ## What a call keeps -/

theorem KeepsWrappers.same (ws : List NodeWrapper) : KeepsWrappers ws ws :=
  fun _ w hw => ⟨w, hw, rfl, rfl⟩

theorem KeepsWrappers.chain {a b c : List NodeWrapper} (h1 : KeepsWrappers a b)
    (h2 : KeepsWrappers b c) : KeepsWrappers a c := by
  intro h w hw
  obtain ⟨w1, hw1, hk1, hn1⟩ := h1 h w hw
  obtain ⟨w2, hw2, hk2, hn2⟩ := h2 h w1 hw1
  exact ⟨w2, hw2, hk2.trans hk1, hn2.trans hn1⟩

theorem KeepsWrappers.modifyAt (f : NodeWrapper → NodeWrapper)
    (hf : ∀ w, (f w).kind = w.kind ∧ (f w).name = w.name) (n : Nat) (ws : List NodeWrapper) :
    KeepsWrappers ws (modifyAt f n ws) := by
  intro h w hw
  rw [modifyAt_get?]
  by_cases hn : h = n
  · simp only [hn, if_true]
    rw [← hn, hw]
    exact ⟨f w, rfl, (hf w).1, (hf w).2⟩
  · simp only [hn, if_false]
    exact ⟨w, hw, rfl, rfl⟩

theorem KeepsWrappers.map (f : NodeWrapper → NodeWrapper)
    (hf : ∀ w, (f w).kind = w.kind ∧ (f w).name = w.name) (ws : List NodeWrapper) :
    KeepsWrappers ws (ws.map f) := by
  intro h w hw
  refine ⟨f w, ?_, (hf w).1, (hf w).2⟩
  simp [List.get?_eq_getElem?] at hw ⊢
  exact ⟨w, hw, rfl⟩

theorem KeepsWrappers.append (ws extra : List NodeWrapper) : KeepsWrappers ws (ws ++ extra) := by
  intro h w hw
  refine ⟨w, ?_, rfl, rfl⟩
  simp only [List.get?_eq_getElem?] at hw ⊢
  have hlt : h < ws.length := by
    by_contra hge
    rw [List.getElem?_eq_none (not_lt.1 hge)] at hw
    cases hw
  rw [List.getElem?_append_left hlt]
  exact hw

theorem stopWrapper_keeps (w : NodeWrapper) :
    (stopWrapper w).kind = w.kind ∧ (stopWrapper w).name = w.name := by
  unfold stopWrapper
  split <;> exact ⟨rfl, rfl⟩

theorem stopWrapper_state (w : NodeWrapper) : (stopWrapper w).state = .TSStopped := by
  unfold stopWrapper
  split
  · assumption
  · rfl

theorem stopAll_keeps (l : List (String × Nat)) : ∀ ws : List NodeWrapper,
    KeepsWrappers ws (l.foldl (fun ws e => modifyAt stopWrapper e.2 ws) ws) := by
  induction l with
  | nil => intro ws; exact KeepsWrappers.same ws
  | cons e l ih =>
    intro ws
    simp only [List.foldl_cons]
    exact (KeepsWrappers.modifyAt stopWrapper stopWrapper_keeps e.2 ws).chain (ih _)

namespace DefaultDynamicTopology

theorem addNode_ok (kind : NodeKind) (name : String) (t : DefaultDynamicTopology) (h : Nat)
    (t' : DefaultDynamicTopology) (hadd : addNode kind name t = .ok (h, t')) :
    t.state ≠ .TSStopping ∧ t.state ≠ .TSStopped ∧ getKey name t.nodes = none ∧
    h = t.wrappers.length ∧
    t' = { t with
           wrappers := t.wrappers ++
             [{ name := name, kind := kind, state := .TSRunning, inputs := [],
                terminateCnt := 0, closeCnt := 0 }]
           nodes := setKey name t.wrappers.length t.nodes } := by
  unfold addNode at hadd
  by_cases hs : t.state = .TSStopping ∨ t.state = .TSStopped
  · simp only [hs, if_true] at hadd
    cases hadd
  · simp only [hs, if_false] at hadd
    cases hk : getKey name t.nodes with
    | some x => rw [hk] at hadd; cases hadd
    | none =>
      rw [hk] at hadd
      simp only [Except.ok.injEq, Prod.mk.injEq] at hadd
      simp only [not_or] at hs
      exact ⟨hs.1, hs.2, rfl, hadd.1.symm, hadd.2.symm⟩

theorem addNode_of_free (kind : NodeKind) (name : String) (t : DefaultDynamicTopology)
    (h1 : t.state ≠ .TSStopping) (h2 : t.state ≠ .TSStopped)
    (hk : getKey name t.nodes = none) :
    addNode kind name t = .ok (t.wrappers.length,
      { t with
        wrappers := t.wrappers ++
          [{ name := name, kind := kind, state := .TSRunning, inputs := [],
             terminateCnt := 0, closeCnt := 0 }]
        nodes := setKey name t.wrappers.length t.nodes }) := by
  unfold addNode
  simp [h1, h2, hk]

theorem addNode_error (kind : NodeKind) (name : String) (t : DefaultDynamicTopology) :
    (∃ e, addNode kind name t = .error e) ↔
      (t.state = .TSStopping ∨ t.state = .TSStopped) ∨ ∃ h, getKey name t.nodes = some h := by
  unfold addNode
  by_cases hs : t.state = .TSStopping ∨ t.state = .TSStopped
  · simp [hs]
  · simp only [hs, if_false, false_or]
    cases hk : getKey name t.nodes with
    | some x => simp
    | none => simp

/-- What `addNode` leaves of the topology when it fails or succeeds. -/
theorem addNode_apply (kind : NodeKind) (name : String) (t : DefaultDynamicTopology) :
    (match addNode kind name t with | .ok r => r.2 | .error _ => t) = t ∨
    (t.state ≠ .TSStopping ∧ t.state ≠ .TSStopped ∧ getKey name t.nodes = none ∧
      (match addNode kind name t with | .ok r => r.2 | .error _ => t)
        = { t with
            wrappers := t.wrappers ++
              [{ name := name, kind := kind, state := .TSRunning, inputs := [],
                 terminateCnt := 0, closeCnt := 0 }]
            nodes := setKey name t.wrappers.length t.nodes }) := by
  cases hadd : addNode kind name t with
  | error e => exact Or.inl rfl
  | ok r =>
    obtain ⟨h, t'⟩ := r
    obtain ⟨h1, h2, hk, _, ht'⟩ := addNode_ok kind name t h t' hadd
    exact Or.inr ⟨h1, h2, hk, ht'⟩

end DefaultDynamicTopology

theorem stopAll_length (l : List (String × Nat)) : ∀ ws : List NodeWrapper,
    (l.foldl (fun ws e => modifyAt stopWrapper e.2 ws) ws).length = ws.length := by
  induction l with
  | nil => intro ws; rfl
  | cons e l ih =>
    intro ws
    simp only [List.foldl_cons]
    rw [ih, modifyAt_length]

theorem DynamicCall.effect (c : DynamicCall) (t : DefaultDynamicTopology) :
    CallEffect c t (c.apply t) := by
  cases c with
  | addSource name =>
    rcases DefaultDynamicTopology.addNode_apply .source name t with h | ⟨h1, h2, hk, h⟩
    · exact .same h
    · exact .added .source name (by simp [DynamicCall.adds]) h1 h2 hk h
  | addBox name =>
    rcases DefaultDynamicTopology.addNode_apply .box name t with h | ⟨h1, h2, hk, h⟩
    · exact .same h
    · exact .added .box name (by simp [DynamicCall.adds]) h1 h2 hk h
  | addSink name =>
    rcases DefaultDynamicTopology.addNode_apply .sink name t with h | ⟨h1, h2, hk, h⟩
    · exact .same h
    · exact .added .sink name (by simp [DynamicCall.adds]) h1 h2 hk h
  | remove name =>
    simp only [DynamicCall.apply]
    cases hr : t.Remove name with
    | error e => exact .same rfl
    | ok t' =>
      show CallEffect (.remove name) t t'
      unfold DefaultDynamicTopology.Remove at hr
      cases hk : getKey name t.nodes with
      | none => rw [hk] at hr; cases hr
      | some hd =>
        rw [hk] at hr
        simp only [Except.ok.injEq] at hr
        subst hr
        refine .removed name hd (by simp [DynamicCall.removes]) hk rfl rfl ?_ ?_
        · have k1 := KeepsWrappers.modifyAt (fun w => { stopWrapper w with inputs := [] })
            (fun w => ⟨(stopWrapper_keeps w).1, (stopWrapper_keeps w).2⟩) hd t.wrappers
          have k2 := KeepsWrappers.map
            (fun w : NodeWrapper => { w with inputs := w.inputs.filter (fun u => u ≠ name) })
            (fun w => ⟨rfl, rfl⟩)
            (modifyAt (fun w => { stopWrapper w with inputs := [] }) hd t.wrappers)
          exact k1.chain k2
        · simp [modifyAt_length]
  | stop =>
    simp only [DynamicCall.apply, DefaultDynamicTopology.Stop]
    by_cases hs : t.state = .TSStopped
    · simp only [hs, if_true]
      exact .same rfl
    · simp only [hs, if_false]
      exact .touched (Or.inr rfl) rfl (stopAll_keeps t.nodes t.wrappers)
        (stopAll_length t.nodes t.wrappers)
  | stopNode h =>
    exact .touched (Or.inl rfl) rfl (KeepsWrappers.modifyAt _ stopWrapper_keeps h t.wrappers)
      (modifyAt_length _ _ _)
  | input h refname =>
    simp only [DynamicCall.apply]
    cases hr : t.Input h refname with
    | error e => exact .same rfl
    | ok t' =>
      show CallEffect (.input h refname) t t'
      unfold DefaultDynamicTopology.Input at hr
      cases hk : getKey refname t.nodes with
      | none => rw [hk] at hr; cases hr
      | some up =>
        rw [hk] at hr
        simp only at hr
        cases hw : t.wrappers.get? h with
        | none => rw [hw] at hr; cases hr
        | some w =>
          rw [hw] at hr
          simp only at hr
          by_cases h1 : t.kindOf up = some .sink ∨ w.kind = .source
          · simp only [h1, if_true] at hr
            cases hr
          · simp only [h1, if_false] at hr
            by_cases h2 : refname ∈ w.inputs
            · simp only [h2, if_true] at hr
              cases hr
            · simp only [h2, if_false, Except.ok.injEq] at hr
              subst hr
              exact .touched (Or.inl rfl) rfl
                (KeepsWrappers.modifyAt
                  (fun w : NodeWrapper => { w with inputs := w.inputs ++ [refname] })
                  (fun w => ⟨rfl, rfl⟩) h t.wrappers)
                (modifyAt_length _ _ _)

/-! ## The registry along the calls -/

theorem CallEffect.keeps {c : DynamicCall} {t t' : DefaultDynamicTopology}
    (e : CallEffect c t t') : KeepsWrappers t.wrappers t'.wrappers := by
  cases e with
  | same h => rw [h]; exact KeepsWrappers.same _
  | added kind name hc h1 h2 hk h => rw [h]; exact KeepsWrappers.append _ _
  | removed name hd hc hk hs hn hw hlen => exact hw
  | touched hs hn hw hlen => exact hw

theorem CallEffect.stopped {c : DynamicCall} {t t' : DefaultDynamicTopology}
    (e : CallEffect c t t') (hst : t.state = .TSStopped) : t'.state = .TSStopped := by
  cases e with
  | same h => rw [h]; exact hst
  | added kind name hc h1 h2 hk h => exact absurd hst h2
  | removed name hd hc hk hs hn hw hlen => rw [hs]; exact hst
  | touched hs hn hw hlen =>
    rcases hs with hs | hs
    · rw [hs]; exact hst
    · exact hs

theorem CallEffect.registered {c : DynamicCall} {t t' : DefaultDynamicTopology}
    (e : CallEffect c t t') (name : String) (h : Nat) (hk : getKey name t.nodes = some h)
    (hc : c.removes name = false) : getKey name t'.nodes = some h := by
  cases e with
  | same h' => rw [h']; exact hk
  | added kind name' hc' h1 h2 hk' h' =>
    rw [h']
    have hne : name ≠ name' := by
      intro e
      rw [e, hk'] at hk
      cases hk
    show getKey name (setKey name' t.wrappers.length t.nodes) = some h
    rw [Execution.getKey_setKey_ne _ _ _ _ hne]
    exact hk
  | removed name' hd hc' hk' hs hn hw hlen =>
    have hne : name ≠ name' := by
      intro e
      subst e
      rw [hc] at hc'
      cases hc'
    rw [hn, Execution.getKey_deleteKey_ne _ _ _ hne]
    exact hk
  | touched hs hn hw hlen => rw [hn]; exact hk

theorem CallEffect.unregistered {c : DynamicCall} {t t' : DefaultDynamicTopology}
    (e : CallEffect c t t') (name : String) (hk : getKey name t.nodes = none)
    (hc : c.adds name = false) : getKey name t'.nodes = none := by
  cases e with
  | same h' => rw [h']; exact hk
  | added kind name' hc' h1 h2 hk' h' =>
    rw [h']
    have hne : name ≠ name' := by
      intro e
      subst e
      rw [hc] at hc'
      cases hc'
    show getKey name (setKey name' t.wrappers.length t.nodes) = none
    rw [Execution.getKey_setKey_ne _ _ _ _ hne]
    exact hk
  | removed name' hd hc' hk' hs hn hw hlen =>
    rw [hn]
    by_cases hne : name = name'
    · rw [hne]; exact Execution.getKey_deleteKey_same _ _
    · rw [Execution.getKey_deleteKey_ne _ _ _ hne]; exact hk
  | touched hs hn hw hlen => rw [hn]; exact hk

theorem CallEffect.inv {c : DynamicCall} {t t' : DefaultDynamicTopology}
    (e : CallEffect c t t') (inv : RegistryInv t) : RegistryInv t' := by
  have hkeep := e.keeps
  cases e with
  | same h => rw [h]; exact inv
  | added kind name hc h1 h2 hk h =>
    subst h
    constructor
    · show ((setKey name t.wrappers.length t.nodes).map (fun e => e.1)).Nodup
      rw [setKey_of_absent _ _ _ hk, List.map_append]
      refine List.Nodup.append inv.keys (by simp) ?_
      intro a ha hb
      simp only [List.map_cons, List.map_nil, List.mem_singleton] at hb
      subst hb
      exact (getKey_none_iff _ _).1 hk ha
    · intro name' h' hk'
      have hk'' : getKey name' (setKey name t.wrappers.length t.nodes) = some h' := hk'
      by_cases hne : name' = name
      · subst hne
        rw [Execution.getKey_setKey_same] at hk''
        simp only [Option.some.injEq] at hk''
        subst hk''
        refine ⟨{ name := name', kind := kind, state := .TSRunning, inputs := [],
                  terminateCnt := 0, closeCnt := 0 }, ?_, rfl⟩
        show (t.wrappers ++ _).get? t.wrappers.length = _
        simp only [List.get?_eq_getElem?, List.getElem?_append_right (le_refl _),
          Nat.sub_self, List.getElem?_cons_zero]
      · rw [Execution.getKey_setKey_ne _ _ _ _ hne] at hk''
        obtain ⟨w, hw, hn⟩ := inv.bound name' h' hk''
        obtain ⟨w', hw', _, hn'⟩ := hkeep h' w hw
        exact ⟨w', hw', hn'.trans hn⟩
  | removed name hd hc hk hs hn hw hlen =>
    constructor
    · rw [hn]; exact keys_deleteKey_nodup name t.nodes inv.keys
    · intro name' h' hk'
      rw [hn] at hk'
      by_cases hne : name' = name
      · subst hne
        rw [Execution.getKey_deleteKey_same] at hk'
        cases hk'
      · rw [Execution.getKey_deleteKey_ne _ _ _ hne] at hk'
        obtain ⟨w, hw0, hn0⟩ := inv.bound name' h' hk'
        obtain ⟨w', hw', _, hn'⟩ := hkeep h' w hw0
        exact ⟨w', hw', hn'.trans hn0⟩
  | touched hs hn hw hlen =>
    constructor
    · rw [hn]; exact inv.keys
    · intro name' h' hk'
      rw [hn] at hk'
      obtain ⟨w, hw0, hn0⟩ := inv.bound name' h' hk'
      obtain ⟨w', hw', _, hn'⟩ := hkeep h' w hw0
      exact ⟨w', hw', hn'.trans hn0⟩

theorem runCalls_cons (c : DynamicCall) (calls : List DynamicCall) (t : DefaultDynamicTopology) :
    runCalls (c :: calls) t = runCalls calls (c.apply t) := rfl

theorem runCalls_inv : ∀ (calls : List DynamicCall) (t : DefaultDynamicTopology),
    RegistryInv t → RegistryInv (runCalls calls t) := by
  intro calls
  induction calls with
  | nil => intro t h; exact h
  | cons c calls ih =>
    intro t h
    rw [runCalls_cons]
    exact ih _ ((c.effect t).inv h)

theorem newTopology_inv : RegistryInv NewDefaultDynamicTopology :=
  { keys := by simp [NewDefaultDynamicTopology]
    bound := by intro name h hk; simp [NewDefaultDynamicTopology, getKey] at hk }

theorem runCalls_keeps : ∀ (calls : List DynamicCall) (t : DefaultDynamicTopology),
    KeepsWrappers t.wrappers (runCalls calls t).wrappers := by
  intro calls
  induction calls with
  | nil => intro t; exact KeepsWrappers.same _
  | cons c calls ih =>
    intro t
    rw [runCalls_cons]
    exact (c.effect t).keeps.chain (ih _)

theorem runCalls_stopped : ∀ (calls : List DynamicCall) (t : DefaultDynamicTopology),
    t.state = .TSStopped → (runCalls calls t).state = .TSStopped := by
  intro calls
  induction calls with
  | nil => intro t h; exact h
  | cons c calls ih =>
    intro t h
    rw [runCalls_cons]
    exact ih _ ((c.effect t).stopped h)

theorem runCalls_registered : ∀ (calls : List DynamicCall) (t : DefaultDynamicTopology)
    (name : String) (h : Nat), getKey name t.nodes = some h →
    (∀ c ∈ calls, c.removes name = false) → getKey name (runCalls calls t).nodes = some h := by
  intro calls
  induction calls with
  | nil => intro t name h hk _; exact hk
  | cons c calls ih =>
    intro t name h hk hc
    rw [runCalls_cons]
    exact ih _ name h ((c.effect t).registered name h hk (hc c (List.mem_cons_self _ _)))
      (fun c' hc' => hc c' (List.mem_cons_of_mem _ hc'))

theorem runCalls_unregistered : ∀ (calls : List DynamicCall) (t : DefaultDynamicTopology)
    (name : String), getKey name t.nodes = none →
    (∀ c ∈ calls, c.adds name = false) → getKey name (runCalls calls t).nodes = none := by
  intro calls
  induction calls with
  | nil => intro t name hk _; exact hk
  | cons c calls ih =>
    intro t name hk hc
    rw [runCalls_cons]
    exact ih _ name ((c.effect t).unregistered name hk (hc c (List.mem_cons_self _ _)))
      (fun c' hc' => hc c' (List.mem_cons_of_mem _ hc'))

/-! ## Adding nodes -/

namespace DefaultDynamicTopology

theorem Node_ok (name : String) (t : DefaultDynamicTopology) (h : Nat) :
    t.Node name = .ok h ↔ getKey name t.nodes = some h := by
  unfold Node
  cases getKey name t.nodes <;> simp

theorem Node_error (name : String) (t : DefaultDynamicTopology) :
    (∃ e, t.Node name = .error e) ↔ getKey name t.nodes = none := by
  unfold Node
  cases getKey name t.nodes <;> simp

theorem typedNode_ok (kind : NodeKind) (name : String) (t : DefaultDynamicTopology) (h : Nat) :
    typedNode kind name t = .ok h ↔ getKey name t.nodes = some h ∧ t.kindOf h = some kind := by
  unfold typedNode
  cases hk : getKey name t.nodes with
  | none => simp
  | some h' =>
    by_cases hkind : t.kindOf h' = some kind
    · simp only [hkind, if_true, Except.ok.injEq, Option.some.injEq]
      constructor
      · intro e; subst e; exact ⟨rfl, hkind⟩
      · intro e; exact e.1
    · simp only [hkind, if_false, Option.some.injEq]
      constructor
      · intro e; cases e
      · rintro ⟨e, hk2⟩
        subst e
        exact absurd hk2 hkind

theorem typedNode_error_of_absent (kind : NodeKind) (name : String)
    (t : DefaultDynamicTopology) (hk : getKey name t.nodes = none) :
    typedNode kind name t = .error .NoSuchNode := by
  unfold typedNode
  rw [hk]

end DefaultDynamicTopology

/-- C13 as stated fails on a stopped topology: after `Stop()` on a new topology
no node is named `test_source`, and `AddSource("test_source")` fails all the
same. -/
theorem add_fails_on_stopped_topology :
    (∃ e, NewDefaultDynamicTopology.Stop.AddSource "test_source" = .error e) ∧
    (¬ ∃ h, NewDefaultDynamicTopology.Stop.Node "test_source" = .ok h) ∧
    ¬ ((∃ e, NewDefaultDynamicTopology.Stop.AddSource "test_source" = .error e) ↔
        ∃ h, NewDefaultDynamicTopology.Stop.Node "test_source" = .ok h) := by
  have h1 : ∃ e, NewDefaultDynamicTopology.Stop.AddSource "test_source" = .error e :=
    ⟨.TopologyStopped, rfl⟩
  have h2 : ¬ ∃ h, NewDefaultDynamicTopology.Stop.Node "test_source" = .ok h := by
    rintro ⟨h, hh⟩
    cases hh
  exact ⟨h1, h2, fun hiff => h2 (hiff.1 h1)⟩

/-- C13, amended. In a dynamic topology that is neither Stopping nor Stopped,
each of `AddSource`, `AddBox` and `AddSink` fails if and only if a node with the
name exists already, whatever the kind of that node is. -/
theorem add_fails_iff_name_taken (t : DefaultDynamicTopology) (name : String)
    (h1 : t.state ≠ .TSStopping) (h2 : t.state ≠ .TSStopped) :
    ((∃ e, t.AddSource name = .error e) ↔ ∃ h, t.Node name = .ok h) ∧
    ((∃ e, t.AddBox name = .error e) ↔ ∃ h, t.Node name = .ok h) ∧
    ((∃ e, t.AddSink name = .error e) ↔ ∃ h, t.Node name = .ok h) := by
  have key : ∀ kind, (∃ e, addNode kind name t = .error e) ↔ ∃ h, t.Node name = .ok h := by
    intro kind
    rw [addNode_error]
    simp only [h1, h2, or_self, false_or, Node_ok]
  exact ⟨key .source, key .box, key .sink⟩

/-- The statement of C13, amended, at the linear topology of the tests. -/
theorem add_fails_iff_name_taken_witness :
    linearTopology.state ≠ .TSStopping ∧ linearTopology.state ≠ .TSStopped ∧
    ((∃ e, linearTopology.AddSource "box1" = .error e) ↔
      ∃ h, linearTopology.Node "box1" = .ok h) ∧
    ((∃ e, linearTopology.AddBox "box1" = .error e) ↔
      ∃ h, linearTopology.Node "box1" = .ok h) ∧
    ((∃ e, linearTopology.AddSink "box1" = .error e) ↔
      ∃ h, linearTopology.Node "box1" = .ok h) :=
  ⟨by decide, by decide,
    add_fails_iff_name_taken linearTopology "box1" (by decide) (by decide)⟩

/-- C16. Once a dynamic topology has been stopped, and whatever is called on it
afterwards, `AddSource`, `AddBox` and `AddSink` fail for every name. -/
theorem stopped_topology_refuses_nodes (t : DefaultDynamicTopology) (calls : List DynamicCall)
    (name : String) :
    (runCalls calls t.Stop).AddSource name = .error .TopologyStopped ∧
    (runCalls calls t.Stop).AddBox name = .error .TopologyStopped ∧
    (runCalls calls t.Stop).AddSink name = .error .TopologyStopped := by
  have hstop : t.Stop.state = .TSStopped := by
    unfold Stop
    by_cases hs : t.state = .TSStopped
    · simp [hs]
    · simp [hs]
  have hst := runCalls_stopped calls t.Stop hstop
  have key : ∀ kind, addNode kind name (runCalls calls t.Stop) = .error .TopologyStopped := by
    intro kind
    unfold addNode
    simp [hst]
  exact ⟨key .source, key .box, key .sink⟩

/-- C20. In a running dynamic topology, adding a source, a box or a sink under a
free name succeeds, and every node that has been added is Running when the call
returns. -/
theorem added_node_is_running (t : DefaultDynamicTopology) (kind : NodeKind) (name : String)
    (hrun : t.state = .TSRunning) :
    ((∀ h, t.Node name ≠ .ok h) → ∃ h t', addNode kind name t = .ok (h, t')) ∧
    (∀ h t', addNode kind name t = .ok (h, t') → t'.stateOf h = some .TSRunning) ∧
    (∀ h t', t.AddSource name = .ok (h, t') → t'.stateOf h = some .TSRunning) ∧
    (∀ h t', t.AddBox name = .ok (h, t') → t'.stateOf h = some .TSRunning) ∧
    (∀ h t', t.AddSink name = .ok (h, t') → t'.stateOf h = some .TSRunning) := by
  have key : ∀ kind h t', addNode kind name t = .ok (h, t') →
      t'.stateOf h = some .TSRunning := by
    intro kind h t' hadd
    obtain ⟨_, _, _, hh, ht'⟩ := addNode_ok kind name t h t' hadd
    subst hh ht'
    simp only [stateOf, List.get?_eq_getElem?, List.getElem?_append_right (le_refl _),
      Nat.sub_self, List.getElem?_cons_zero, Option.map_some']
  refine ⟨?_, key kind, key .source, key .box, key .sink⟩
  intro hfree
  have hk : getKey name t.nodes = none := by
    cases hk : getKey name t.nodes with
    | none => rfl
    | some h => exact absurd ((Node_ok name t h).2 hk) (hfree h)
  exact ⟨_, _, addNode_of_free kind name t (by rw [hrun]; decide) (by rw [hrun]; decide) hk⟩

/-- The statement of C20 at a sink added to the linear topology of the tests. -/
theorem added_node_is_running_witness :
    linearTopology.state = .TSRunning ∧
    (∀ h t', linearTopology.AddSink "sink2" = .ok (h, t') → t'.stateOf h = some .TSRunning) ∧
    ∃ h t', linearTopology.AddSink "sink2" = .ok (h, t') ∧ t'.stateOf h = some .TSRunning :=
  ⟨by decide,
    (added_node_is_running linearTopology .sink "sink2" (by decide)).2.2.2.2,
    ⟨_, _, rfl, by decide⟩⟩

/-! ## Looking nodes up -/

theorem kindOf_of_get (t : DefaultDynamicTopology) (h : Nat) (w : NodeWrapper)
    (hw : t.wrappers.get? h = some w) : t.kindOf h = some w.kind := by
  unfold kindOf
  rw [hw]
  rfl

theorem kindOf_keeps {ws ws' : List NodeWrapper} (hk : KeepsWrappers ws ws')
    (t t' : DefaultDynamicTopology) (ht : t.wrappers = ws) (ht' : t'.wrappers = ws')
    (h : Nat) (k : NodeKind) (hkind : t.kindOf h = some k) : t'.kindOf h = some k := by
  unfold kindOf at hkind ⊢
  rw [ht] at hkind
  rw [ht']
  cases hw : ws.get? h with
  | none => rw [hw] at hkind; cases hkind
  | some w =>
    rw [hw] at hkind
    simp only [Option.map_some', Option.some.injEq] at hkind
    obtain ⟨w', hw', hk', _⟩ := hk h w hw
    rw [hw']
    simp [hk', hkind]

/-- C17. A node added to a dynamic topology under a name is found, as long as
no call removes that name, by `Node(name)` and by the typed lookup of its own
kind, which return the added node, while the typed lookups of the other kinds
fail; and in a topology on which no call has added a name, every lookup of that
name fails. -/
theorem added_node_is_found :
    (∀ (t t' : DefaultDynamicTopology) (kind : NodeKind) (name : String) (h : Nat)
        (calls : List DynamicCall),
      addNode kind name t = .ok (h, t') → (∀ c ∈ calls, c.removes name = false) →
      (runCalls calls t').Node name = .ok h ∧
      typedNode kind name (runCalls calls t') = .ok h ∧
      ∀ k, k ≠ kind → ∃ e, typedNode k name (runCalls calls t') = .error e) ∧
    (∀ (calls : List DynamicCall) (name : String), (∀ c ∈ calls, c.adds name = false) →
      (runCalls calls NewDefaultDynamicTopology).Node name = .error .NoSuchNode ∧
      ∀ k, typedNode k name (runCalls calls NewDefaultDynamicTopology) = .error .NoSuchNode) := by
  constructor
  · intro t t' kind name h calls hadd hkeep
    obtain ⟨_, _, _, hh, ht'⟩ := addNode_ok kind name t h t' hadd
    have hreg0 : getKey name t'.nodes = some h := by
      rw [ht', hh]
      exact Execution.getKey_setKey_same _ _ _
    have hkind0 : t'.kindOf h = some kind := by
      rw [ht', hh]
      simp only [kindOf, List.get?_eq_getElem?, List.getElem?_append_right (le_refl _),
        Nat.sub_self, List.getElem?_cons_zero, Option.map_some']
    have hreg := runCalls_registered calls t' name h hreg0 hkeep
    have hkind := kindOf_keeps (runCalls_keeps calls t') t' (runCalls calls t') rfl rfl h kind
      hkind0
    refine ⟨(Node_ok _ _ _).2 hreg, (typedNode_ok _ _ _ _).2 ⟨hreg, hkind⟩, ?_⟩
    intro k hk
    refine ⟨.WrongKind, ?_⟩
    unfold typedNode
    rw [hreg]
    simp only [hkind, Option.some.injEq]
    rw [if_neg (fun e => hk e.symm)]
  · intro calls name hnever
    have hk : getKey name (runCalls calls NewDefaultDynamicTopology).nodes = none :=
      runCalls_unregistered calls NewDefaultDynamicTopology name rfl hnever
    refine ⟨?_, fun k => typedNode_error_of_absent k name _ hk⟩
    unfold Node
    rw [hk]

/-- The statement of C17 at `box1` of the linear topology of the tests, which is
added after `source` and before `box2` and `sink`, and at the name `source1`,
which that topology has never had. -/
theorem added_node_is_found_witness :
    (runCalls [.addSource "source"] NewDefaultDynamicTopology).AddBox "box1"
      = .ok (1, runCalls [.addSource "source", .addBox "box1"] NewDefaultDynamicTopology) ∧
    (linearTopology.Node "box1" = .ok 1 ∧ linearTopology.Box "box1" = .ok 1 ∧
      ∀ k, k ≠ NodeKind.box → ∃ e, typedNode k "box1" linearTopology = .error e) ∧
    (linearTopology.Node "source1" = .error .NoSuchNode ∧
      ∀ k, typedNode k "source1" linearTopology = .error .NoSuchNode) :=
  ⟨rfl,
    added_node_is_found.1 (runCalls [.addSource "source"] NewDefaultDynamicTopology) _ .box
      "box1" 1 [.addBox "box2", .addSink "sink"] rfl (by decide),
    added_node_is_found.2 [.addSource "source", .addBox "box1", .addBox "box2", .addSink "sink"]
      "source1" (by decide)⟩

theorem mem_nodesOfKind (kind : NodeKind) (t : DefaultDynamicTopology) (name : String)
    (h : Nat) :
    (name, h) ∈ nodesOfKind kind t ↔ (name, h) ∈ t.Nodes ∧ t.kindOf h = some kind := by
  simp [nodesOfKind, Nodes, List.mem_filter]

/-- C18. In every state that calls reach from a new dynamic topology, `Nodes()`
is a map (no name twice) that holds exactly the nodes that `Node` finds, each
under the name that its wrapper carries; `Sources()`, `Boxes()` and `Sinks()`
hold exactly the entries of `Nodes()` of their kind, which are the nodes that
the typed lookups find; every entry of `Nodes()` is in one of the three; and no
name is in two of them. -/
theorem registry_views (calls : List DynamicCall) :
    ((runCalls calls NewDefaultDynamicTopology).Nodes.map (fun e => e.1)).Nodup ∧
    (∀ name h, (name, h) ∈ (runCalls calls NewDefaultDynamicTopology).Nodes ↔
      (runCalls calls NewDefaultDynamicTopology).Node name = .ok h) ∧
    (∀ name h, (name, h) ∈ (runCalls calls NewDefaultDynamicTopology).Nodes →
      ∃ w, (runCalls calls NewDefaultDynamicTopology).wrappers.get? h = some w ∧
        w.name = name) ∧
    (∀ name h,
      ((name, h) ∈ (runCalls calls NewDefaultDynamicTopology).Sources ↔
        (runCalls calls NewDefaultDynamicTopology).Source name = .ok h) ∧
      ((name, h) ∈ (runCalls calls NewDefaultDynamicTopology).Boxes ↔
        (runCalls calls NewDefaultDynamicTopology).Box name = .ok h) ∧
      ((name, h) ∈ (runCalls calls NewDefaultDynamicTopology).Sinks ↔
        (runCalls calls NewDefaultDynamicTopology).Sink name = .ok h)) ∧
    (∀ kind name h, (name, h) ∈ nodesOfKind kind (runCalls calls NewDefaultDynamicTopology) ↔
      (name, h) ∈ (runCalls calls NewDefaultDynamicTopology).Nodes ∧
        (runCalls calls NewDefaultDynamicTopology).kindOf h = some kind) ∧
    (∀ name h, (name, h) ∈ (runCalls calls NewDefaultDynamicTopology).Nodes ↔
      (name, h) ∈ (runCalls calls NewDefaultDynamicTopology).Sources ∨
      (name, h) ∈ (runCalls calls NewDefaultDynamicTopology).Boxes ∨
      (name, h) ∈ (runCalls calls NewDefaultDynamicTopology).Sinks) ∧
    (∀ name h h' k k', (name, h) ∈ nodesOfKind k (runCalls calls NewDefaultDynamicTopology) →
      (name, h') ∈ nodesOfKind k' (runCalls calls NewDefaultDynamicTopology) →
      k = k' ∧ h = h') := by
  have inv := runCalls_inv calls NewDefaultDynamicTopology newTopology_inv
  generalize runCalls calls NewDefaultDynamicTopology = t at inv ⊢
  have hmem : ∀ name h, (name, h) ∈ t.Nodes ↔ getKey name t.nodes = some h :=
    fun name h => ⟨getKey_of_mem name h t.nodes inv.keys, mem_of_getKey name h t.nodes⟩
  have htyped : ∀ kind name h, (name, h) ∈ nodesOfKind kind t ↔
      typedNode kind name t = .ok h := by
    intro kind name h
    rw [mem_nodesOfKind, typedNode_ok, hmem]
  refine ⟨inv.keys, ?_, ?_, ?_, ?_, ?_, ?_⟩
  · intro name h
    rw [hmem, Node_ok]
  · intro name h hm
    exact inv.bound name h ((hmem name h).1 hm)
  · intro name h
    exact ⟨htyped .source name h, htyped .box name h, htyped .sink name h⟩
  · intro kind name h
    exact mem_nodesOfKind kind t name h
  · intro name h
    constructor
    · intro hm
      obtain ⟨w, hw, _⟩ := inv.bound name h ((hmem name h).1 hm)
      have hkind : t.kindOf h = some w.kind := kindOf_of_get t h w hw
      cases hwk : w.kind with
      | source =>
        exact Or.inl ((mem_nodesOfKind .source t name h).2 ⟨hm, by rw [hkind, hwk]⟩)
      | box =>
        exact Or.inr (Or.inl ((mem_nodesOfKind .box t name h).2 ⟨hm, by rw [hkind, hwk]⟩))
      | sink =>
        exact Or.inr (Or.inr ((mem_nodesOfKind .sink t name h).2 ⟨hm, by rw [hkind, hwk]⟩))
    · rintro (hm | hm | hm)
      · exact ((mem_nodesOfKind .source t name h).1 hm).1
      · exact ((mem_nodesOfKind .box t name h).1 hm).1
      · exact ((mem_nodesOfKind .sink t name h).1 hm).1
  · intro name h h' k k' hm hm'
    obtain ⟨hn, hk⟩ := (mem_nodesOfKind k t name h).1 hm
    obtain ⟨hn', hk'⟩ := (mem_nodesOfKind k' t name h').1 hm'
    have e1 := (hmem name h).1 hn
    have e2 := (hmem name h').1 hn'
    rw [e1] at e2
    simp only [Option.some.injEq] at e2
    subst e2
    rw [hk] at hk'
    simp only [Option.some.injEq] at hk'
    exact ⟨hk', rfl⟩

/-- The statement of C18 at the linear topology of the tests: `box1` is in
`Nodes()` and in `Boxes()` as the node that `Node` and `Box` find. -/
theorem registry_views_witness :
    linearTopology.Nodes = [("source", 0), ("box1", 1), ("box2", 2), ("sink", 3)] ∧
    linearTopology.Boxes = [("box1", 1), ("box2", 2)] ∧
    (("box1", 1) ∈ linearTopology.Nodes ↔ linearTopology.Node "box1" = .ok 1) ∧
    (("box1", 1) ∈ linearTopology.Boxes ↔ linearTopology.Box "box1" = .ok 1) :=
  ⟨rfl, rfl,
    (registry_views [.addSource "source", .addBox "box1", .addBox "box2", .addSink "sink"]).2.1
      "box1" 1,
    ((registry_views [.addSource "source", .addBox "box1", .addBox "box2",
      .addSink "sink"]).2.2.2.1 "box1" 1).2.1⟩

/-- C19. In a running dynamic topology reached from a new one, `Remove(n)` on a
registered node `n` of any kind returns nil; afterwards every lookup of `n`
fails, the node is Stopped, and the lookups of every other name give what they
gave before. -/
theorem removed_node_is_gone (calls : List DynamicCall) (name : String) (h : Nat)
    (_hrun : (runCalls calls NewDefaultDynamicTopology).state = .TSRunning)
    (hreg : (runCalls calls NewDefaultDynamicTopology).Node name = .ok h) :
    ∃ t', (runCalls calls NewDefaultDynamicTopology).Remove name = .ok t' ∧
      t'.Node name = .error .NoSuchNode ∧
      (∀ k, typedNode k name t' = .error .NoSuchNode) ∧
      t'.stateOf h = some .TSStopped ∧
      ∀ other, other ≠ name →
        t'.Node other = (runCalls calls NewDefaultDynamicTopology).Node other ∧
        ∀ k, typedNode k other t'
          = typedNode k other (runCalls calls NewDefaultDynamicTopology) := by
  have inv := runCalls_inv calls NewDefaultDynamicTopology newTopology_inv
  generalize runCalls calls NewDefaultDynamicTopology = t at inv _hrun hreg ⊢
  have hk : getKey name t.nodes = some h := (Node_ok name t h).1 hreg
  obtain ⟨w, hw, _⟩ := inv.bound name h hk
  have heff := (DynamicCall.remove name).effect t
  have hrem : t.Remove name = .ok ((DynamicCall.remove name).apply t) := by
    simp only [DynamicCall.apply]
    unfold Remove
    rw [hk]
  refine ⟨(DynamicCall.remove name).apply t, hrem, ?_⟩
  have hnodes : ((DynamicCall.remove name).apply t).nodes = deleteKey name t.nodes := by
    simp only [DynamicCall.apply]
    unfold Remove
    rw [hk]
  have hgone : getKey name ((DynamicCall.remove name).apply t).nodes = none := by
    rw [hnodes]
    exact Execution.getKey_deleteKey_same _ _
  refine ⟨?_, fun k => typedNode_error_of_absent k name _ hgone, ?_, ?_⟩
  · unfold Node
    rw [hgone]
  · simp only [DynamicCall.apply]
    unfold Remove
    rw [hk]
    simp only [stateOf, List.get?_eq_getElem?, List.getElem?_map]
    rw [← List.get?_eq_getElem?, modifyAt_get?, if_pos rfl, hw]
    simp [stopWrapper_state]
  · intro other hne
    have hother : getKey other ((DynamicCall.remove name).apply t).nodes
        = getKey other t.nodes := by
      rw [hnodes]
      exact Execution.getKey_deleteKey_ne _ _ _ hne
    constructor
    · unfold Node
      rw [hother]
    · intro k
      unfold typedNode
      rw [hother]
      cases hko : getKey other t.nodes with
      | none => rfl
      | some h' =>
        simp only
        obtain ⟨w', hw', _⟩ := inv.bound other h' hko
        have hkind : t.kindOf h' = some w'.kind := kindOf_of_get t h' w' hw'
        have hkind' := kindOf_keeps heff.keeps t _ rfl rfl h' w'.kind hkind
        rw [hkind, hkind']

/-- The statement of C19 at the removal of `box1` from the linear topology of
the tests: the removal succeeds, `box1` is found no more and is Stopped, and
`source`, `box2` and `sink` are found as before. -/
theorem removed_node_is_gone_witness :
    linearTopology.state = .TSRunning ∧ linearTopology.Node "box1" = .ok 1 ∧
    ∃ t', linearTopology.Remove "box1" = .ok t' ∧
      t'.Node "box1" = .error .NoSuchNode ∧
      (∀ k, typedNode k "box1" t' = .error .NoSuchNode) ∧
      t'.stateOf 1 = some .TSStopped ∧
      ∀ other, other ≠ "box1" →
        t'.Node other = linearTopology.Node other ∧
        ∀ k, typedNode k other t' = typedNode k other linearTopology :=
  ⟨rfl, rfl,
    removed_node_is_gone [.addSource "source", .addBox "box1", .addBox "box2", .addSink "sink"]
      "box1" 1 rfl rfl⟩

/-! ## The lives of the nodes -/

theorem sameLife_self (w : NodeWrapper) : SameLife w w := ⟨rfl, rfl, rfl, rfl, rfl⟩

theorem sameLife_chain {a b c : NodeWrapper} (h1 : SameLife a b) (h2 : SameLife b c) :
    SameLife a c :=
  ⟨h2.1.trans h1.1, h2.2.1.trans h1.2.1, h2.2.2.1.trans h1.2.2.1,
    h2.2.2.2.1.trans h1.2.2.2.1, h2.2.2.2.2.trans h1.2.2.2.2⟩

theorem stopWrapper_of_stopped (w : NodeWrapper) (h : w.state = .TSStopped) :
    stopWrapper w = w := by
  unfold stopWrapper
  rw [if_pos h]

theorem stopWrapper_twice (w : NodeWrapper) : stopWrapper (stopWrapper w) = stopWrapper w :=
  stopWrapper_of_stopped (stopWrapper w) (stopWrapper_state w)

theorem stopWrapper_sameLife {a b : NodeWrapper} (h : SameLife a b) :
    SameLife (stopWrapper a) (stopWrapper b) := by
  obtain ⟨hn, hk, hs, ht, hc⟩ := h
  unfold stopWrapper
  by_cases hst : a.state = .TSStopped
  · have hst' : b.state = .TSStopped := hs.trans hst
    rw [if_pos hst, if_pos hst']
    exact ⟨hn, hk, hs, ht, hc⟩
  · have hst' : ¬ b.state = .TSStopped := fun e => hst (hs.symm.trans e)
    rw [if_neg hst, if_neg hst']
    refine ⟨hn, hk, rfl, ?_, ?_⟩
    · simp only [hk, ht]
    · simp only [hk, hc]

theorem stopWrapper_countsOnce (w : NodeWrapper) (h : CountsOnce w) :
    CountsOnce (stopWrapper w) := by
  unfold stopWrapper
  by_cases hst : w.state = .TSStopped
  · rw [if_pos hst]
    exact h
  · rw [if_neg hst]
    obtain ⟨ht, hc⟩ := h
    unfold CountsOnce
    simp only [hst, and_false, if_false] at ht hc
    simp only [ht, hc, and_true]

theorem sameLife_countsOnce {a b : NodeWrapper} (h : SameLife a b) (hc : CountsOnce a) :
    CountsOnce b := by
  obtain ⟨_, hk, hs, ht, hcl⟩ := h
  unfold CountsOnce at hc ⊢
  rw [hk, hs, ht, hcl]
  exact hc

theorem ages_same (ws : List NodeWrapper) : Ages (fun _ => False) ws ws :=
  ⟨rfl, fun _ w hw => ⟨w, hw, Or.inl ⟨fun e => e, sameLife_self w⟩⟩⟩

theorem ages_mono {P Q : Nat → Prop} {ws ws' : List NodeWrapper} (h : Ages P ws ws')
    (hpq : ∀ n, P n ↔ Q n) : Ages Q ws ws' := by
  refine ⟨h.1, fun n w hw => ?_⟩
  obtain ⟨w', hw', hcase⟩ := h.2 n w hw
  refine ⟨w', hw', ?_⟩
  rcases hcase with ⟨hp, hl⟩ | ⟨hp, hl⟩
  · exact Or.inl ⟨fun hq => hp ((hpq n).2 hq), hl⟩
  · exact Or.inr ⟨(hpq n).1 hp, hl⟩

theorem ages_chain {P Q : Nat → Prop} {a b c : List NodeWrapper} (h1 : Ages P a b)
    (h2 : Ages Q b c) : Ages (fun n => P n ∨ Q n) a c := by
  refine ⟨h2.1.trans h1.1, fun n w hw => ?_⟩
  obtain ⟨w1, hw1, hc1⟩ := h1.2 n w hw
  obtain ⟨w2, hw2, hc2⟩ := h2.2 n w1 hw1
  refine ⟨w2, hw2, ?_⟩
  rcases hc1 with ⟨hp, hl1⟩ | ⟨hp, hl1⟩
  · rcases hc2 with ⟨hq, hl2⟩ | ⟨hq, hl2⟩
    · exact Or.inl ⟨fun e => e.elim hp hq, sameLife_chain hl1 hl2⟩
    · exact Or.inr ⟨Or.inr hq, sameLife_chain (stopWrapper_sameLife hl1) hl2⟩
  · rcases hc2 with ⟨hq, hl2⟩ | ⟨hq, hl2⟩
    · exact Or.inr ⟨Or.inl hp, sameLife_chain hl1 hl2⟩
    · refine Or.inr ⟨Or.inl hp, ?_⟩
      have := stopWrapper_sameLife hl1
      rw [stopWrapper_twice] at this
      exact sameLife_chain this hl2

theorem ages_modifyAt (f : NodeWrapper → NodeWrapper) (hf : ∀ w, SameLife w (f w)) (n : Nat)
    (ws : List NodeWrapper) : Ages (fun _ => False) ws (modifyAt f n ws) := by
  refine ⟨modifyAt_length f n ws, fun h w hw => ?_⟩
  rw [modifyAt_get?]
  by_cases hn : h = n
  · rw [if_pos hn, hw]
    exact ⟨f w, rfl, Or.inl ⟨fun e => e, hf w⟩⟩
  · rw [if_neg hn]
    exact ⟨w, hw, Or.inl ⟨fun e => e, sameLife_self w⟩⟩

theorem ages_modifyAt_stop (f : NodeWrapper → NodeWrapper)
    (hf : ∀ w, SameLife (stopWrapper w) (f w)) (n : Nat) (ws : List NodeWrapper) :
    Ages (fun h => h = n) ws (modifyAt f n ws) := by
  refine ⟨modifyAt_length f n ws, fun h w hw => ?_⟩
  rw [modifyAt_get?]
  by_cases hn : h = n
  · rw [if_pos hn, hw]
    exact ⟨f w, rfl, Or.inr ⟨hn, hf w⟩⟩
  · rw [if_neg hn]
    exact ⟨w, hw, Or.inl ⟨hn, sameLife_self w⟩⟩

theorem ages_map (f : NodeWrapper → NodeWrapper) (hf : ∀ w, SameLife w (f w))
    (ws : List NodeWrapper) : Ages (fun _ => False) ws (ws.map f) := by
  refine ⟨List.length_map _ _, fun h w hw => ?_⟩
  refine ⟨f w, ?_, Or.inl ⟨fun e => e, hf w⟩⟩
  simp [List.get?_eq_getElem?] at hw ⊢
  exact ⟨w, hw, rfl⟩

theorem ages_stopAll (l : List (String × Nat)) : ∀ ws : List NodeWrapper,
    Ages (fun h => h ∈ l.map (fun e => e.2)) ws
      (l.foldl (fun ws e => modifyAt stopWrapper e.2 ws) ws) := by
  induction l with
  | nil =>
    intro ws
    exact ages_mono (ages_same ws) (fun n => by simp)
  | cons e l ih =>
    intro ws
    simp only [List.foldl_cons]
    exact ages_mono
      (ages_chain (ages_modifyAt_stop stopWrapper (fun w => sameLife_self _) e.2 ws) (ih _))
      (fun n => by simp)

theorem ages_origin {P : Nat → Prop} {ws ws' : List NodeWrapper} (h : Ages P ws ws') (n : Nat)
    (w' : NodeWrapper) (hw' : ws'.get? n = some w') :
    ∃ w, ws.get? n = some w ∧
      ((¬ P n ∧ SameLife w w') ∨ (P n ∧ SameLife (stopWrapper w) w')) := by
  have hlt : n < ws.length := by
    rw [← h.1]
    rw [List.get?_eq_getElem?] at hw'
    exact (List.getElem?_eq_some.1 hw').1
  have hw : ws.get? n = some (ws.get ⟨n, hlt⟩) := by
    rw [List.get?_eq_getElem?]
    exact List.getElem?_eq_getElem hlt
  obtain ⟨w'', hw'', hcase⟩ := h.2 n _ hw
  rw [hw'] at hw''
  simp only [Option.some.injEq] at hw''
  subst hw''
  exact ⟨_, hw, hcase⟩

theorem DynamicCall.lifeEffect (c : DynamicCall) (t : DefaultDynamicTopology) :
    LifeEffect c t (c.apply t) := by
  cases c with
  | addSource name =>
    rcases DefaultDynamicTopology.addNode_apply .source name t with h | ⟨_, h2, hk, h⟩
    · exact .same h
    · exact .added .source name h2 hk h
  | addBox name =>
    rcases DefaultDynamicTopology.addNode_apply .box name t with h | ⟨_, h2, hk, h⟩
    · exact .same h
    · exact .added .box name h2 hk h
  | addSink name =>
    rcases DefaultDynamicTopology.addNode_apply .sink name t with h | ⟨_, h2, hk, h⟩
    · exact .same h
    · exact .added .sink name h2 hk h
  | remove name =>
    simp only [DynamicCall.apply]
    cases hr : t.Remove name with
    | error e => exact .same rfl
    | ok t' =>
      show LifeEffect (.remove name) t t'
      unfold DefaultDynamicTopology.Remove at hr
      cases hk : getKey name t.nodes with
      | none => rw [hk] at hr; cases hr
      | some hd =>
        rw [hk] at hr
        simp only [Except.ok.injEq] at hr
        subst hr
        refine .removed name hd hk rfl rfl ?_
        have k1 := ages_modifyAt_stop (fun w => { stopWrapper w with inputs := [] })
          (fun w => ⟨rfl, rfl, rfl, rfl, rfl⟩) hd t.wrappers
        have k2 := ages_map
          (fun w : NodeWrapper => { w with inputs := w.inputs.filter (fun u => u ≠ name) })
          (fun w => ⟨rfl, rfl, rfl, rfl, rfl⟩)
          (modifyAt (fun w => { stopWrapper w with inputs := [] }) hd t.wrappers)
        exact ages_mono (ages_chain k1 k2) (fun n => by simp)
  | stop =>
    simp only [DynamicCall.apply, DefaultDynamicTopology.Stop]
    by_cases hs : t.state = .TSStopped
    · simp only [hs, if_true]
      exact .same rfl
    · simp only [hs, if_false]
      exact .stoppedAll rfl rfl (ages_stopAll t.nodes t.wrappers)
  | stopNode h =>
    exact .touched (fun n => n = h) rfl rfl
      (ages_modifyAt_stop stopWrapper (fun w => sameLife_self _) h t.wrappers)
  | input h refname =>
    simp only [DynamicCall.apply]
    cases hr : t.Input h refname with
    | error e => exact .same rfl
    | ok t' =>
      show LifeEffect (.input h refname) t t'
      unfold DefaultDynamicTopology.Input at hr
      cases hk : getKey refname t.nodes with
      | none => rw [hk] at hr; cases hr
      | some up =>
        rw [hk] at hr
        simp only at hr
        cases hw : t.wrappers.get? h with
        | none => rw [hw] at hr; cases hr
        | some w =>
          rw [hw] at hr
          simp only at hr
          by_cases h1 : t.kindOf up = some .sink ∨ w.kind = .source
          · simp only [h1, if_true] at hr
            cases hr
          · simp only [h1, if_false] at hr
            by_cases h2 : refname ∈ w.inputs
            · simp only [h2, if_true] at hr
              cases hr
            · simp only [h2, if_false, Except.ok.injEq] at hr
              subst hr
              exact .touched (fun _ => False) rfl rfl
                (ages_modifyAt
                  (fun w : NodeWrapper => { w with inputs := w.inputs ++ [refname] })
                  (fun w => ⟨rfl, rfl, rfl, rfl, rfl⟩) h t.wrappers)

theorem lifeInv_of_ages {P : Nat → Prop} {t t' : DefaultDynamicTopology}
    (hw : Ages P t.wrappers t'.wrappers) (inv : LifeInv t)
    (hreg : ∀ h w, t.wrappers.get? h = some w → ¬ P h → getKey w.name t.nodes = some h →
      getKey w.name t'.nodes = some h)
    (hhalt : t'.state = .TSStopped →
      ∀ h w, t.wrappers.get? h = some w → ¬ P h → w.state = .TSStopped) :
    LifeInv t' := by
  refine ⟨?_, ?_, ?_⟩
  · intro h w' hw'
    obtain ⟨w, hwold, hcase⟩ := ages_origin hw h w' hw'
    rcases hcase with ⟨_, hl⟩ | ⟨_, hl⟩
    · exact sameLife_countsOnce hl (inv.counts h w hwold)
    · exact sameLife_countsOnce hl (stopWrapper_countsOnce w (inv.counts h w hwold))
  · intro h w' hw' hrun
    obtain ⟨w, hwold, hcase⟩ := ages_origin hw h w' hw'
    rcases hcase with ⟨hp, hl⟩ | ⟨_, hl⟩
    · have hrun0 : w.state ≠ .TSStopped := fun e => hrun (hl.2.2.1.trans e)
      rw [hl.1]
      exact hreg h w hwold hp (inv.registered h w hwold hrun0)
    · exact absurd (hl.2.2.1.trans (stopWrapper_state w)) hrun
  · intro hst h w' hw'
    obtain ⟨w, hwold, hcase⟩ := ages_origin hw h w' hw'
    rcases hcase with ⟨hp, hl⟩ | ⟨_, hl⟩
    · exact hl.2.2.1.trans (hhalt hst h w hwold hp)
    · exact hl.2.2.1.trans (stopWrapper_state w)

theorem LifeEffect.lifeInv {c : DynamicCall} {t t' : DefaultDynamicTopology}
    (h : LifeEffect c t t') (inv : LifeInv t) : LifeInv t' := by
  cases h with
  | same h => rw [h]; exact inv
  | added kind name h2 hk h =>
    subst h
    have hget : ∀ n w, (t.wrappers ++
        [NodeWrapper.mk name kind .TSRunning [] 0 0]).get? n = some w →
        t.wrappers.get? n = some w ∨
          (n = t.wrappers.length ∧ w = NodeWrapper.mk name kind .TSRunning [] 0 0) := by
      intro n w hw
      rw [List.get?_eq_getElem?] at hw ⊢
      by_cases hlt : n < t.wrappers.length
      · rw [List.getElem?_append_left hlt] at hw
        exact Or.inl hw
      · rw [List.getElem?_append_right (not_lt.1 hlt)] at hw
        have hz : n - t.wrappers.length = 0 := by
          by_contra hne
          rw [List.getElem?_eq_none (by simp; omega)] at hw
          cases hw
        rw [hz] at hw
        simp only [List.getElem?_cons_zero, Option.some.injEq] at hw
        exact Or.inr ⟨by omega, hw.symm⟩
    refine ⟨?_, ?_, ?_⟩
    · intro n w hw
      rcases hget n w hw with ho | ⟨_, hnew⟩
      · exact inv.counts n w ho
      · rw [hnew]
        unfold CountsOnce
        simp
    · intro n w hw hrun
      show getKey w.name (setKey name t.wrappers.length t.nodes) = some n
      rcases hget n w hw with ho | ⟨hn, hnew⟩
      · have hreg := inv.registered n w ho hrun
        have hne : w.name ≠ name := by
          intro e
          rw [e, hk] at hreg
          cases hreg
        rw [Execution.getKey_setKey_ne name w.name _ t.nodes hne]
        exact hreg
      · rw [hnew, hn]
        exact Execution.getKey_setKey_same _ _ _
    · intro hst
      exact absurd hst h2
  | removed name hd hk hs hn hw =>
    apply lifeInv_of_ages hw inv
    · intro h w hwold hp hreg
      have hne : w.name ≠ name := by
        intro e
        rw [e, hk] at hreg
        simp only [Option.some.injEq] at hreg
        exact hp hreg.symm
      rw [hn, Execution.getKey_deleteKey_ne name w.name t.nodes hne]
      exact hreg
    · intro hst h w hwold _
      exact inv.halted (hs.symm.trans hst) h w hwold
  | stoppedAll hs hn hw =>
    apply lifeInv_of_ages hw inv
    · intro h w hwold _ hreg
      rw [hn]
      exact hreg
    · intro _ h w hwold hp
      by_contra hrun
      have hreg := inv.registered h w hwold hrun
      exact hp (List.mem_map.2 ⟨(w.name, h), mem_of_getKey w.name h t.nodes hreg, rfl⟩)
  | touched stopped hs hn hw =>
    apply lifeInv_of_ages hw inv
    · intro h w hwold _ hreg
      rw [hn]
      exact hreg
    · intro hst h w hwold _
      exact inv.halted (hs.symm.trans hst) h w hwold

theorem newTopology_lifeInv : LifeInv NewDefaultDynamicTopology :=
  { counts := by intro h w hw; simp [NewDefaultDynamicTopology] at hw
    registered := by intro h w hw; simp [NewDefaultDynamicTopology] at hw
    halted := by intro hst; simp [NewDefaultDynamicTopology] at hst }

theorem runCalls_lifeInv : ∀ (calls : List DynamicCall) (t : DefaultDynamicTopology),
    LifeInv t → LifeInv (runCalls calls t)
  | [], _, h => h
  | c :: calls, t, h => by
    rw [runCalls_cons]
    exact runCalls_lifeInv calls _ ((c.lifeEffect t).lifeInv h)

theorem Stop_state (t : DefaultDynamicTopology) : t.Stop.state = .TSStopped := by
  unfold Stop
  by_cases hs : t.state = .TSStopped
  · simp [hs]
  · simp [hs]

theorem Stop_twice (t : DefaultDynamicTopology) : t.Stop.Stop = t.Stop := by
  have hs := Stop_state t
  generalize t.Stop = t' at hs
  unfold Stop
  rw [if_pos hs]

theorem Stop_lifeInv (t : DefaultDynamicTopology) (inv : LifeInv t) : LifeInv t.Stop :=
  (DynamicCall.lifeEffect .stop t).lifeInv inv

/-! ## Stopping the topology -/

/-- C22. After any sequence of calls on a new dynamic topology (`AddSource`,
`AddBox`, `AddSink`, `Remove`, and the other calls), once `Stop()` has returned
the state of the topology is Stopped and the state of every node that has ever
been added, registered or removed, is Stopped; `Stop()` on a topology without
nodes ends in Stopped as well. -/
theorem stop_leaves_everything_stopped (calls : List DynamicCall) :
    (runCalls calls NewDefaultDynamicTopology).Stop.state = .TSStopped ∧
    (∀ h w, (runCalls calls NewDefaultDynamicTopology).Stop.wrappers.get? h = some w →
      w.state = .TSStopped) ∧
    (∀ name h, (runCalls calls NewDefaultDynamicTopology).Stop.Node name = .ok h →
      (runCalls calls NewDefaultDynamicTopology).Stop.stateOf h = some .TSStopped) ∧
    NewDefaultDynamicTopology.Stop.state = .TSStopped ∧
    NewDefaultDynamicTopology.Stop.Nodes = [] := by
  have inv := Stop_lifeInv _ (runCalls_lifeInv calls NewDefaultDynamicTopology newTopology_lifeInv)
  have reg : RegistryInv (runCalls calls NewDefaultDynamicTopology).Stop :=
    (DynamicCall.effect .stop _).inv (runCalls_inv calls NewDefaultDynamicTopology newTopology_inv)
  have hst := Stop_state (runCalls calls NewDefaultDynamicTopology)
  refine ⟨hst, inv.halted hst, ?_, rfl, rfl⟩
  intro name h hnode
  obtain ⟨w, hw, _⟩ := reg.bound name h ((Node_ok name _ h).1 hnode)
  unfold stateOf
  rw [hw, Option.map_some', inv.halted hst h w hw]

/-- The statement of C22 at the linear topology of the tests, from which `box1`
is removed before the stop: the topology and its four nodes are Stopped. -/
theorem stop_leaves_everything_stopped_witness :
    ((runCalls [.remove "box1"] linearTopology).Stop.wrappers.map (fun w => (w.name, w.state))
      = [("source", .TSStopped), ("box1", .TSStopped), ("box2", .TSStopped),
         ("sink", .TSStopped)]) ∧
    (runCalls [.remove "box1"] linearTopology).Stop.state = .TSStopped ∧
    ∀ h w, (runCalls [.remove "box1"] linearTopology).Stop.wrappers.get? h = some w →
      w.state = .TSStopped :=
  ⟨by decide,
    (stop_leaves_everything_stopped [.addSource "source", .addBox "box1", .addBox "box2",
      .addSink "sink", .remove "box1"]).1,
    (stop_leaves_everything_stopped [.addSource "source", .addBox "box1", .addBox "box2",
      .addSink "sink", .remove "box1"]).2.1⟩

/-- C23. `Stop()` on a dynamic topology is idempotent: after any sequence of
calls on a new topology, calling it `k ≥ 1` times leaves the topology that
calling it once leaves: the topology is Stopped, every node is Stopped,
`Terminate` has been invoked once on every box and `Close` once on every sink,
and neither on any other node. -/
theorem stop_is_idempotent (calls : List DynamicCall) (k : Nat) (hk : 1 ≤ k) :
    Nat.iterate Stop k (runCalls calls NewDefaultDynamicTopology)
      = (runCalls calls NewDefaultDynamicTopology).Stop ∧
    (Nat.iterate Stop k (runCalls calls NewDefaultDynamicTopology)).state = .TSStopped ∧
    ∀ h w, (Nat.iterate Stop k (runCalls calls NewDefaultDynamicTopology)).wrappers.get? h
        = some w →
      w.state = .TSStopped ∧
      w.terminateCnt = (if w.kind = .box then 1 else 0) ∧
      w.closeCnt = (if w.kind = .sink then 1 else 0) := by
  have hiter : Nat.iterate Stop k (runCalls calls NewDefaultDynamicTopology)
      = (runCalls calls NewDefaultDynamicTopology).Stop := by
    obtain ⟨m, rfl⟩ : ∃ m, k = m + 1 := ⟨k - 1, by omega⟩
    rw [Function.iterate_succ_apply]
    exact Function.iterate_fixed (Stop_twice _) m
  rw [hiter]
  have inv := Stop_lifeInv _ (runCalls_lifeInv calls NewDefaultDynamicTopology newTopology_lifeInv)
  have hst := Stop_state (runCalls calls NewDefaultDynamicTopology)
  refine ⟨rfl, hst, ?_⟩
  intro h w hw
  have hs := inv.halted hst h w hw
  obtain ⟨ht, hc⟩ := inv.counts h w hw
  simp only [hs, and_true] at ht hc
  exact ⟨hs, ht, hc⟩

/-- The statement of C23 at three calls of `Stop()` on the linear topology of
the tests: `Terminate` has been invoked once on `box1` and on `box2`, `Close`
once on `sink`. -/
theorem stop_is_idempotent_witness :
    ((Nat.iterate Stop 3 linearTopology).wrappers.map
        (fun w => (w.name, w.terminateCnt, w.closeCnt))
      = [("source", 0, 0), ("box1", 1, 0), ("box2", 1, 0), ("sink", 0, 1)]) ∧
    Nat.iterate Stop 3 linearTopology = linearTopology.Stop ∧
    (Nat.iterate Stop 3 linearTopology).state = .TSStopped :=
  ⟨by decide,
    (stop_is_idempotent [.addSource "source", .addBox "box1", .addBox "box2", .addSink "sink"]
      3 (by decide)).1,
    (stop_is_idempotent [.addSource "source", .addBox "box1", .addBox "box2", .addSink "sink"]
      3 (by decide)).2.1⟩

end Core

namespace Core

open Execution (getKey setKey deleteKey)

/-! ## The static builder -/

namespace DefaultStaticTopologyBuilder

theorem declare_of_free (kind : NodeKind) (name : String) (tb : DefaultStaticTopologyBuilder)
    (h : getKey name tb.nodes = none) :
    declare kind name tb
      = { tb := { tb with nodes := setKey name kind tb.nodes }, name := name, kind := kind,
          err := none } := by
  unfold declare
  rw [h]

theorem declare_of_taken (kind : NodeKind) (name : String) (tb : DefaultStaticTopologyBuilder)
    (k : NodeKind) (h : getKey name tb.nodes = some k) :
    declare kind name tb
      = { tb := tb, name := name, kind := kind, err := some .DuplicateName } := by
  unfold declare
  rw [h]

theorem addOfKind_eq (kind : NodeKind) (name : String) (tb : DefaultStaticTopologyBuilder) :
    addOfKind kind name tb = declare kind name tb := by
  cases kind <;> rfl

theorem declare_effect (c : StaticCall) (kind : NodeKind) (name : String)
    (tb : DefaultStaticTopologyBuilder) (hc : c.adds name = true) :
    StaticEffect c tb (declare kind name tb).tb := by
  cases h : getKey name tb.nodes with
  | none =>
    rw [declare_of_free kind name tb h]
    exact .added kind name hc h rfl rfl
  | some k =>
    rw [declare_of_taken kind name tb k h]
    exact .same rfl

end DefaultStaticTopologyBuilder

theorem StaticCall.builderEffect (c : StaticCall) (tb : DefaultStaticTopologyBuilder) :
    StaticEffect c tb (c.apply tb) := by
  cases c with
  | addSource name =>
    exact DefaultStaticTopologyBuilder.declare_effect _ .source name tb (by simp [StaticCall.adds])
  | addBox name =>
    exact DefaultStaticTopologyBuilder.declare_effect _ .box name tb (by simp [StaticCall.adds])
  | addSink name =>
    exact DefaultStaticTopologyBuilder.declare_effect _ .sink name tb (by simp [StaticCall.adds])
  | input name refname =>
    simp only [StaticCall.apply]
    cases hk : getKey name tb.nodes with
    | none => exact .same rfl
    | some kind =>
      simp only [Declarer.Input]
      cases hr : getKey refname tb.nodes with
      | none => exact .same rfl
      | some k =>
        simp only
        split
        · exact .same rfl
        · split
          · exact .same rfl
          · exact .linked name refname kind hk rfl rfl

theorem StaticEffect.keeps_name {c : StaticCall} {tb tb' : DefaultStaticTopologyBuilder}
    (h : StaticEffect c tb tb') (n : String) (k : NodeKind)
    (hn : getKey n tb.nodes = some k) : getKey n tb'.nodes = some k := by
  cases h with
  | same h => rw [h]; exact hn
  | added kind name hc hfree hn' he =>
    have hne : n ≠ name := by
      intro e
      rw [e, hfree] at hn
      cases hn
    rw [hn', Execution.getKey_setKey_ne name n kind tb.nodes hne]
    exact hn
  | linked name refname kind hk hn' he => rw [hn']; exact hn

theorem StaticEffect.absent {c : StaticCall} {tb tb' : DefaultStaticTopologyBuilder}
    (h : StaticEffect c tb tb') (n : String) (hn : getKey n tb.nodes = none)
    (hc : c.adds n = false) : getKey n tb'.nodes = none := by
  cases h with
  | same h => rw [h]; exact hn
  | added kind name hc' hfree hn' he =>
    have hne : n ≠ name := by
      intro e
      rw [e, hc'] at hc
      cases hc
    rw [hn', Execution.getKey_setKey_ne name n kind tb.nodes hne]
    exact hn
  | linked name refname kind hk hn' he => rw [hn']; exact hn

theorem StaticEffect.edges {c : StaticCall} {tb tb' : DefaultStaticTopologyBuilder}
    (h : StaticEffect c tb tb') (hinv : EdgesInv tb) : EdgesInv tb' := by
  intro e he
  cases h with
  | same h => rw [h] at he ⊢; exact hinv e he
  | added kind name hc hfree hn' hedges =>
    rw [hedges] at he
    obtain ⟨k, hk⟩ := hinv e he
    exact ⟨k, (StaticEffect.added kind name hc hfree hn' hedges : StaticEffect c tb tb').keeps_name
      e.2 k hk⟩
  | linked name refname kind hk hn' hedges =>
    rw [hedges] at he
    rw [hn']
    rcases List.mem_append.1 he with h1 | h1
    · exact hinv e h1
    · simp only [List.mem_singleton] at h1
      rw [h1]
      exact ⟨kind, hk⟩

theorem buildCalls_cons (c : StaticCall) (calls : List StaticCall)
    (tb : DefaultStaticTopologyBuilder) :
    buildCalls (c :: calls) tb = buildCalls calls (c.apply tb) := rfl

theorem buildCalls_inv : ∀ (calls : List StaticCall) (tb : DefaultStaticTopologyBuilder),
    EdgesInv tb → EdgesInv (buildCalls calls tb)
  | [], _, h => h
  | c :: calls, tb, h => by
    rw [buildCalls_cons]
    exact buildCalls_inv calls _ ((c.builderEffect tb).edges h)

theorem newBuilder_inv : EdgesInv NewDefaultStaticTopologyBuilder := by
  intro e he
  cases he

theorem buildCalls_keeps_name : ∀ (calls : List StaticCall) (tb : DefaultStaticTopologyBuilder)
    (n : String) (k : NodeKind), getKey n tb.nodes = some k →
    getKey n (buildCalls calls tb).nodes = some k
  | [], _, _, _, h => h
  | c :: calls, tb, n, k, h => by
    rw [buildCalls_cons]
    exact buildCalls_keeps_name calls _ n k ((c.builderEffect tb).keeps_name n k h)

theorem buildCalls_absent : ∀ (calls : List StaticCall) (tb : DefaultStaticTopologyBuilder)
    (n : String), getKey n tb.nodes = none → (∀ c ∈ calls, c.adds n = false) →
    getKey n (buildCalls calls tb).nodes = none
  | [], _, _, h, _ => h
  | c :: calls, tb, n, h, hc => by
    rw [buildCalls_cons]
    exact buildCalls_absent calls _ n
      ((c.builderEffect tb).absent n h (hc c (List.mem_cons_self _ _)))
      (fun c' hc' => hc c' (List.mem_cons_of_mem _ hc'))

/-! ## Chains of `Input` -/

theorem Declarer.inputs_of_error : ∀ (ups : List String) (d : Declarer) (e : TopologyError),
    d.err = some e → ups.foldl Declarer.Input d = d
  | [], _, _, _ => rfl
  | u :: ups, d, e, h => by
    have h1 : d.Input u = d := by
      unfold Declarer.Input
      rw [h]
    rw [List.foldl_cons, h1]
    exact Declarer.inputs_of_error ups d e h

theorem Declarer.inputs_ok_iff : ∀ (ups : List String) (d : Declarer), d.err = none →
    d.kind ≠ .source →
    ((ups.foldl Declarer.Input d).Err = none ↔
      (∀ u ∈ ups, getKey u d.tb.nodes = some .source ∨ getKey u d.tb.nodes = some .box) ∧
      (∀ u ∈ ups, (u, d.name) ∉ d.tb.Edges) ∧ ups.Nodup)
  | [], d, h, _ => by simp [Declarer.Err, h]
  | u :: ups, d, h, hkind => by
    rw [List.foldl_cons]
    have fails : ∀ e, d.Input u = { d with err := some e } →
        ¬ ((ups.foldl Declarer.Input (d.Input u)).Err = none) := by
      intro e he
      rw [he, Declarer.inputs_of_error ups _ e rfl]
      simp [Declarer.Err]
    cases hu : getKey u d.tb.nodes with
    | none =>
      have he : d.Input u = { d with err := some .NoSuchNode } := by
        unfold Declarer.Input
        rw [h, hu]
      constructor
      · intro hok
        exact absurd hok (fails _ he)
      · rintro ⟨hv, _, _⟩
        have := hv u (List.mem_cons_self _ _)
        rw [hu] at this
        rcases this with h1 | h1 <;> cases h1
    | some k =>
      by_cases hdir : k = .sink
      · have he : d.Input u = { d with err := some .WrongDirection } := by
          unfold Declarer.Input
          rw [h, hu]
          simp [hdir]
        constructor
        · intro hok
          exact absurd hok (fails _ he)
        · rintro ⟨hv, _, _⟩
          have := hv u (List.mem_cons_self _ _)
          rw [hu, hdir] at this
          rcases this with h1 | h1 <;> cases h1
      · have hvalid : getKey u d.tb.nodes = some NodeKind.source ∨
            getKey u d.tb.nodes = some NodeKind.box := by
          rw [hu]
          cases k with
          | source => exact Or.inl rfl
          | box => exact Or.inr rfl
          | sink => exact absurd rfl hdir
        by_cases hedge : (u, d.name) ∈ d.tb.Edges
        · have he : d.Input u = { d with err := some .DuplicateEdge } := by
            unfold Declarer.Input
            rw [h, hu]
            simp [hdir, hkind, hedge]
          constructor
          · intro hok
            exact absurd hok (fails _ he)
          · rintro ⟨_, hne, _⟩
            exact absurd hedge (hne u (List.mem_cons_self _ _))
        · have he : d.Input u
              = { d with tb := { d.tb with Edges := d.tb.Edges ++ [(u, d.name)] } } := by
            unfold Declarer.Input
            rw [h, hu]
            simp [hdir, hkind, hedge]
          have ih := Declarer.inputs_ok_iff ups
            { d with tb := { d.tb with Edges := d.tb.Edges ++ [(u, d.name)] } } h hkind
          rw [he, ih]
          constructor
          · rintro ⟨hv, hne, hnd⟩
            refine ⟨?_, ?_, List.nodup_cons.2 ⟨?_, hnd⟩⟩
            · intro a ha
              rcases List.mem_cons.1 ha with e | ha'
              · rw [e]
                exact hvalid
              · exact hv a ha'
            · intro a ha
              rcases List.mem_cons.1 ha with e | ha'
              · rw [e]
                exact hedge
              · intro hm
                exact hne a ha' (List.mem_append_left _ hm)
            · intro hm
              exact hne u hm (List.mem_append_right _ (List.mem_singleton.2 rfl))
          · rintro ⟨hv, hne, hnd⟩
            have hnd' := List.nodup_cons.1 hnd
            refine ⟨fun a ha => hv a (List.mem_cons_of_mem _ ha), ?_, hnd'.2⟩
            intro a ha hm
            rcases List.mem_append.1 hm with h1 | h1
            · exact hne a (List.mem_cons_of_mem _ ha) h1
            · have e : a = u := by
                simpa using h1
              rw [e] at ha
              exact hnd'.1 ha

/-! ## The claims on the static builder -/

/-- C14. In the static builder, for every name and every pair of node kinds: the
first `AddSource`/`AddBox`/`AddSink` with the name, after calls that did not add
it, returns a declarer whose `Err()` is nil, and an `AddSource`/`AddBox`/`AddSink`
with the same name at any later time returns a declarer whose `Err()` is the
error `DuplicateName`. -/
theorem second_declaration_fails (calls1 calls2 : List StaticCall) (name : String)
    (k1 k2 : NodeKind) (hfirst : ∀ c ∈ calls1, c.adds name = false) :
    (DefaultStaticTopologyBuilder.addOfKind k1 name
      (buildCalls calls1 NewDefaultStaticTopologyBuilder)).Err = none ∧
    (DefaultStaticTopologyBuilder.addOfKind k2 name
      (buildCalls calls2
        (DefaultStaticTopologyBuilder.addOfKind k1 name
          (buildCalls calls1 NewDefaultStaticTopologyBuilder)).tb)).Err
      = some .DuplicateName := by
  have hfree : getKey name (buildCalls calls1 NewDefaultStaticTopologyBuilder).nodes = none :=
    buildCalls_absent calls1 _ name rfl hfirst
  generalize buildCalls calls1 NewDefaultStaticTopologyBuilder = tb at hfree
  rw [DefaultStaticTopologyBuilder.addOfKind_eq k1,
    DefaultStaticTopologyBuilder.declare_of_free k1 name tb hfree,
    DefaultStaticTopologyBuilder.addOfKind_eq k2]
  refine ⟨rfl, ?_⟩
  have hreg := buildCalls_keeps_name calls2
    { tb with nodes := setKey name k1 tb.nodes } name k1
    (Execution.getKey_setKey_same name k1 tb.nodes)
  rw [DefaultStaticTopologyBuilder.declare_of_taken k2 name _ k1 hreg]
  rfl

/-- The statement of C14 at the test "when using a source name with a box
name": `AddBox("someName")` on a new builder, then `AddSource("someName")`. -/
theorem second_declaration_fails_witness :
    (NewDefaultStaticTopologyBuilder.AddBox "someName").Err = none ∧
    ((NewDefaultStaticTopologyBuilder.AddBox "someName").tb.AddSource "someName").Err
      = some .DuplicateName :=
  second_declaration_fails [] [] "someName" .box .source (by decide)

/-- C15. In the static builder, a chain of `Input` calls on a box or sink that
has just been added under a free name has a nil `Err()` if and only if every
named upstream is declared as a source or as a box when the chain starts (the
new box counts as declared) and no upstream is named twice; so a chain that
names an undeclared node, or an upstream twice, has a non-nil `Err()`. -/
theorem input_chain_accepted_iff (calls : List StaticCall) (kind : NodeKind) (name : String)
    (ups : List String) (hkind : kind = .box ∨ kind = .sink)
    (hnew : (buildCalls calls NewDefaultStaticTopologyBuilder).kindOf name = none) :
    ((ups.foldl Declarer.Input (DefaultStaticTopologyBuilder.addOfKind kind name
        (buildCalls calls NewDefaultStaticTopologyBuilder))).Err = none ↔
      (∀ u ∈ ups,
        (DefaultStaticTopologyBuilder.addOfKind kind name
          (buildCalls calls NewDefaultStaticTopologyBuilder)).tb.kindOf u = some .source ∨
        (DefaultStaticTopologyBuilder.addOfKind kind name
          (buildCalls calls NewDefaultStaticTopologyBuilder)).tb.kindOf u = some .box) ∧
      ups.Nodup) ∧
    ((∃ u ∈ ups, (DefaultStaticTopologyBuilder.addOfKind kind name
        (buildCalls calls NewDefaultStaticTopologyBuilder)).tb.kindOf u = none) →
      (ups.foldl Declarer.Input (DefaultStaticTopologyBuilder.addOfKind kind name
        (buildCalls calls NewDefaultStaticTopologyBuilder))).Err ≠ none) ∧
    (¬ ups.Nodup →
      (ups.foldl Declarer.Input (DefaultStaticTopologyBuilder.addOfKind kind name
        (buildCalls calls NewDefaultStaticTopologyBuilder))).Err ≠ none) := by
  have inv := buildCalls_inv calls _ newBuilder_inv
  generalize buildCalls calls NewDefaultStaticTopologyBuilder = tb at inv hnew
  have hfree : getKey name tb.nodes = none := hnew
  rw [DefaultStaticTopologyBuilder.addOfKind_eq,
    DefaultStaticTopologyBuilder.declare_of_free kind name tb hfree]
  have hsrc : kind ≠ .source := by
    rcases hkind with h | h <;> rw [h] <;> decide
  have hnoedge : ∀ u ∈ ups, (u, name) ∉ tb.Edges := by
    intro u _ hmem
    obtain ⟨k, hk⟩ := inv (u, name) hmem
    rw [hfree] at hk
    cases hk
  have key := Declarer.inputs_ok_iff ups
    { tb := { tb with nodes := setKey name kind tb.nodes }, name := name, kind := kind,
      err := none } rfl hsrc
  have main : (ups.foldl Declarer.Input
        { tb := { tb with nodes := setKey name kind tb.nodes }, name := name, kind := kind,
          err := none }).Err = none ↔
      (∀ u ∈ ups,
        DefaultStaticTopologyBuilder.kindOf u { tb with nodes := setKey name kind tb.nodes }
          = some .source ∨
        DefaultStaticTopologyBuilder.kindOf u { tb with nodes := setKey name kind tb.nodes }
          = some .box) ∧ ups.Nodup := by
    rw [key]
    constructor
    · rintro ⟨hv, _, hnd⟩
      exact ⟨hv, hnd⟩
    · rintro ⟨hv, hnd⟩
      exact ⟨hv, hnoedge, hnd⟩
  refine ⟨main, ?_, ?_⟩
  · rintro ⟨u, hu, hnone⟩ hok
    have := (main.1 hok).1 u hu
    rw [hnone] at this
    rcases this with h | h <;> cases h
  · intro hdup hok
    exact hdup (main.1 hok).2

/-- The statement of C15 at the tests on the builder that has the source
`aSource` and the box `aBox`: the new box `otherBox` with the inputs `aBox` and
`aSource` is accepted. -/
theorem input_chain_accepted_iff_witness :
    (((sourceAndBox.AddBox "otherBox").Input "aBox").Input "aSource").Err = none :=
  (input_chain_accepted_iff [.addSource "aSource", .addBox "aBox"] .box "otherBox"
    ["aBox", "aSource"] (Or.inl rfl) rfl).1.2 ⟨by decide, by decide⟩

end Core
